import Mathlib

/-! The ANF equation container (`src/anf.h`).

A verification development for the equation-system container `ANF`: a shallow
embedding of the container's state and of the functions defined in `anf.h`,
followed by the theorems about them.

The ring library (monomials, polynomials) and the substitution tracker are
collaborators of the container; they are embedded the way the specification's
data model describes them. So are the operations of the container that `anf.h`
only declares (`propagate`, `elimLin`, `addBoolePolynomial`, ...): their
definitions carry a doc comment that starts with `Modelled from the spec:`.

Counters of type `size_t` are natural numbers; the one signed quantity, the
`int` accumulator of `ANF::deg`, is an integer whose conversion to `size_t` is
explicit.
-/

set_option autoImplicit false

/-! ## The boolean polynomial ring -/

/-- Modelled from the spec: the ring library's monomial type. A monomial is "a set of
variable indices (unordered, no duplicates); the empty monomial denotes the constant 1". -/
abbrev BooleMonomial := Finset Nat

/-- Modelled from the spec: the ring library's polynomial type. A polynomial is "a set of
distinct monomials; XOR-sum semantics"; the empty set is the zero polynomial and the
polynomial holding just the empty monomial is the constant 1. -/
abbrev BoolePolynomial := Finset BooleMonomial

namespace BoolePolynomial

/-- The zero polynomial (no monomials). -/
def zero : BoolePolynomial := ∅

/-- The constant polynomial 1 (just the empty monomial). -/
def one : BoolePolynomial := {∅}

/-- Modelled from the spec: `BoolePolynomial::isZero()` of the ring library. -/
def isZero (p : BoolePolynomial) : Bool := decide (p = ∅)

/-- Modelled from the spec: `BoolePolynomial::length()` of the ring library, the number of
monomials of the polynomial. -/
def length (p : BoolePolynomial) : Nat := p.card

/-- Modelled from the spec: `BoolePolynomial::deg()` of the ring library, a signed `int`:
"Degree = size of largest monomial", and `-1` for the zero polynomial. -/
def deg (p : BoolePolynomial) : Int :=
  if p = ∅ then -1 else ((p.sup Finset.card : Nat) : Int)

/-- Modelled from the spec: the support of a polynomial (`usedVariables()` of the ring
library), the set of variables that occur in some monomial. -/
def support (p : BoolePolynomial) : Finset Nat := p.sup id

end BoolePolynomial

/-! ## The substitution tracker -/

/-- Modelled from the spec: what the substitution tracker knows about one variable,
"unset, fixed to 0/1, or replaced by ±(another variable)". `replaced w neg` stands for the
literal `w` when `neg = false` and for `¬w` when `neg = true`. -/
inductive VarStatus where
  | unset : VarStatus
  | fixed (b : Bool) : VarStatus
  | replaced (w : Nat) (neg : Bool) : VarStatus
  deriving DecidableEq, Repr

/-- Modelled from the spec: the state of the substitution tracker (`Replacer`), one status
per variable of the ring together with the global consistency flag read by `getOK()`
(the container itself has no field for that flag). -/
structure Replacer where
  status : List VarStatus
  ok : Bool
  deriving DecidableEq

/-! ## The container -/

/-- The state of `class ANF` (members `comments`, `eqs`, `replacer`, `occur`,
`updatedVars`); `ring` and `config` are read-only handles and are not part of the state. -/
structure ANF where
  comments : List String
  eqs : List BoolePolynomial
  replacer : Replacer
  occur : List (List Nat)
  updatedVars : Finset Nat
  deriving DecidableEq

/-- Conversion of an `int` to `size_t` (64 bit), as done by `return deg;` in `ANF::deg`. -/
def intToSizeT (d : Int) : Nat :=
  if d < 0 then (d + 2 ^ 64).toNat else d.toNat

/-- The loop body `unique.insert(mono)` of `numUniqueMonoms` commutes with itself, so the
loop over the monomials of a polynomial does not depend on the iteration order. -/
instance stdSetInsertLeftComm :
    LeftCommutative (fun (mono : BooleMonomial) (unique : Finset BooleMonomial) =>
      insert mono unique) :=
  ⟨fun a b s => Finset.Insert.comm a b s⟩

/-- The inner loop of `numUniqueMonoms`, `for (mono : poly) unique.insert(mono)`, on a
`std::set` of monomials. -/
def insertMonoms (unique : Finset BooleMonomial) (poly : BoolePolynomial) :
    Finset BooleMonomial :=
  Multiset.foldr (fun mono unique => insert mono unique) unique poly.val

namespace ANF

/-- `ANF::size`: `return eqs.size();`. -/
def size (a : ANF) : Nat := a.eqs.length

/-- `ANF::numMonoms`: `num += poly.length()` over all of `eqs`. -/
def numMonoms (a : ANF) : Nat :=
  a.eqs.foldl (fun num poly => num + BoolePolynomial.length poly) 0

/-- `ANF::numUniqueMonoms`: every monomial of every polynomial of `equations` is inserted
into a `std::set`, whose size is returned. -/
def numUniqueMonoms (_a : ANF) (equations : List BoolePolynomial) : Nat :=
  (equations.foldl (fun unique poly => insertMonoms unique poly) ∅).card

/-- `ANF::deg`: `int deg = 0; deg = std::max(deg, poly.deg())` over all of `eqs`, returned
as `size_t`. -/
def deg (a : ANF) : Nat :=
  intToSizeT (a.eqs.foldl (fun deg poly => max deg (BoolePolynomial.deg poly)) 0)

/-- `ANF::getEqs`: `return eqs;`. -/
def getEqs (a : ANF) : List BoolePolynomial := a.eqs

/-- `ANF::getNumSimpleXors`: `num += (poly.deg() == 1)` over all of `eqs`. -/
def getNumSimpleXors (a : ANF) : Nat :=
  a.eqs.foldl (fun num poly => num + (if BoolePolynomial.deg poly = 1 then 1 else 0)) 0

/-- `ANF::getOccur`: `return occur;`. -/
def getOccur (a : ANF) : List (List Nat) := a.occur

/-- The line break written by `endl`. -/
def endl : String := "\n"

/-- The friend `operator<<(std::ostream&, const ANF&)`. The stream is the text written so
far; the printers of the ring library (`os << poly`) and of the tracker
(`os << *(anf.replacer)`) are parameters. -/
def print (showPoly : BoolePolynomial → String) (showReplacer : Replacer → String)
    (os : String) (anf : ANF) : String :=
  let os := anf.comments.foldl (fun os comment => os ++ comment ++ endl) os
  let os := anf.eqs.foldl (fun os poly => os ++ showPoly poly ++ endl) os
  os ++ showReplacer anf.replacer

end ANF

/-! ## The specification's readings, for comparison with the code -/

namespace ANF

/-- The specification's `size()`: the "number of non-empty equation slots", a slot holding
the zero polynomial not being counted. -/
def numNonEmptySlots (a : ANF) : Nat :=
  a.eqs.countP (fun p => !BoolePolynomial.isZero p)

/-- The number of slots that hold the zero polynomial (emptied, not yet compacted). -/
def numEmptySlots (a : ANF) : Nat :=
  a.eqs.countP (fun p => BoolePolynomial.isZero p)

/-- The live equations of the store: the slots that do not hold the zero polynomial, in
store order. -/
def liveEqs (a : ANF) : List BoolePolynomial :=
  a.eqs.filter (fun p => !BoolePolynomial.isZero p)

/-- The union of the monomial sets of a list of equations. -/
def allMonoms (equations : List BoolePolynomial) : Finset BooleMonomial :=
  equations.foldr (fun p acc => p ∪ acc) ∅

/-- The specification's "degree exactly 1": the largest monomial is a single variable, that
is, some monomial is a single variable and no monomial has two variables or more. -/
def isSimpleXor (p : BoolePolynomial) : Prop :=
  (∃ m ∈ p, m.card = 1) ∧ ∀ m ∈ p, m.card ≤ 1

instance (p : BoolePolynomial) : Decidable (isSimpleXor p) :=
  inferInstanceAs (Decidable ((∃ m ∈ p, m.card = 1) ∧ ∀ m ∈ p, m.card ≤ 1))

/-- The text of a list of lines, each followed by a line break. -/
def unlines : List String → String
  | [] => ""
  | l :: ls => l ++ endl ++ unlines ls

/-- The specification's textual dump: the comments, then one line per live equation, then
the tracker's dump. -/
def printSpec (showPoly : BoolePolynomial → String) (showReplacer : Replacer → String)
    (os : String) (anf : ANF) : String :=
  os ++ unlines anf.comments ++ unlines (anf.liveEqs.map showPoly) ++ showReplacer anf.replacer

/-- A state of the container of a ring of three variables with an emptied slot: slot 0 has
been rewritten to the zero polynomial and the store has not been compacted since; slot 1
holds `x1*x2 + x0`. -/
def exampleEmptiedSlot : ANF where
  comments := ["c example"]
  eqs := [∅, {{1, 2}, {0}}]
  replacer := ⟨[VarStatus.unset, VarStatus.unset, VarStatus.unset], true⟩
  occur := [[1], [1], [1]]
  updatedVars := ∅

end ANF

/-! ## Ring arithmetic used by the simplification engine -/

namespace BoolePolynomial

/-- Modelled from the spec: addition of the ring library, "addition defined as symmetric
difference of monomial sets (XOR)". -/
def add (p q : BoolePolynomial) : BoolePolynomial := symmDiff p q

/-- Modelled from the spec: multiplication of the ring library. The product of two monomials
is the monomial on the union of their variables; a monomial of the product survives when
it arises from an odd number of pairs (XOR cancellation). -/
def mul (p q : BoolePolynomial) : BoolePolynomial :=
  ((p ×ˢ q).image (fun mm => mm.1 ∪ mm.2)).filter
    (fun M => ((p ×ˢ q).filter (fun mm => mm.1 ∪ mm.2 = M)).card % 2 = 1)

/-- Modelled from the spec: substitution of the polynomial `e` for the variable `v`. With
`p = p0 + v * p1`, where `p0` holds the monomials without `v`, the result is `p0 + e * p1`:
a fixed value 0 drops the monomials containing `v`, a fixed value 1 drops `v` from them, and
a literal puts the replacement variable in the place of `v`, "merging monomials that become
identical via XOR cancellation". -/
def substVar (v : Nat) (e : BoolePolynomial) (p : BoolePolynomial) : BoolePolynomial :=
  add (p.filter (fun m => v ∉ m)) (mul e ((p.filter (fun m => v ∈ m)).image (fun m => m.erase v)))

/-- Modelled from the spec: substitution of the polynomial `to_poly` for the monomial
`from_mono` in every monomial that contains it ("monomial-level factorization"). -/
def substMono (from_mono : BooleMonomial) (to_poly : BoolePolynomial) (p : BoolePolynomial) :
    BoolePolynomial :=
  add (p.filter (fun m => ¬ from_mono ⊆ m))
    (mul to_poly ((p.filter (fun m => from_mono ⊆ m)).image (fun m => m \ from_mono)))

/-- A polynomial of the ring of `n` variables: every variable of its support is an index
in `[0, n)`. -/
def inRing (n : Nat) (p : BoolePolynomial) : Prop := ∀ v ∈ support p, v < n

instance (n : Nat) (p : BoolePolynomial) : Decidable (inRing n p) :=
  inferInstanceAs (Decidable (∀ v ∈ support p, v < n))

end BoolePolynomial

/-! ## The substitution tracker's operations -/

/-- The value a variable resolves to through the tracker: a constant, or a literal
(a variable, possibly negated). -/
inductive Resolved where
  | const (b : Bool) : Resolved
  | lit (w : Nat) (neg : Bool) : Resolved
  deriving DecidableEq, Repr

namespace Replacer

/-- Modelled from the spec: the tracker of a ring of `n` variables in which nothing is known
yet. -/
def init (n : Nat) : Replacer := ⟨List.replicate n VarStatus.unset, true⟩

/-- Modelled from the spec: `lookup(var) → {unset, fixed(b), replaced(literal)}`. -/
def lookup (r : Replacer) (v : Nat) : VarStatus := r.status.getD v VarStatus.unset

/-- Modelled from the spec: the tracker signals an inconsistency by clearing the global
consistency flag, which is sticky. -/
def setNotOK (r : Replacer) : Replacer := { r with ok := false }

/-- Modelled from the spec: `setFixed(var, b)`. It records the fact on an unset variable;
"re-deriving an existing identical fact is a no-op", and it signals when the variable
already has another terminal status. -/
def setFixed (r : Replacer) (v : Nat) (b : Bool) : Replacer :=
  match r.lookup v with
  | VarStatus.unset => { r with status := r.status.set v (VarStatus.fixed b) }
  | s => if s = VarStatus.fixed b then r else r.setNotOK

/-- Modelled from the spec: `setReplaced(var, literal)`, with the same contract as
`setFixed`. -/
def setReplaced (r : Replacer) (v : Nat) (w : Nat) (neg : Bool) : Replacer :=
  match r.lookup v with
  | VarStatus.unset => { r with status := r.status.set v (VarStatus.replaced w neg) }
  | s => if s = VarStatus.replaced w neg then r else r.setNotOK

/-- Modelled from the spec: the value of the literal `v` (negated when `neg`), "resolved
transitively until a fixed" value or an unset variable is reached. The chain of replacements
is followed for at most `fuel` steps. -/
def resolveAux : Nat → Replacer → Nat → Bool → Resolved
  | 0, _, v, neg => Resolved.lit v neg
  | fuel + 1, r, v, neg =>
    match r.lookup v with
    | VarStatus.unset => Resolved.lit v neg
    | VarStatus.fixed b => Resolved.const (xor b neg)
    | VarStatus.replaced w neg' => resolveAux fuel r w (xor neg' neg)

/-- Modelled from the spec: what the tracker currently knows about the value of `v`; a chain
of replacements is never longer than the number of variables. -/
def resolve (r : Replacer) (v : Nat) : Resolved := resolveAux r.status.length r v false

/-- The polynomial of a resolved value: `0`, `1`, `w` or `w + 1`. -/
def valuePoly : Resolved → BoolePolynomial
  | Resolved.const false => ∅
  | Resolved.const true => {∅}
  | Resolved.lit w false => {{w}}
  | Resolved.lit w true => {{w}, ∅}

/-- One step of `update`: the variable `v`, when the tracker knows it as fixed or replaced,
is substituted by its resolved value. -/
def updateVar (r : Replacer) (p : BoolePolynomial) (v : Nat) : BoolePolynomial :=
  if r.lookup v = VarStatus.unset then p
  else BoolePolynomial.substVar v (valuePoly (r.resolve v)) p

/-- Modelled from the spec: full simplification of a polynomial against the tracker,
"substituting every fixed/replaced variable". -/
def update (r : Replacer) (p : BoolePolynomial) : BoolePolynomial :=
  (List.range r.status.length).foldl (updateVar r) p

/-- Modelled from the spec: the number of variables the tracker holds as fixed. -/
def getNumSetVars (r : Replacer) : Nat :=
  r.status.countP (fun s => match s with
    | VarStatus.fixed _ => true
    | _ => false)

/-- Modelled from the spec: the number of variables the tracker holds as replaced. -/
def getNumReplacedVars (r : Replacer) : Nat :=
  r.status.countP (fun s => match s with
    | VarStatus.replaced _ _ => true
    | _ => false)

end Replacer

/-! ## The occurrence index -/

/-- The index with the list of every variable `v` of the ring changed by `f v`. -/
def occurMap (f : Nat → List Nat → List Nat) (occur : List (List Nat)) : List (List Nat) :=
  (List.range occur.length).map (fun v => f v (occur.getD v []))

/-- A fact derived from a linear equation: `v` is fixed to `b`, or `v` is replaced by the
literal `w` (negated when `neg`). -/
inductive LinearFact where
  | fixed (v : Nat) (b : Bool) : LinearFact
  | replaced (v : Nat) (w : Nat) (neg : Bool) : LinearFact
  deriving DecidableEq, Repr

/-- Modelled from the spec: the classification of a simplified polynomial (step 4 of the
propagation engine). A polynomial of degree 1 on one variable, `v` or `v + 1`, fixes `v`;
one on two variables, `v + w` or `v + w + 1`, replaces the variable of larger index by the
other one or by its negation; any other polynomial gives no fact. -/
def classify (p : BoolePolynomial) : Option LinearFact :=
  if BoolePolynomial.deg p = 1 then
    if h : (BoolePolynomial.support p).Nonempty then
      if (BoolePolynomial.support p).card = 1 then
        some (LinearFact.fixed ((BoolePolynomial.support p).max' h) (decide (∅ ∈ p)))
      else if (BoolePolynomial.support p).card = 2 then
        some (LinearFact.replaced ((BoolePolynomial.support p).max' h)
          ((BoolePolynomial.support p).min' h) (decide (∅ ∈ p)))
      else none
    else none
  else none

namespace ANF

/-- Modelled from the spec: the container of a ring of `n` variables as constructed, with no
comment, no equation, nothing known and an empty change set. -/
def init (n : Nat) : ANF where
  comments := []
  eqs := []
  replacer := Replacer.init n
  occur := List.replicate n []
  updatedVars := ∅

/-- Modelled from the spec: `getOK()`, the global consistency flag. -/
def getOK (a : ANF) : Bool := a.replacer.ok

/-- Modelled from the spec: `getNumVars()`, the size of the variable universe. -/
def getNumVars (a : ANF) : Nat := a.occur.length

/-- Modelled from the spec: `getNumSetVars()`, answered by the tracker. -/
def getNumSetVars (a : ANF) : Nat := a.replacer.getNumSetVars

/-- Modelled from the spec: `getNumReplacedVars()`, answered by the tracker. -/
def getNumReplacedVars (a : ANF) : Nat := a.replacer.getNumReplacedVars

/-- `ANF::containsMono`: for every variable `v2` of `mono2` the inner loop looks for it among
the variables of `mono1`; the answer is `false` as soon as one is missing. -/
def containsMono (mono1 mono2 : BooleMonomial) : Bool :=
  Finset.fold (fun x y => x && y) true
    (fun v2 => Finset.fold (fun x y => x || y) false (fun v1 => decide (v1 = v2)) mono1) mono2

/-- Modelled from the spec: `addPolyToOccur(poly, slot)`, "for every variable in the
polynomial's support, appends `slot` to that variable's occurrence set". -/
def addPolyToOccur (occur : List (List Nat)) (poly : BoolePolynomial) (eq_idx : Nat) :
    List (List Nat) :=
  occurMap (fun v l => if v ∈ BoolePolynomial.support poly then l ++ [eq_idx] else l) occur

/-- Modelled from the spec: `removePolyFromOccur(poly, slot)`, which "removes `slot` from
each variable's occurrence set using the polynomial's support at the time of removal". -/
def removePolyFromOccur (occur : List (List Nat)) (poly : BoolePolynomial) (eq_idx : Nat) :
    List (List Nat) :=
  occurMap (fun v l => if v ∈ BoolePolynomial.support poly then l.erase eq_idx else l) occur

/-- Modelled from the spec: a newly derived fact "is pushed to the Substitution Tracker" and
"its variable is enqueued" in the change set (steps 4 and 5 of the propagation engine). -/
def learn (a : ANF) (p : BoolePolynomial) : ANF :=
  match classify p with
  | none => a
  | some (LinearFact.fixed v b) =>
    { a with replacer := a.replacer.setFixed v b, updatedVars := insert v a.updatedVars }
  | some (LinearFact.replaced v w neg) =>
    { a with replacer := a.replacer.setReplaced v w neg, updatedVars := insert v a.updatedVars }

/-- Modelled from the spec: the equation of slot `i` is rewritten to `poly` in place; the
index is updated with the old support removed and the new one added (step 3), and the
rewritten polynomial is classified (step 4): the constant 1 sets the inconsistency flag, a
linear polynomial on one or two variables gives a fact. -/
def rewriteSlot (a : ANF) (i : Nat) (poly : BoolePolynomial) : ANF :=
  let a1 : ANF :=
    { a with
      eqs := a.eqs.set i poly
      occur := addPolyToOccur (removePolyFromOccur a.occur (a.eqs.getD i ∅) i) poly i }
  if poly = BoolePolynomial.one then { a1 with replacer := a1.replacer.setNotOK }
  else learn a1 poly

/-- Modelled from the spec: the equation of slot `i` is re-simplified against the tracker
(step 2 of the propagation engine) and rewritten in place. Nothing is done once an
inconsistency has been detected. -/
def simplifySlot (a : ANF) (i : Nat) : ANF :=
  if a.replacer.ok then rewriteSlot a i (a.replacer.update (a.eqs.getD i ∅)) else a

/-- Modelled from the spec: the work-set loop of `propagate`. While the change set is not
empty and no inconsistency has been detected, one variable is popped and every slot of its
occurrence list is re-simplified. -/
def propagateLoop : Nat → ANF → ANF
  | 0, a => a
  | fuel + 1, a =>
    if a.replacer.ok then
      if h : a.updatedVars.Nonempty then
        let v := a.updatedVars.min' h
        propagateLoop fuel
          ((a.occur.getD v []).foldl simplifySlot { a with updatedVars := a.updatedVars.erase v })
      else a
    else a

/-- The variables the tracker holds as unset. -/
def unsetVars (a : ANF) : Finset Nat :=
  (Finset.range a.replacer.status.length).filter
    (fun v => a.replacer.lookup v = VarStatus.unset)

/-- Modelled from the spec: `removeEmptyEquations()`, which "compacts the store, physically
dropping zero-polynomial slots", and renumbers the references of the occurrence index: a
slot moves down by the number of emptied slots before it. -/
def removeEmptyEquations (a : ANF) : ANF :=
  { a with
    eqs := a.eqs.filter (fun p => !BoolePolynomial.isZero p)
    occur := a.occur.map (fun l =>
      l.map (fun i => i - (a.eqs.take i).countP (fun p => BoolePolynomial.isZero p))) }

/-- Modelled from the spec: `propagate()`. The work-set loop runs to its fixpoint (a variable
is enqueued only when it is popped or newly set, which bounds the number of rounds); unless
an inconsistency was detected, the store is then compacted, so that observers see live
slots only. -/
def propagate (a : ANF) : ANF :=
  let a1 := propagateLoop (a.updatedVars.card + (unsetVars a).card) a
  if a1.replacer.ok then removeEmptyEquations a1 else a1

/-- Modelled from the spec: `addBoolePolynomial(poly)`. The polynomial is fully simplified
against the tracker; a result 0, or one already in the store, is not added; the constant 1
sets the inconsistency flag; any other result gets a new slot, and the fact it may give is
recorded at once ("insertion and fact discovery are coupled"). The boolean tells whether
the polynomial was added. Nothing is done once an inconsistency has been detected. -/
def addBoolePolynomial (a : ANF) (poly : BoolePolynomial) : ANF × Bool :=
  if a.replacer.ok then
    let p := a.replacer.update poly
    if p = BoolePolynomial.zero then (a, false)
    else if p = BoolePolynomial.one then ({ a with replacer := a.replacer.setNotOK }, false)
    else if p ∈ a.eqs then (a, false)
    else
      (learn { a with
          eqs := a.eqs ++ [p]
          occur := addPolyToOccur a.occur p a.eqs.length } p, true)
  else (a, false)

/-- Modelled from the spec: `addLearntBoolePolynomial(poly)`, the "same contract as above but
for internally-derived polynomials". -/
def addLearntBoolePolynomial (a : ANF) (poly : BoolePolynomial) : ANF × Bool :=
  addBoolePolynomial a poly

/-- Modelled from the spec: `checkSimplifiedPolysContainNoSetVars`, "no live equation's
support includes a variable that the tracker already reports as fixed or replaced". -/
def checkSimplifiedPolysContainNoSetVars (a : ANF) : Bool :=
  decide (∀ p ∈ a.eqs, ∀ v ∈ BoolePolynomial.support p, a.replacer.lookup v = VarStatus.unset)

end ANF

/-! ## Linear elimination and monomial replacement -/

/-- Modelled from the spec: a row of the linear system is reduced by the pivot rows found
so far; a pivot row is added (XOR) to the row when its pivot variable occurs in the row. -/
def reduceRow (basis : List (Nat × BoolePolynomial)) (row : BoolePolynomial) :
    BoolePolynomial :=
  basis.foldl (fun row pr => if {pr.1} ∈ row then BoolePolynomial.add row pr.2 else row) row

/-- Modelled from the spec: one step of the Gauss-Jordan elimination over GF(2). The next
row is reduced; a row that vanishes is dropped; a row "with zero coefficients and
constant 1" makes the system inconsistent (`none`); otherwise its variable of smallest
index becomes a pivot, which is eliminated from the earlier pivot rows. -/
def gaussJordanStep (st : Option (List (Nat × BoolePolynomial))) (row : BoolePolynomial) :
    Option (List (Nat × BoolePolynomial)) :=
  match st with
  | none => none
  | some basis =>
    let r := reduceRow basis row
    if r = BoolePolynomial.one then none
    else if h : (BoolePolynomial.support r).Nonempty then
      let piv := (BoolePolynomial.support r).min' h
      some (basis.map (fun pr =>
          if {piv} ∈ pr.2 then (pr.1, BoolePolynomial.add pr.2 r) else pr) ++ [(piv, r)])
    else some basis

/-- Modelled from the spec: the elimination primitive, "Gauss-Jordan elimination over GF(2)"
on the rows taken in store order. The result is the list of pivot rows, or `none` when a
row reduces to "0 = 1". -/
def gaussJordan (rows : List BoolePolynomial) : Option (List (Nat × BoolePolynomial)) :=
  rows.foldl gaussJordanStep (some [])

namespace ANF

/-- Modelled from the spec: a row resolved by the elimination "is injected into the
Substitution Tracker as a fact and its variable added to the change set". The row is read
against what the tracker knows already: a row that contradicts it sets the inconsistency
flag, a row that repeats it is a no-op. The counter is the number of new facts. -/
def learnRow (st : ANF × Nat) (row : BoolePolynomial) : ANF × Nat :=
  if st.1.replacer.ok then
    if st.1.replacer.update row = BoolePolynomial.one then
      ({ st.1 with replacer := st.1.replacer.setNotOK }, st.2)
    else
      match classify (st.1.replacer.update row) with
      | none => st
      | some _ => (learn st.1 (st.1.replacer.update row), st.2 + 1)
  else st

/-- Modelled from the spec: `elimLin()`. The live equations of degree at most 1 are
collected, the elimination is run on them, and every resolved row gives a fact; an
inconsistent row sets the inconsistency flag. The equations of the store are not touched.
The integer is the number of newly fixed or replaced variables. -/
def elimLin (a : ANF) : ANF × Nat :=
  if a.replacer.ok then
    match gaussJordan (a.eqs.filter
        (fun p => !BoolePolynomial.isZero p && decide (BoolePolynomial.deg p ≤ 1))) with
    | none => ({ a with replacer := a.replacer.setNotOK }, 0)
    | some basis => (basis.map (fun pr => pr.2)).foldl learnRow (a, 0)
  else (a, 0)

/-- Modelled from the spec: one slot of `evaluateMonoReplacement`. An equation that has a
monomial containing `from_mono` is rewritten with `to_poly` substituted for `from_mono`
and re-simplified, and counts as touched. -/
def replaceMonoInSlot (from_mono : BooleMonomial) (to_poly : BoolePolynomial)
    (st : ANF × Nat) (i : Nat) : ANF × Nat :=
  if st.1.replacer.ok ∧ ∃ m ∈ st.1.eqs.getD i ∅, containsMono m from_mono = true then
    (rewriteSlot st.1 i
      (st.1.replacer.update (BoolePolynomial.substMono from_mono to_poly (st.1.eqs.getD i ∅))),
     st.2 + 1)
  else st

/-- Modelled from the spec: `evaluateMonoReplacement(from_mono, to_poly, include_equation)`.
Every equation containing `from_mono` as a sub-monomial is rewritten; when
`include_equation` is requested the defining relation `from_mono + to_poly` is inserted as a
learnt equation. The number is the count of equations touched. -/
def evaluateMonoReplacement (a : ANF) (from_mono : BooleMonomial) (to_poly : BoolePolynomial)
    (include_equation : Bool) : ANF × Nat :=
  if a.replacer.ok then
    let st := (List.range a.eqs.length).foldl (replaceMonoInSlot from_mono to_poly) (a, 0)
    if include_equation then
      ((addLearntBoolePolynomial st.1 (BoolePolynomial.add {from_mono} to_poly)).1, st.2)
    else st
  else (a, 0)

/-- The states of the container reachable from its construction through its operations; the
polynomials handed to it are polynomials of its ring. The last rule is the recording of a
comment line of the input. -/
inductive Reachable : ANF → Prop where
  | init (n : Nat) : Reachable (init n)
  | addBoolePolynomial (a : ANF) (poly : BoolePolynomial) :
      Reachable a → BoolePolynomial.inRing a.getNumVars poly →
      Reachable (addBoolePolynomial a poly).1
  | addLearntBoolePolynomial (a : ANF) (poly : BoolePolynomial) :
      Reachable a → BoolePolynomial.inRing a.getNumVars poly →
      Reachable (addLearntBoolePolynomial a poly).1
  | propagate (a : ANF) : Reachable a → Reachable (propagate a)
  | elimLin (a : ANF) : Reachable a → Reachable (elimLin a).1
  | evaluateMonoReplacement (a : ANF) (from_mono : BooleMonomial) (to_poly : BoolePolynomial)
      (include_equation : Bool) :
      Reachable a → BoolePolynomial.inRing a.getNumVars {from_mono} →
      BoolePolynomial.inRing a.getNumVars to_poly →
      Reachable (evaluateMonoReplacement a from_mono to_poly include_equation).1
  | removeEmptyEquations (a : ANF) : Reachable a → Reachable (removeEmptyEquations a)
  | addComment (a : ANF) (comment : String) :
      Reachable a → Reachable { a with comments := a.comments ++ [comment] }

end ANF

/-! ## The invariants of the container -/

namespace Replacer

/-- The replacement chains of the tracker are acyclic: `trail` lists the fixed and replaced
variables, the most recently set first, and the target of a replacement is a variable of
the ring that was not set before the replaced variable was. -/
def TrailOK (r : Replacer) (trail : List Nat) : Prop :=
  trail.Nodup ∧
  (∀ v, v ∈ trail ↔ r.lookup v ≠ VarStatus.unset) ∧
  (∀ l1 v l2 w neg, trail = l1 ++ v :: l2 → r.lookup v = VarStatus.replaced w neg →
    w ∉ l2 ∧ w ≠ v ∧ w < r.status.length)

/-- A tracker whose replacement chains are acyclic. -/
def WellFormed (r : Replacer) : Prop := ∃ trail, TrailOK r trail

/-- A resolved value is a constant or a literal of an unset variable of the ring. -/
def Good (r : Replacer) : Resolved → Prop
  | Resolved.const _ => True
  | Resolved.lit w _ => r.lookup w = VarStatus.unset ∧ w < r.status.length

end Replacer

namespace ANF

/-- The invariants of the container: the index and the tracker cover the same ring, the
equations are polynomials of the ring, the occurrence index agrees with the supports
(Invariant I1) without duplicate entries, and the tracker is acyclic. -/
structure Inv (a : ANF) : Prop where
  occur_length : a.occur.length = a.replacer.status.length
  eqs_inRing : ∀ p ∈ a.eqs, BoolePolynomial.inRing a.occur.length p
  occur_iff : ∀ i v, i ∈ a.occur.getD v [] ↔ v ∈ BoolePolynomial.support (a.eqs.getD i ∅)
  occur_nodup : ∀ v, (a.occur.getD v []).Nodup
  tracker : a.replacer.WellFormed

/-- Every fixed or replaced variable that still occurs in an equation is pending in the
change set, except that the variable `v` being processed may still occur in the slots of
`rest`, which the current pass has yet to re-simplify. -/
def PendingBut (a : ANF) (v : Nat) (rest : List Nat) : Prop :=
  ∀ i u, u ∈ BoolePolynomial.support (a.eqs.getD i ∅) →
    a.replacer.lookup u ≠ VarStatus.unset → u ∈ a.updatedVars ∨ (u = v ∧ i ∈ rest)

/-- Every fixed or replaced variable that still occurs in an equation is pending in the
change set. -/
def Pending (a : ANF) : Prop :=
  ∀ i u, u ∈ BoolePolynomial.support (a.eqs.getD i ∅) →
    a.replacer.lookup u ≠ VarStatus.unset → u ∈ a.updatedVars

end ANF

/-! ## Example states -/

namespace ANF

/-- The container of a ring of three variables after the insertion of `x0*x1 + x2`. -/
def exampleOneEquation : ANF := (addBoolePolynomial (init 3) {{0, 1}, {2}}).1

/-- The container of a ring of `n` variables after the insertion of the equations `x` and
`x*y + y`, in that order. -/
def twoUnits (n x y : Nat) : ANF :=
  (addBoolePolynomial (addBoolePolynomial (init n) {{x}}).1 {{x, y}, {y}}).1

/-- The container of a ring of four variables after the insertion of `x0*x1 + x2*x3` and
of `x0`: the fact `x0 = 0` is pending. -/
def examplePendingFact : ANF :=
  (addBoolePolynomial (addBoolePolynomial (init 4) {{0, 1}, {2, 3}}).1 {{0}}).1

end ANF

/-! ## The loops of `containsMono` and the product of monomials -/

namespace ANF

/-- The inner loop of `ANF::containsMono`, on the sequence of variables that the iterator of
`mono1` yields: `has_var` becomes true at the first `v1 == v2`, where the loop breaks. -/
def hasVarLoop : List Nat → Nat → Bool
  | [], _ => false
  | v1 :: rest, v2 => if v1 = v2 then true else hasVarLoop rest v2

/-- The outer loop of `ANF::containsMono`, on the sequence of variables that the iterator
of `mono2` yields: `false` is returned at the first variable the inner loop does not find,
and `true` after the last one. -/
def containsMonoLoop (vars1 : List Nat) : List Nat → Bool
  | [] => true
  | v2 :: rest => if hasVarLoop vars1 v2 then containsMonoLoop vars1 rest else false

end ANF

namespace BooleMonomial

/-- Modelled from the spec: the product of two monomials of the boolean ring, the monomial on
the union of their variables (a variable multiplied by itself is itself). -/
def mul (m1 m2 : BooleMonomial) : BooleMonomial := m1 ∪ m2

/-- Divisibility of monomials: `m2` divides `m1` when `m1` is `m2` times a monomial. -/
def Divides (m2 m1 : BooleMonomial) : Prop := ∃ q : BooleMonomial, mul m2 q = m1

end BooleMonomial

/-! ## Linear polynomials and the odd-cycle system -/

namespace BoolePolynomial

/-- The linear polynomial with the variables `vars`, plus the constant 1 when `c` is true. -/
def linear (vars : Finset Nat) (c : Bool) : BoolePolynomial :=
  vars.image (fun v => {v}) ∪ (if c then {∅} else ∅)

end BoolePolynomial

namespace ANF

/-- The odd-cycle system on the variables `a`, `b`, `c`: the equations `a + b`, `b + c` and
`a + c + 1`. -/
def oddCycle (a b c : Nat) : List BoolePolynomial :=
  [{{a}, {b}}, {{b}, {c}}, {{a}, {c}, ∅}]

/-- The container of a ring of `n` variables after the insertion of the three equations of
the odd-cycle system, in their order. -/
def oddCycleInserted (n a b c : Nat) : ANF :=
  (addBoolePolynomial
    (addBoolePolynomial (addBoolePolynomial (init n) {{a}, {b}}).1 {{b}, {c}}).1
    {{a}, {c}, ∅}).1

/-- A container of a ring of three variables whose store holds the odd-cycle system on
`x0`, `x1`, `x2` and whose tracker knows nothing yet. -/
def exampleOddCycle : ANF where
  comments := []
  eqs := oddCycle 0 1 2
  replacer := Replacer.init 3
  occur := [[0, 2], [0, 1], [1, 2]]
  updatedVars := ∅

end ANF

/-! ## Theorems: the query functions of `anf.h` -/

namespace ANF

theorem countP_isZero_add (eqs : List BoolePolynomial) :
    eqs.countP (fun p => !BoolePolynomial.isZero p) +
      eqs.countP (fun p => BoolePolynomial.isZero p) = eqs.length := by
  induction eqs with
  | nil => rfl
  | cons p ps ih =>
    by_cases h : BoolePolynomial.isZero p = true
    · simp [List.countP_cons, h] at ih ⊢; omega
    · simp [List.countP_cons, h] at ih ⊢; omega

theorem countP_isZero_eq_zero (eqs : List BoolePolynomial) :
    eqs.countP (fun p => BoolePolynomial.isZero p) = 0 ↔ ∀ p ∈ eqs, p ≠ BoolePolynomial.zero := by
  simp [List.countP_eq_zero, BoolePolynomial.isZero, BoolePolynomial.zero]

/-- C1 (counterexample): on a store with an emptied slot `size()` counts that slot, so it is
not the number of non-empty slots. -/
theorem size_counts_emptied_slot :
    size exampleEmptiedSlot = 2 ∧ numNonEmptySlots exampleEmptiedSlot = 1 ∧
    size exampleEmptiedSlot ≠ numNonEmptySlots exampleEmptiedSlot := by
  decide

/-- C1 (amended): `size()` is the number of slots of the store, the zero-polynomial slots
included: the non-empty slots plus the emptied ones. It is the number of non-empty slots
exactly when no slot holds the zero polynomial. -/
theorem size_eq_nonEmpty_add_empty (a : ANF) :
    size a = numNonEmptySlots a + numEmptySlots a ∧
    (size a = numNonEmptySlots a ↔ ∀ p ∈ a.eqs, p ≠ BoolePolynomial.zero) := by
  have h := countP_isZero_add a.eqs
  refine ⟨by simp only [size, numNonEmptySlots, numEmptySlots]; omega, ?_⟩
  rw [← countP_isZero_eq_zero]
  simp only [size, numNonEmptySlots]
  omega

end ANF

namespace ANF

theorem mem_allMonoms (eqs : List BoolePolynomial) (m : BooleMonomial) :
    m ∈ allMonoms eqs ↔ ∃ p ∈ eqs, m ∈ p := by
  induction eqs with
  | nil => simp [allMonoms]
  | cons p ps ih =>
    have : allMonoms (p :: ps) = p ∪ allMonoms ps := rfl
    rw [this, Finset.mem_union, ih]
    simp

theorem allMonoms_cons (p : BoolePolynomial) (ps : List BoolePolynomial) :
    allMonoms (p :: ps) = p ∪ allMonoms ps := rfl

theorem max_poly_deg (d : Nat) (p : BoolePolynomial) :
    max (d : Int) (BoolePolynomial.deg p) = ((max d (p.sup Finset.card) : Nat) : Int) := by
  unfold BoolePolynomial.deg
  split
  · next h => subst h; simp; omega
  · push_cast; rfl

theorem foldl_max_deg (eqs : List BoolePolynomial) (d : Nat) :
    eqs.foldl (fun deg poly => max deg (BoolePolynomial.deg poly)) (d : Int) =
      ((max d ((allMonoms eqs).sup Finset.card) : Nat) : Int) := by
  induction eqs generalizing d with
  | nil => simp [allMonoms]
  | cons p ps ih =>
    rw [List.foldl_cons, max_poly_deg, ih, allMonoms_cons, Finset.sup_union]
    congr 1
    exact max_assoc _ _ _

theorem intToSizeT_natCast (n : Nat) : intToSizeT (n : Int) = n := by
  unfold intToSizeT
  rw [if_neg (by omega)]
  exact Int.toNat_ofNat n

/-- C2: `deg()` is the largest monomial size over all monomials of all stored equations,
and 0 when there is none: 0 for the empty store and for a store that holds only zero
polynomials and constants. The signed value that is converted to `size_t` is never
negative. -/
theorem deg_eq_max_monomial_size (a : ANF) :
    deg a = (allMonoms a.eqs).sup Finset.card ∧
    (∀ p ∈ a.eqs, ∀ m ∈ p, m.card ≤ deg a) ∧
    ((∃ p ∈ a.eqs, ∃ m ∈ p, m.card = deg a) ∨ deg a = 0) ∧
    (a.eqs = [] → deg a = 0) ∧
    ((∀ p ∈ a.eqs, p = BoolePolynomial.zero ∨ p = BoolePolynomial.one) → deg a = 0) ∧
    (0 : Int) ≤ a.eqs.foldl (fun deg poly => max deg (BoolePolynomial.deg poly)) 0 := by
  have hfold := foldl_max_deg a.eqs 0
  simp only [Nat.cast_zero] at hfold
  have hdeg : deg a = (allMonoms a.eqs).sup Finset.card := by
    unfold deg
    rw [hfold, intToSizeT_natCast]
    simp
  refine ⟨hdeg, ?_, ?_, ?_, ?_, ?_⟩
  · intro p hp m hm
    rw [hdeg]
    exact Finset.le_sup (f := Finset.card) ((mem_allMonoms _ _).2 ⟨p, hp, hm⟩)
  · by_cases hne : (allMonoms a.eqs).Nonempty
    · left
      obtain ⟨m, hm, hmax⟩ := Finset.exists_mem_eq_sup _ hne Finset.card
      obtain ⟨p, hp, hmp⟩ := (mem_allMonoms _ _).1 hm
      exact ⟨p, hp, m, hmp, by rw [hdeg, hmax]⟩
    · right
      rw [hdeg, Finset.not_nonempty_iff_eq_empty.1 hne]
      simp
  · intro h
    rw [hdeg, h]
    simp [allMonoms]
  · intro h
    rw [hdeg]
    apply Nat.eq_zero_of_le_zero
    apply Finset.sup_le
    intro m hm
    obtain ⟨p, hp, hmp⟩ := (mem_allMonoms _ _).1 hm
    rcases h p hp with h0 | h1
    · subst h0; simp [BoolePolynomial.zero] at hmp
    · subst h1
      simp only [BoolePolynomial.one, Finset.mem_singleton] at hmp
      subst hmp; simp
  · rw [hfold]; omega

end ANF

namespace ANF

theorem foldl_add_length (eqs : List BoolePolynomial) (n : Nat) :
    eqs.foldl (fun num poly => num + BoolePolynomial.length poly) n =
      n + (eqs.map BoolePolynomial.length).sum := by
  induction eqs generalizing n with
  | nil => simp
  | cons p ps ih => rw [List.foldl_cons, ih, List.map_cons, List.sum_cons, Nat.add_assoc]

theorem countP_mem_eq_zero (eqs : List BoolePolynomial) (m : BooleMonomial)
    (h : m ∉ allMonoms eqs) : eqs.countP (fun p => decide (m ∈ p)) = 0 := by
  rw [List.countP_eq_zero]
  intro p hp
  simp only [decide_eq_true_eq]
  intro hm
  exact h ((mem_allMonoms _ _).2 ⟨p, hp, hm⟩)

theorem sum_countP_superset (eqs : List BoolePolynomial) (s : Finset BooleMonomial)
    (h : allMonoms eqs ⊆ s) :
    ∑ m ∈ s, eqs.countP (fun p => decide (m ∈ p)) =
      ∑ m ∈ allMonoms eqs, eqs.countP (fun p => decide (m ∈ p)) := by
  symm
  apply Finset.sum_subset h
  intro m _ hm
  exact countP_mem_eq_zero eqs m hm

theorem sum_length_eq_sum_countP (eqs : List BoolePolynomial) :
    (eqs.map BoolePolynomial.length).sum =
      ∑ m ∈ allMonoms eqs, eqs.countP (fun p => decide (m ∈ p)) := by
  induction eqs with
  | nil => simp [allMonoms]
  | cons p ps ih =>
    rw [List.map_cons, List.sum_cons, ih, allMonoms_cons]
    simp only [List.countP_cons, decide_eq_true_eq]
    rw [Finset.sum_add_distrib, sum_countP_superset ps _ Finset.subset_union_right,
      Nat.add_comm]
    congr 1
    rw [← Finset.sum_filter, Finset.sum_const, smul_eq_mul, Nat.mul_one]
    unfold BoolePolynomial.length
    congr 1
    ext m
    simp only [Finset.mem_filter, Finset.mem_union]
    tauto

/-- C3: `numMonoms()` is the sum, over the stored equations, of their numbers of monomials.
So a monomial is counted once for every equation it occurs in; the constant polynomial 1
has one monomial and the zero polynomial none. -/
theorem numMonoms_eq_sum_lengths (a : ANF) :
    numMonoms a = (a.eqs.map BoolePolynomial.length).sum ∧
    numMonoms a = ∑ m ∈ allMonoms a.eqs, a.eqs.countP (fun p => decide (m ∈ p)) ∧
    BoolePolynomial.length BoolePolynomial.one = 1 ∧
    BoolePolynomial.length BoolePolynomial.zero = 0 := by
  have h : numMonoms a = (a.eqs.map BoolePolynomial.length).sum := by
    unfold numMonoms
    rw [foldl_add_length, Nat.zero_add]
  exact ⟨h, by rw [h, sum_length_eq_sum_countP], rfl, rfl⟩

theorem poly_deg_eq_one_iff (p : BoolePolynomial) :
    BoolePolynomial.deg p = 1 ↔ isSimpleXor p := by
  unfold BoolePolynomial.deg isSimpleXor
  by_cases hp : p = ∅
  · subst hp; simp
  · rw [if_neg hp]
    have hne : p.Nonempty := Finset.nonempty_iff_ne_empty.2 hp
    constructor
    · intro h
      have h1 : p.sup Finset.card = 1 := by exact_mod_cast h
      obtain ⟨m, hm, hmax⟩ := Finset.exists_mem_eq_sup p hne Finset.card
      refine ⟨⟨m, hm, by rw [← hmax, h1]⟩, ?_⟩
      intro m' hm'
      rw [← h1]
      exact Finset.le_sup (f := Finset.card) hm'
    · rintro ⟨⟨m, hm, hcard⟩, hle⟩
      have h1 : p.sup Finset.card = 1 := by
        apply le_antisymm
        · exact Finset.sup_le hle
        · rw [← hcard]; exact Finset.le_sup (f := Finset.card) hm
      exact_mod_cast h1

theorem foldl_add_ite (eqs : List BoolePolynomial) (n : Nat) :
    eqs.foldl (fun num poly => num + (if BoolePolynomial.deg poly = 1 then 1 else 0)) n =
      n + eqs.countP (fun p => decide (isSimpleXor p)) := by
  induction eqs generalizing n with
  | nil => simp
  | cons p ps ih =>
    rw [List.foldl_cons, ih, List.countP_cons]
    simp only [poly_deg_eq_one_iff, decide_eq_true_eq]
    omega

/-- C4: `getNumSimpleXors()` is the number of stored equations of degree exactly 1, those
whose largest monomial is a single variable (some monomial is a single variable, none has
two variables or more; a constant term may be present or not). Zero polynomials, constants
and equations of degree 2 or more are not counted. -/
theorem getNumSimpleXors_eq_count (a : ANF) :
    getNumSimpleXors a = a.eqs.countP (fun p => decide (isSimpleXor p)) ∧
    (∀ p : BoolePolynomial, BoolePolynomial.deg p = 1 ↔ isSimpleXor p) ∧
    ¬ isSimpleXor BoolePolynomial.zero ∧ ¬ isSimpleXor BoolePolynomial.one ∧
    (∀ p : BoolePolynomial, (∃ m ∈ p, 2 ≤ m.card) → ¬ isSimpleXor p) ∧
    (∀ v : Nat, isSimpleXor {{v}} ∧ isSimpleXor {{v}, ∅}) := by
  refine ⟨?_, poly_deg_eq_one_iff, by decide, by decide, ?_, ?_⟩
  · unfold getNumSimpleXors
    rw [foldl_add_ite, Nat.zero_add]
  · rintro p ⟨m, hm, h2⟩ ⟨_, hle⟩
    have := hle m hm
    omega
  · intro v
    constructor
    · exact ⟨⟨{v}, by simp, by simp⟩, by simp⟩
    · refine ⟨⟨{v}, by simp, by simp⟩, ?_⟩
      intro m hm
      simp only [Finset.mem_insert, Finset.mem_singleton] at hm
      rcases hm with rfl | rfl <;> simp

theorem insertMonoms_eq_union (p : BoolePolynomial) (u : Finset BooleMonomial) :
    insertMonoms u p = p ∪ u := by
  unfold insertMonoms
  induction p using Finset.induction_on with
  | empty => simp
  | insert hnot ih =>
    rename_i m s
    rw [Finset.insert_val_of_not_mem hnot, Multiset.foldr_cons, ih, Finset.insert_union]

theorem foldl_insertMonoms (eqs : List BoolePolynomial) (u : Finset BooleMonomial) :
    eqs.foldl (fun unique poly => insertMonoms unique poly) u = allMonoms eqs ∪ u := by
  induction eqs generalizing u with
  | nil => simp [allMonoms]
  | cons p ps ih =>
    rw [List.foldl_cons, ih, insertMonoms_eq_union, allMonoms_cons]
    ext m
    simp only [Finset.mem_union]
    tauto

/-- C5: `numUniqueMonoms(equations)` is the number of distinct monomials in the union of
the monomial sets of the equations: a monomial is in that union as soon as one equation
has it and is counted once, and two monomials are the same exactly when they have the
same variables. -/
theorem numUniqueMonoms_eq_card_union (a : ANF) (equations : List BoolePolynomial) :
    numUniqueMonoms a equations = (allMonoms equations).card ∧
    (∀ m : BooleMonomial, m ∈ allMonoms equations ↔ ∃ p ∈ equations, m ∈ p) ∧
    (∀ m1 m2 : BooleMonomial, m1 = m2 ↔ ∀ v : Nat, v ∈ m1 ↔ v ∈ m2) := by
  refine ⟨?_, mem_allMonoms equations, fun m1 m2 => Finset.ext_iff⟩
  unfold numUniqueMonoms
  rw [foldl_insertMonoms, Finset.union_empty]

end ANF

namespace ANF

theorem liveEqs_eq_self_iff (eqs : List BoolePolynomial) :
    eqs.filter (fun p => !BoolePolynomial.isZero p) = eqs ↔
      ∀ p ∈ eqs, p ≠ BoolePolynomial.zero := by
  rw [List.filter_eq_self]
  simp [BoolePolynomial.isZero, BoolePolynomial.zero]

/-- C6 (counterexample): on a store with an emptied slot `getEqs()` returns the zero
polynomial of that slot too, so it does not show only live slots. -/
theorem getEqs_shows_emptied_slot :
    BoolePolynomial.zero ∈ getEqs exampleEmptiedSlot ∧
    getEqs exampleEmptiedSlot ≠ liveEqs exampleEmptiedSlot := by
  decide

/-- C6 (amended): `getEqs()` returns every slot of the store in store order, the
zero-polynomial slots included. The live slots appear in it in their store order, and it
shows only live slots exactly when no slot holds the zero polynomial, as is the case right
after a compaction of the store. -/
theorem getEqs_all_slots_in_order (a : ANF) :
    getEqs a = a.eqs ∧
    (liveEqs a).Sublist (getEqs a) ∧
    (getEqs a = liveEqs a ↔ ∀ p ∈ a.eqs, p ≠ BoolePolynomial.zero) ∧
    ((∀ p ∈ getEqs a, p ≠ BoolePolynomial.zero) ↔ getEqs a = liveEqs a) ∧
    getEqs (removeEmptyEquations a) = liveEqs a := by
  have h := liveEqs_eq_self_iff a.eqs
  refine ⟨rfl, List.filter_sublist _, ?_, ?_, rfl⟩
  · unfold getEqs liveEqs
    rw [← h]
    exact eq_comm
  · unfold getEqs liveEqs
    rw [← h]
    exact eq_comm

theorem foldl_append_line (f : BoolePolynomial → String) (ps : List BoolePolynomial)
    (os : String) :
    ps.foldl (fun os poly => os ++ f poly ++ endl) os = os ++ unlines (ps.map f) := by
  induction ps generalizing os with
  | nil => simp [unlines]
  | cons p ps ih =>
    rw [List.foldl_cons, ih, List.map_cons]
    simp only [unlines, String.append_assoc]

theorem foldl_append_comment (cs : List String) (os : String) :
    cs.foldl (fun os comment => os ++ comment ++ endl) os = os ++ unlines cs := by
  induction cs generalizing os with
  | nil => simp [unlines]
  | cons c cs ih =>
    rw [List.foldl_cons, ih]
    simp only [unlines, String.append_assoc]

theorem print_eq (showPoly : BoolePolynomial → String) (showReplacer : Replacer → String)
    (os : String) (a : ANF) :
    print showPoly showReplacer os a =
      os ++ unlines a.comments ++ unlines (a.eqs.map showPoly) ++ showReplacer a.replacer := by
  unfold print
  simp only [foldl_append_comment, foldl_append_line]

/-- C7 (counterexample): whatever the printers of the ring library and of the tracker, the
dump of a store with an emptied slot has a line for that slot and so is not the
specification's dump, which has lines for the live equations only. -/
theorem print_has_line_for_emptied_slot :
    ¬ ∃ (showPoly : BoolePolynomial → String) (showReplacer : Replacer → String)
        (os : String),
      print showPoly showReplacer os exampleEmptiedSlot =
        printSpec showPoly showReplacer os exampleEmptiedSlot := by
  rintro ⟨showPoly, showReplacer, os, h⟩
  rw [print_eq] at h
  have hlen := congrArg String.length h
  simp [printSpec, exampleEmptiedSlot, liveEqs, unlines, BoolePolynomial.isZero, endl,
    String.length_append] at hlen
  exact absurd hlen.2 (by decide)

/-- C7 (amended): the dump is exactly the stored comments in order, each followed by a line
break, then one line per stored equation in store order, emptied slots included, each
followed by a line break, then the tracker's dump, and nothing else. On a store without
emptied slots this is the specification's dump. -/
theorem print_comments_eqs_replacer (showPoly : BoolePolynomial → String)
    (showReplacer : Replacer → String) (os : String) (a : ANF) :
    print showPoly showReplacer os a =
      os ++ unlines a.comments ++ unlines (a.eqs.map showPoly) ++ showReplacer a.replacer ∧
    print showPoly showReplacer os { a with eqs := liveEqs a } =
      printSpec showPoly showReplacer os a ∧
    ((∀ p ∈ a.eqs, p ≠ BoolePolynomial.zero) →
      print showPoly showReplacer os a = printSpec showPoly showReplacer os a) := by
  refine ⟨print_eq _ _ _ _, ?_, ?_⟩
  · rw [print_eq]
    simp [printSpec, liveEqs]
  · intro h
    rw [print_eq]
    unfold printSpec liveEqs
    rw [(liveEqs_eq_self_iff a.eqs).2 h]

end ANF

/-! ## Theorems: the ring arithmetic -/

namespace BoolePolynomial

theorem mem_support (p : BoolePolynomial) (v : Nat) :
    v ∈ support p ↔ ∃ m ∈ p, v ∈ m := by
  unfold support
  rw [Finset.mem_sup]
  rfl

theorem support_empty : support (∅ : BoolePolynomial) = ∅ := rfl

theorem mem_add (p q : BoolePolynomial) (m : BooleMonomial) :
    m ∈ add p q ↔ (m ∈ p ∧ m ∉ q) ∨ (m ∈ q ∧ m ∉ p) := by
  unfold add
  rw [Finset.mem_symmDiff]

theorem add_empty (p : BoolePolynomial) : add p ∅ = p := by
  unfold add
  exact symmDiff_bot p

theorem mul_empty (p : BoolePolynomial) : mul p ∅ = ∅ := by
  unfold mul
  simp

theorem empty_mul (p : BoolePolynomial) : mul ∅ p = ∅ := by
  unfold mul
  simp

theorem mem_mul_exists (p q : BoolePolynomial) (M : BooleMonomial) (h : M ∈ mul p q) :
    ∃ m1 ∈ p, ∃ m2 ∈ q, M = m1 ∪ m2 := by
  unfold mul at h
  rw [Finset.mem_filter, Finset.mem_image] at h
  obtain ⟨⟨⟨m1, m2⟩, hmem, heq⟩, _⟩ := h
  rw [Finset.mem_product] at hmem
  exact ⟨m1, hmem.1, m2, hmem.2, heq.symm⟩

theorem support_add (p q : BoolePolynomial) (v : Nat) (h : v ∈ support (add p q)) :
    v ∈ support p ∨ v ∈ support q := by
  rw [mem_support] at h
  obtain ⟨m, hm, hv⟩ := h
  rw [mem_add] at hm
  rcases hm with ⟨hp, _⟩ | ⟨hq, _⟩
  · exact Or.inl ((mem_support _ _).2 ⟨m, hp, hv⟩)
  · exact Or.inr ((mem_support _ _).2 ⟨m, hq, hv⟩)

theorem support_mul (p q : BoolePolynomial) (v : Nat) (h : v ∈ support (mul p q)) :
    v ∈ support p ∨ v ∈ support q := by
  rw [mem_support] at h
  obtain ⟨M, hM, hv⟩ := h
  obtain ⟨m1, h1, m2, h2, rfl⟩ := mem_mul_exists p q M hM
  rw [Finset.mem_union] at hv
  rcases hv with hv | hv
  · exact Or.inl ((mem_support _ _).2 ⟨m1, h1, hv⟩)
  · exact Or.inr ((mem_support _ _).2 ⟨m2, h2, hv⟩)

theorem support_substVar (v : Nat) (e p : BoolePolynomial) (u : Nat)
    (h : u ∈ support (substVar v e p)) :
    (u ∈ support p ∧ u ≠ v) ∨ u ∈ support e := by
  unfold substVar at h
  rcases support_add _ _ _ h with h | h
  · rw [mem_support] at h
    obtain ⟨m, hm, hu⟩ := h
    rw [Finset.mem_filter] at hm
    refine Or.inl ⟨(mem_support _ _).2 ⟨m, hm.1, hu⟩, ?_⟩
    rintro rfl
    exact hm.2 hu
  · rcases support_mul _ _ _ h with h | h
    · exact Or.inr h
    · rw [mem_support] at h
      obtain ⟨m, hm, hu⟩ := h
      rw [Finset.mem_image] at hm
      obtain ⟨m', hm', rfl⟩ := hm
      rw [Finset.mem_filter] at hm'
      rw [Finset.mem_erase] at hu
      exact Or.inl ⟨(mem_support _ _).2 ⟨m', hm'.1, hu.2⟩, hu.1⟩

theorem substVar_of_not_mem (v : Nat) (e p : BoolePolynomial) (h : v ∉ support p) :
    substVar v e p = p := by
  have hall : ∀ m ∈ p, v ∉ m := fun m hm hv => h ((mem_support _ _).2 ⟨m, hm, hv⟩)
  unfold substVar
  rw [Finset.filter_true_of_mem hall, Finset.filter_false_of_mem (by simpa using hall),
    Finset.image_empty, mul_empty, add_empty]

theorem support_substMono (f : BooleMonomial) (t p : BoolePolynomial) (u : Nat)
    (h : u ∈ support (substMono f t p)) : u ∈ support p ∨ u ∈ support t := by
  unfold substMono at h
  rcases support_add _ _ _ h with h | h
  · rw [mem_support] at h
    obtain ⟨m, hm, hu⟩ := h
    rw [Finset.mem_filter] at hm
    exact Or.inl ((mem_support _ _).2 ⟨m, hm.1, hu⟩)
  · rcases support_mul _ _ _ h with h | h
    · exact Or.inr h
    · rw [mem_support] at h
      obtain ⟨m, hm, hu⟩ := h
      rw [Finset.mem_image] at hm
      obtain ⟨m', hm', rfl⟩ := hm
      rw [Finset.mem_filter] at hm'
      rw [Finset.mem_sdiff] at hu
      exact Or.inl ((mem_support _ _).2 ⟨m', hm'.1, hu.1⟩)

end BoolePolynomial

/-! ## Theorems: the occurrence index -/

theorem occurMap_length (f : Nat → List Nat → List Nat) (occur : List (List Nat)) :
    (occurMap f occur).length = occur.length := by
  simp [occurMap]

theorem getD_nil_of_le (occur : List (List Nat)) (v : Nat) (h : occur.length ≤ v) :
    occur.getD v [] = [] := by
  rw [List.getD_eq_getElem?_getD, List.getElem?_eq_none h]
  rfl

theorem occurMap_getD (f : Nat → List Nat → List Nat) (occur : List (List Nat)) (v : Nat) :
    (occurMap f occur).getD v [] = if v < occur.length then f v (occur.getD v []) else [] := by
  unfold occurMap
  by_cases h : v < occur.length
  · rw [if_pos h, List.getD_eq_getElem?_getD, List.getElem?_map, List.getElem?_range h]
    rfl
  · rw [if_neg h, getD_nil_of_le]
    simpa using h

namespace ANF

theorem addPolyToOccur_length (occur : List (List Nat)) (p : BoolePolynomial) (i : Nat) :
    (addPolyToOccur occur p i).length = occur.length := occurMap_length _ _

theorem removePolyFromOccur_length (occur : List (List Nat)) (p : BoolePolynomial) (i : Nat) :
    (removePolyFromOccur occur p i).length = occur.length := occurMap_length _ _

theorem addPolyToOccur_getD (occur : List (List Nat)) (p : BoolePolynomial) (i v : Nat) :
    (addPolyToOccur occur p i).getD v [] =
      if v < occur.length ∧ v ∈ BoolePolynomial.support p then occur.getD v [] ++ [i]
      else occur.getD v [] := by
  unfold addPolyToOccur
  rw [occurMap_getD]
  by_cases h : v < occur.length
  · by_cases h2 : v ∈ BoolePolynomial.support p <;> simp [h, h2]
  · rw [if_neg h, if_neg (by tauto), getD_nil_of_le occur v (by omega)]

theorem removePolyFromOccur_getD (occur : List (List Nat)) (p : BoolePolynomial) (i v : Nat) :
    (removePolyFromOccur occur p i).getD v [] =
      if v ∈ BoolePolynomial.support p then (occur.getD v []).erase i
      else occur.getD v [] := by
  unfold removePolyFromOccur
  rw [occurMap_getD]
  by_cases h : v < occur.length
  · simp [h]
  · rw [if_neg h, getD_nil_of_le occur v (by omega)]
    split <;> rfl

theorem occur_ext (o1 o2 : List (List Nat)) (hlen : o1.length = o2.length)
    (h : ∀ v, o1.getD v [] = o2.getD v []) : o1 = o2 := by
  apply List.ext_getElem hlen
  intro n h1 h2
  have := h n
  rw [List.getD_eq_getElem?_getD, List.getD_eq_getElem?_getD, List.getElem?_eq_getElem h1,
    List.getElem?_eq_getElem h2] at this
  exact this

/-- Removing a polynomial from the index at a slot undoes adding it there, when the slot
was not yet recorded for the variables of the polynomial. -/
theorem removePolyFromOccur_addPolyToOccur (occur : List (List Nat)) (p : BoolePolynomial)
    (i : Nat) (hfresh : ∀ v ∈ BoolePolynomial.support p, i ∉ occur.getD v []) :
    removePolyFromOccur (addPolyToOccur occur p i) p i = occur := by
  apply occur_ext
  · rw [removePolyFromOccur_length, addPolyToOccur_length]
  · intro v
    rw [removePolyFromOccur_getD, addPolyToOccur_getD]
    by_cases h2 : v ∈ BoolePolynomial.support p
    · by_cases h : v < occur.length
      · rw [if_pos h2, if_pos ⟨h, h2⟩]
        have hf := hfresh v h2
        rw [List.erase_append_right _ hf]
        simp
      · rw [if_pos h2, if_neg (by tauto), getD_nil_of_le occur v (by omega)]
        rfl
    · rw [if_neg h2, if_neg (by tauto)]

end ANF

/-! ## Theorems: the substitution tracker -/

namespace Replacer

theorem lookup_lt_of_ne_unset (r : Replacer) (v : Nat) (h : r.lookup v ≠ VarStatus.unset) :
    v < r.status.length := by
  by_contra hlt
  apply h
  unfold lookup
  rw [List.getD_eq_getElem?_getD, List.getElem?_eq_none (by omega)]
  rfl

theorem lookup_set (r : Replacer) (v : Nat) (s : VarStatus) (u : Nat) :
    ({ r with status := r.status.set v s } : Replacer).lookup u =
      if u = v ∧ v < r.status.length then s else r.lookup u := by
  unfold lookup
  simp only
  rw [List.getD_eq_getElem?_getD, List.getD_eq_getElem?_getD, List.getElem?_set]
  by_cases h : v = u
  · subst h
    by_cases h2 : v < r.status.length
    · simp [h2]
    · simp [h2, List.getElem?_eq_none (show r.status.length ≤ v by omega)]
  · have h' : ¬ u = v := fun e => h e.symm
    simp [h, h']

theorem lookup_setNotOK (r : Replacer) (u : Nat) : r.setNotOK.lookup u = r.lookup u := rfl

theorem setFixed_of_unset (r : Replacer) (v : Nat) (b : Bool)
    (h : r.lookup v = VarStatus.unset) :
    r.setFixed v b = { r with status := r.status.set v (VarStatus.fixed b) } := by
  unfold setFixed
  rw [h]

theorem setReplaced_of_unset (r : Replacer) (v w : Nat) (neg : Bool)
    (h : r.lookup v = VarStatus.unset) :
    r.setReplaced v w neg = { r with status := r.status.set v (VarStatus.replaced w neg) } := by
  unfold setReplaced
  rw [h]

theorem init_lookup (n v : Nat) : (init n).lookup v = VarStatus.unset := by
  unfold lookup init
  rw [List.getD_eq_getElem?_getD]
  by_cases h : v < n
  · rw [List.getElem?_eq_getElem (by simpa using h)]
    simp
  · rw [List.getElem?_eq_none (by simpa using h)]
    rfl

theorem wellFormed_init (n : Nat) : (init n).WellFormed := by
  refine ⟨[], List.nodup_nil, ?_, ?_⟩
  · intro v
    simp [init_lookup]
  · intro l1 v l2 w neg h
    simp at h

theorem wellFormed_setNotOK (r : Replacer) (h : r.WellFormed) : r.setNotOK.WellFormed := h

/-- Recording a status on an unset variable of the ring keeps the tracker acyclic, when the
target of a replacement is another variable of the ring that is unset. -/
theorem wellFormed_set (r : Replacer) (v : Nat) (s : VarStatus) (h : r.WellFormed)
    (hv : r.lookup v = VarStatus.unset) (hlt : v < r.status.length)
    (hs : s ≠ VarStatus.unset)
    (ht : ∀ w neg, s = VarStatus.replaced w neg →
      r.lookup w = VarStatus.unset ∧ w ≠ v ∧ w < r.status.length) :
    ({ r with status := r.status.set v s } : Replacer).WellFormed := by
  obtain ⟨trail, hnd, hmem, htgt⟩ := h
  have hvt : v ∉ trail := fun hin => (hmem v).1 hin hv
  refine ⟨v :: trail, List.nodup_cons.2 ⟨hvt, hnd⟩, ?_, ?_⟩
  · intro u
    rw [lookup_set, List.mem_cons]
    by_cases hu : u = v
    · subst hu
      simp [hlt, hs]
    · simp [hu, hmem u]
  · intro l1 u l2 w neg htrail hlook
    rw [lookup_set] at hlook
    simp only [List.length_set]
    cases l1 with
    | nil =>
      simp only [List.nil_append, List.cons.injEq] at htrail
      obtain ⟨rfl, rfl⟩ := htrail
      rw [if_pos ⟨rfl, hlt⟩] at hlook
      obtain ⟨h1, h2, h3⟩ := ht w neg hlook
      exact ⟨fun hin => (hmem w).1 hin h1, h2, h3⟩
    | cons x l1' =>
      simp only [List.cons_append, List.cons.injEq] at htrail
      obtain ⟨_, htrail⟩ := htrail
      have hu : u ≠ v := by
        rintro rfl
        apply hvt
        rw [htrail]
        simp
      rw [if_neg (fun hc => hu hc.1)] at hlook
      exact htgt l1' u l2 w neg htrail hlook

theorem wellFormed_setFixed (r : Replacer) (v : Nat) (b : Bool) (h : r.WellFormed) :
    (r.setFixed v b).WellFormed := by
  unfold setFixed
  split
  · next hv =>
    by_cases hlt : v < r.status.length
    · exact wellFormed_set r v _ h hv hlt (by simp) (by simp)
    · rw [List.set_eq_of_length_le (by omega)]
      exact h
  · split
    · exact h
    · exact h

theorem wellFormed_setReplaced (r : Replacer) (v w : Nat) (neg : Bool) (h : r.WellFormed)
    (hw : r.lookup w = VarStatus.unset) (hne : w ≠ v) (hlt : w < r.status.length) :
    (r.setReplaced v w neg).WellFormed := by
  unfold setReplaced
  split
  · next hv =>
    by_cases hvlt : v < r.status.length
    · apply wellFormed_set r v _ h hv hvlt (by simp)
      intro w' neg' heq
      simp only [VarStatus.replaced.injEq] at heq
      obtain ⟨rfl, _⟩ := heq
      exact ⟨hw, hne, hlt⟩
    · rw [List.set_eq_of_length_le (by omega)]
      exact h
  · split
    · exact h
    · exact h

theorem resolveAux_of_unset (r : Replacer) (n v : Nat) (neg : Bool)
    (h : r.lookup v = VarStatus.unset) : resolveAux n r v neg = Resolved.lit v neg := by
  cases n with
  | zero => rfl
  | succ n => simp [resolveAux, h]

theorem resolveAux_good (r : Replacer) (trail : List Nat) (h : TrailOK r trail) :
    ∀ (n : Nat) (l1 : List Nat) (v : Nat) (l2 : List Nat) (neg : Bool),
      trail = l1 ++ v :: l2 → l1.length < n → Good r (resolveAux n r v neg) := by
  obtain ⟨hnd, hmem, htgt⟩ := h
  intro n
  induction n with
  | zero => intro l1 v l2 neg _ hlen; omega
  | succ n ih =>
    intro l1 v l2 neg htrail hlen
    have hvin : v ∈ trail := by rw [htrail]; simp
    have hvset := (hmem v).1 hvin
    unfold resolveAux
    cases hlook : r.lookup v with
    | unset => exact absurd hlook hvset
    | fixed b => simp [Good]
    | replaced w neg' =>
      simp only
      obtain ⟨hw2, hwv, hwlt⟩ := htgt l1 v l2 w neg' htrail hlook
      by_cases hwu : r.lookup w = VarStatus.unset
      · rw [resolveAux_of_unset r n w _ hwu]
        exact ⟨hwu, hwlt⟩
      · have hwin : w ∈ trail := (hmem w).2 hwu
        rw [htrail, List.mem_append, List.mem_cons] at hwin
        have hw1 : w ∈ l1 := by
          rcases hwin with h | h | h
          · exact h
          · exact absurd h hwv
          · exact absurd h hw2
        obtain ⟨a, b, rfl⟩ := List.append_of_mem hw1
        apply ih a w (b ++ v :: l2) _
        · rw [htrail]; simp
        · simp only [List.length_append, List.length_cons] at hlen
          omega

theorem trail_length_le (r : Replacer) (trail : List Nat) (h : TrailOK r trail) :
    trail.length ≤ r.status.length := by
  obtain ⟨hnd, hmem, _⟩ := h
  have hsub : trail.toFinset ⊆ Finset.range r.status.length := by
    intro v hv
    rw [List.mem_toFinset] at hv
    rw [Finset.mem_range]
    exact lookup_lt_of_ne_unset r v ((hmem v).1 hv)
  have := Finset.card_le_card hsub
  rw [List.toFinset_card_of_nodup hnd, Finset.card_range] at this
  exact this

theorem resolve_good (r : Replacer) (h : r.WellFormed) (v : Nat)
    (hv : r.lookup v ≠ VarStatus.unset) : Good r (r.resolve v) := by
  obtain ⟨trail, ht⟩ := h
  have hvin : v ∈ trail := (ht.2.1 v).2 hv
  obtain ⟨l1, l2, hsplit⟩ := List.append_of_mem hvin
  unfold resolve
  apply resolveAux_good r trail ht _ l1 v l2 false hsplit
  have := trail_length_le r trail ht
  rw [hsplit] at this
  simp only [List.length_append, List.length_cons] at this
  omega

theorem support_valuePoly (r : Replacer) (res : Resolved) (h : Good r res) (u : Nat)
    (hu : u ∈ BoolePolynomial.support (valuePoly res)) :
    r.lookup u = VarStatus.unset ∧ u < r.status.length := by
  rw [BoolePolynomial.mem_support] at hu
  obtain ⟨m, hm, hum⟩ := hu
  cases res with
  | const b =>
    cases b
    · simp [valuePoly] at hm
    · simp [valuePoly] at hm
      simp [hm] at hum
  | lit w neg =>
    cases neg
    · simp only [valuePoly, Finset.mem_singleton] at hm
      subst hm
      simp only [Finset.mem_singleton] at hum
      subst hum
      exact h
    · simp only [valuePoly, Finset.mem_insert, Finset.mem_singleton] at hm
      rcases hm with rfl | rfl
      · simp only [Finset.mem_singleton] at hum
        subst hum
        exact h
      · simp at hum

theorem support_updateVar (r : Replacer) (h : r.WellFormed) (p : BoolePolynomial) (v u : Nat)
    (hu : u ∈ BoolePolynomial.support (updateVar r p v)) :
    (u ∈ BoolePolynomial.support p ∧ (r.lookup u ≠ VarStatus.unset → u ≠ v)) ∨
      (r.lookup u = VarStatus.unset ∧ u < r.status.length) := by
  unfold updateVar at hu
  by_cases hv : r.lookup v = VarStatus.unset
  · rw [if_pos hv] at hu
    refine Or.inl ⟨hu, ?_⟩
    rintro hset rfl
    exact hset hv
  · rw [if_neg hv] at hu
    rcases BoolePolynomial.support_substVar _ _ _ _ hu with ⟨h1, h2⟩ | h1
    · exact Or.inl ⟨h1, fun _ => h2⟩
    · exact Or.inr (support_valuePoly r _ (resolve_good r h v hv) u h1)

theorem support_foldl_updateVar (r : Replacer) (h : r.WellFormed) (l : List Nat) :
    ∀ (p : BoolePolynomial) (u : Nat), u ∈ BoolePolynomial.support (l.foldl (updateVar r) p) →
      (u ∈ BoolePolynomial.support p ∧ (r.lookup u ≠ VarStatus.unset → u ∉ l)) ∨
        (r.lookup u = VarStatus.unset ∧ u < r.status.length) := by
  induction l with
  | nil => intro p u hu; exact Or.inl ⟨hu, fun _ => by simp⟩
  | cons v l ih =>
    intro p u hu
    rw [List.foldl_cons] at hu
    rcases ih _ u hu with ⟨h1, h2⟩ | h1
    · rcases support_updateVar r h p v u h1 with ⟨h3, h4⟩ | h3
      · refine Or.inl ⟨h3, fun hset => ?_⟩
        rw [List.mem_cons]
        rintro (rfl | hin)
        · exact h4 hset rfl
        · exact h2 hset hin
      · exact Or.inr h3
    · exact Or.inr h1

/-- After simplification against the tracker no fixed or replaced variable is left. -/
theorem update_unset (r : Replacer) (h : r.WellFormed) (p : BoolePolynomial) (u : Nat)
    (hu : u ∈ BoolePolynomial.support (r.update p)) : r.lookup u = VarStatus.unset := by
  unfold update at hu
  rcases support_foldl_updateVar r h _ p u hu with ⟨_, h2⟩ | h1
  · by_contra hset
    exact h2 hset (List.mem_range.2 (lookup_lt_of_ne_unset r u hset))
  · exact h1.1

/-- Simplification against the tracker keeps a polynomial in the ring. -/
theorem update_inRing (r : Replacer) (h : r.WellFormed) (p : BoolePolynomial)
    (hp : BoolePolynomial.inRing r.status.length p) :
    BoolePolynomial.inRing r.status.length (r.update p) := by
  intro u hu
  unfold update at hu
  rcases support_foldl_updateVar r h _ p u hu with ⟨h1, _⟩ | h1
  · exact hp u h1
  · exact h1.2

theorem foldl_updateVar_eq (r : Replacer) (l : List Nat) (p : BoolePolynomial)
    (h : ∀ v ∈ l, r.lookup v = VarStatus.unset ∨ v ∉ BoolePolynomial.support p) :
    l.foldl (updateVar r) p = p := by
  induction l with
  | nil => rfl
  | cons v l ih =>
    have hstep : updateVar r p v = p := by
      unfold updateVar
      rcases h v (by simp) with hv | hv
      · rw [if_pos hv]
      · split
        · rfl
        · exact BoolePolynomial.substVar_of_not_mem _ _ _ hv
    rw [List.foldl_cons, hstep]
    exact ih (fun u hu => h u (List.mem_cons_of_mem _ hu))

/-- A polynomial without fixed or replaced variable is left as it is. -/
theorem update_eq_self (r : Replacer) (p : BoolePolynomial)
    (h : ∀ v ∈ BoolePolynomial.support p, r.lookup v = VarStatus.unset) : r.update p = p := by
  unfold update
  apply foldl_updateVar_eq
  intro v _
  by_cases hv : v ∈ BoolePolynomial.support p
  · exact Or.inl (h v hv)
  · exact Or.inr hv

end Replacer

/-! ## Theorems: classification of a polynomial and the recording of facts -/

theorem classify_fixed (p : BoolePolynomial) (v : Nat) (b : Bool)
    (h : classify p = some (LinearFact.fixed v b)) : v ∈ BoolePolynomial.support p := by
  unfold classify at h
  split at h
  · split at h
    · next hne =>
      split at h
      · simp only [Option.some.injEq, LinearFact.fixed.injEq] at h
        rw [← h.1]
        exact Finset.max'_mem _ hne
      · split at h <;> simp at h
    · simp at h
  · simp at h

theorem classify_replaced (p : BoolePolynomial) (v w : Nat) (neg : Bool)
    (h : classify p = some (LinearFact.replaced v w neg)) :
    v ∈ BoolePolynomial.support p ∧ w ∈ BoolePolynomial.support p ∧ w ≠ v := by
  unfold classify at h
  split at h
  · split at h
    · next hne =>
      split at h
      · simp at h
      · split at h
        · next hcard =>
          simp only [Option.some.injEq, LinearFact.replaced.injEq] at h
          obtain ⟨rfl, rfl, _⟩ := h
          refine ⟨Finset.max'_mem _ hne, Finset.min'_mem _ hne, ?_⟩
          exact ne_of_lt (Finset.min'_lt_max'_of_card _ (by omega))
        · simp at h
    · simp at h
  · simp at h

namespace ANF

theorem learn_eqs (a : ANF) (p : BoolePolynomial) : (learn a p).eqs = a.eqs := by
  unfold learn
  split <;> rfl

theorem learn_occur (a : ANF) (p : BoolePolynomial) : (learn a p).occur = a.occur := by
  unfold learn
  split <;> rfl

theorem learn_comments (a : ANF) (p : BoolePolynomial) : (learn a p).comments = a.comments := by
  unfold learn
  split <;> rfl

/-- What `learn` does on a simplified polynomial of the ring: nothing, or one variable of
the polynomial, unset so far, gets a status and is enqueued. -/
theorem learn_cases (a : ANF) (p : BoolePolynomial)
    (hun : ∀ u ∈ BoolePolynomial.support p, a.replacer.lookup u = VarStatus.unset)
    (hring : BoolePolynomial.inRing a.replacer.status.length p) :
    learn a p = a ∨
    ∃ (x : Nat) (s : VarStatus), x ∈ BoolePolynomial.support p ∧ s ≠ VarStatus.unset ∧
      (∀ w neg, s = VarStatus.replaced w neg →
        a.replacer.lookup w = VarStatus.unset ∧ w ≠ x ∧ w < a.replacer.status.length) ∧
      learn a p = { a with
        replacer := { a.replacer with status := a.replacer.status.set x s }
        updatedVars := insert x a.updatedVars } := by
  unfold learn
  split
  · exact Or.inl rfl
  · next v b hc =>
    right
    have hv := classify_fixed p v b hc
    refine ⟨v, VarStatus.fixed b, hv, by simp, by simp, ?_⟩
    rw [Replacer.setFixed_of_unset _ _ _ (hun v hv)]
  · next v w neg hc =>
    right
    obtain ⟨hv, hw, hne⟩ := classify_replaced p v w neg hc
    refine ⟨v, VarStatus.replaced w neg, hv, by simp, ?_, ?_⟩
    · intro w' neg' heq
      simp only [VarStatus.replaced.injEq] at heq
      obtain ⟨rfl, _⟩ := heq
      exact ⟨hun _ hw, hne, hring _ hw⟩
    · rw [Replacer.setReplaced_of_unset _ _ _ _ (hun v hv)]

theorem learn_status_length (a : ANF) (p : BoolePolynomial)
    (hun : ∀ u ∈ BoolePolynomial.support p, a.replacer.lookup u = VarStatus.unset)
    (hring : BoolePolynomial.inRing a.replacer.status.length p) :
    (learn a p).replacer.status.length = a.replacer.status.length := by
  rcases learn_cases a p hun hring with h | ⟨x, s, _, _, _, h⟩
  · rw [h]
  · rw [h]; simp

theorem learn_ok (a : ANF) (p : BoolePolynomial)
    (hun : ∀ u ∈ BoolePolynomial.support p, a.replacer.lookup u = VarStatus.unset)
    (hring : BoolePolynomial.inRing a.replacer.status.length p) :
    (learn a p).replacer.ok = a.replacer.ok := by
  rcases learn_cases a p hun hring with h | ⟨x, s, _, _, _, h⟩
  · rw [h]
  · rw [h]

theorem learn_inv (a : ANF) (p : BoolePolynomial) (h : Inv a)
    (hun : ∀ u ∈ BoolePolynomial.support p, a.replacer.lookup u = VarStatus.unset)
    (hring : BoolePolynomial.inRing a.replacer.status.length p) : Inv (learn a p) := by
  rcases learn_cases a p hun hring with heq | ⟨x, s, hx, hs, ht, heq⟩
  · rw [heq]; exact h
  · rw [heq]
    refine ⟨?_, h.eqs_inRing, h.occur_iff, h.occur_nodup, ?_⟩
    · simp only [List.length_set]
      exact h.occur_length
    · exact Replacer.wellFormed_set _ x s h.tracker (hun x hx) (hring x hx) hs ht

theorem learn_pendingBut (a : ANF) (p : BoolePolynomial) (v : Nat) (rest : List Nat)
    (h : PendingBut a v rest)
    (hun : ∀ u ∈ BoolePolynomial.support p, a.replacer.lookup u = VarStatus.unset)
    (hring : BoolePolynomial.inRing a.replacer.status.length p) :
    PendingBut (learn a p) v rest := by
  rcases learn_cases a p hun hring with heq | ⟨x, s, hx, hs, ht, heq⟩
  · rw [heq]; exact h
  · rw [heq]
    intro i u hu hset
    simp only at hu hset ⊢
    rw [Replacer.lookup_set] at hset
    by_cases hux : u = x
    · left; rw [hux]; exact Finset.mem_insert_self _ _
    · rw [if_neg (fun hc => hux hc.1)] at hset
      rcases h i u hu hset with h1 | h1
      · left; exact Finset.mem_insert_of_mem h1
      · right; exact h1

theorem unsetVars_card_set (a : ANF) (x : Nat) (s : VarStatus) (upd : Finset Nat)
    (hx : a.replacer.lookup x = VarStatus.unset) (hlt : x < a.replacer.status.length)
    (hs : s ≠ VarStatus.unset) :
    (unsetVars { a with
        replacer := { a.replacer with status := a.replacer.status.set x s }
        updatedVars := upd }).card + 1 = (unsetVars a).card := by
  have hxin : x ∈ unsetVars a := by
    unfold unsetVars
    rw [Finset.mem_filter, Finset.mem_range]
    exact ⟨hlt, hx⟩
  have heq : unsetVars { a with
        replacer := { a.replacer with status := a.replacer.status.set x s }
        updatedVars := upd } = (unsetVars a).erase x := by
    ext u
    unfold unsetVars
    simp only [Finset.mem_filter, Finset.mem_range, Finset.mem_erase, List.length_set]
    rw [Replacer.lookup_set]
    by_cases hux : u = x
    · subst hux
      simp [hlt, hs]
    · simp [hux]
  rw [heq, Finset.card_erase_of_mem hxin]
  have : 0 < (unsetVars a).card := Finset.card_pos.2 ⟨x, hxin⟩
  omega

/-- Recording a fact does not increase the measure of the work left to `propagate`: a
variable enters the change set only when it stops being unset. -/
theorem learn_measure (a : ANF) (p : BoolePolynomial)
    (hun : ∀ u ∈ BoolePolynomial.support p, a.replacer.lookup u = VarStatus.unset)
    (hring : BoolePolynomial.inRing a.replacer.status.length p) :
    (learn a p).updatedVars.card + (unsetVars (learn a p)).card ≤
      a.updatedVars.card + (unsetVars a).card := by
  rcases learn_cases a p hun hring with heq | ⟨x, s, hx, hs, ht, heq⟩
  · rw [heq]
  · rw [heq]
    have h1 := unsetVars_card_set a x s (insert x a.updatedVars) (hun x hx) (hring x hx) hs
    have h2 := Finset.card_insert_le x a.updatedVars
    simp only at h1 h2 ⊢
    omega

end ANF

/-! ## Theorems: rewriting a slot and adding a slot keep the invariants -/

theorem getD_set_poly (l : List BoolePolynomial) (i j : Nat) (x : BoolePolynomial) :
    (l.set i x).getD j ∅ = if j = i ∧ i < l.length then x else l.getD j ∅ := by
  rw [List.getD_eq_getElem?_getD, List.getD_eq_getElem?_getD, List.getElem?_set]
  by_cases h : i = j
  · subst h
    by_cases h2 : i < l.length
    · simp [h2]
    · simp [h2, List.getElem?_eq_none (show l.length ≤ i by omega)]
  · have h' : ¬ j = i := fun e => h e.symm
    simp [h, h']

theorem getD_append_poly (l : List BoolePolynomial) (x : BoolePolynomial) (j : Nat) :
    (l ++ [x]).getD j ∅ = if j = l.length then x else l.getD j ∅ := by
  rw [List.getD_eq_getElem?_getD, List.getD_eq_getElem?_getD]
  by_cases h : j < l.length
  · rw [List.getElem?_append_left h, if_neg (by omega)]
  · rw [List.getElem?_append_right (by omega)]
    by_cases h2 : j = l.length
    · subst h2
      simp
    · rw [if_neg h2, List.getElem?_eq_none (show l.length ≤ j by omega)]
      have : ([x] : List BoolePolynomial)[j - l.length]? = none := by
        apply List.getElem?_eq_none
        simp only [List.length_singleton]
        omega
      rw [this]

theorem getD_poly_of_le (l : List BoolePolynomial) (j : Nat) (h : l.length ≤ j) :
    l.getD j ∅ = ∅ := by
  rw [List.getD_eq_getElem?_getD, List.getElem?_eq_none h]
  rfl

theorem getD_poly_mem (l : List BoolePolynomial) (j : Nat) (h : j < l.length) :
    l.getD j ∅ ∈ l := by
  rw [List.getD_eq_getElem?_getD, List.getElem?_eq_getElem h]
  exact List.getElem_mem h

namespace ANF

theorem lt_of_mem_support (a : ANF) (i v : Nat)
    (h : v ∈ BoolePolynomial.support (a.eqs.getD i ∅)) : i < a.eqs.length := by
  by_contra hlt
  rw [getD_poly_of_le _ _ (by omega)] at h
  simp [BoolePolynomial.support_empty] at h

/-- The occurrence list of `v` after slot `i` has been rewritten from `old` to `poly`. -/
theorem rewrite_occur_getD (occur : List (List Nat)) (old poly : BoolePolynomial) (i v : Nat) :
    (addPolyToOccur (removePolyFromOccur occur old i) poly i).getD v [] =
      if v < occur.length ∧ v ∈ BoolePolynomial.support poly then
        (if v ∈ BoolePolynomial.support old then (occur.getD v []).erase i
          else occur.getD v []) ++ [i]
      else (if v ∈ BoolePolynomial.support old then (occur.getD v []).erase i
          else occur.getD v []) := by
  rw [addPolyToOccur_getD, removePolyFromOccur_length, removePolyFromOccur_getD]

theorem rewrite_inv (a : ANF) (i : Nat) (poly : BoolePolynomial) (h : Inv a)
    (hi : i < a.eqs.length) (hring : BoolePolynomial.inRing a.occur.length poly) :
    Inv { a with
      eqs := a.eqs.set i poly
      occur := addPolyToOccur (removePolyFromOccur a.occur (a.eqs.getD i ∅) i) poly i } := by
  have hnot : ∀ v, i ∉ (if v ∈ BoolePolynomial.support (a.eqs.getD i ∅) then
      (a.occur.getD v []).erase i else a.occur.getD v []) := by
    intro v
    split
    · intro hin
      exact ((h.occur_nodup v).mem_erase_iff.1 hin).1 rfl
    · next hv => exact fun hin => hv ((h.occur_iff i v).1 hin)
  have hmem : ∀ v j, j ≠ i → (j ∈ (if v ∈ BoolePolynomial.support (a.eqs.getD i ∅) then
      (a.occur.getD v []).erase i else a.occur.getD v []) ↔ j ∈ a.occur.getD v []) := by
    intro v j hj
    split
    · exact List.mem_erase_of_ne hj
    · rfl
  refine ⟨?_, ?_, ?_, ?_, h.tracker⟩
  · simp only [addPolyToOccur_length, removePolyFromOccur_length]
    exact h.occur_length
  · intro p hp
    simp only [addPolyToOccur_length, removePolyFromOccur_length]
    rcases List.mem_or_eq_of_mem_set hp with hp | rfl
    · exact h.eqs_inRing p hp
    · exact hring
  · intro j v
    simp only
    rw [rewrite_occur_getD, getD_set_poly]
    generalize hL : (if v ∈ BoolePolynomial.support (a.eqs.getD i ∅) then
      (a.occur.getD v []).erase i else a.occur.getD v []) = L
    have hnotL : i ∉ L := hL ▸ hnot v
    have hmemL : ∀ j, j ≠ i → (j ∈ L ↔ j ∈ a.occur.getD v []) := fun j hj => hL ▸ hmem v j hj
    by_cases hc : v < a.occur.length ∧ v ∈ BoolePolynomial.support poly
    · rw [if_pos hc]
      by_cases hj : j = i
      · rw [if_pos (show j = i ∧ i < a.eqs.length from ⟨hj, hi⟩)]
        simp [hj, hc.2]
      · rw [if_neg (show ¬ (j = i ∧ i < a.eqs.length) from fun hc => hj hc.1),
          ← h.occur_iff j v, List.mem_append, hmemL j hj]
        simp [hj]
    · rw [if_neg hc]
      by_cases hj : j = i
      · rw [if_pos (show j = i ∧ i < a.eqs.length from ⟨hj, hi⟩)]
        subst hj
        constructor
        · intro hin
          exact absurd hin hnotL
        · intro hv
          exact absurd ⟨hring v hv, hv⟩ hc
      · rw [if_neg (show ¬ (j = i ∧ i < a.eqs.length) from fun hc => hj hc.1),
          ← h.occur_iff j v, hmemL j hj]
  · intro v
    simp only
    rw [rewrite_occur_getD]
    have hnd : (if v ∈ BoolePolynomial.support (a.eqs.getD i ∅) then
        (a.occur.getD v []).erase i else a.occur.getD v []).Nodup := by
      split
      · exact (h.occur_nodup v).erase i
      · exact h.occur_nodup v
    generalize hL : (if v ∈ BoolePolynomial.support (a.eqs.getD i ∅) then
      (a.occur.getD v []).erase i else a.occur.getD v []) = L at hnd
    have hnotL : i ∉ L := hL ▸ hnot v
    split
    · rw [List.nodup_append]
      refine ⟨hnd, List.nodup_singleton i, ?_⟩
      intro x hx1 hx2
      rw [List.mem_singleton] at hx2
      subst hx2
      exact hnotL hx1
    · exact hnd

theorem rewrite_pendingBut (a : ANF) (i : Nat) (poly : BoolePolynomial) (v : Nat)
    (rest : List Nat) (occ : List (List Nat)) (h : PendingBut a v (i :: rest))
    (hi : i < a.eqs.length)
    (hun : ∀ u ∈ BoolePolynomial.support poly, a.replacer.lookup u = VarStatus.unset) :
    PendingBut { a with eqs := a.eqs.set i poly, occur := occ } v rest := by
  intro j u hu hset
  simp only at hu hset ⊢
  rw [getD_set_poly] at hu
  by_cases hj : j = i
  · rw [if_pos ⟨hj, hi⟩] at hu
    exact absurd (hun u hu) hset
  · rw [if_neg (fun hc => hj hc.1)] at hu
    rcases h j u hu hset with h1 | ⟨h1, h2⟩
    · exact Or.inl h1
    · rw [List.mem_cons] at h2
      rcases h2 with h2 | h2
      · exact absurd h2 hj
      · exact Or.inr ⟨h1, h2⟩

theorem rewriteSlot_inv (a : ANF) (i : Nat) (poly : BoolePolynomial) (h : Inv a)
    (hi : i < a.eqs.length) (hring : BoolePolynomial.inRing a.occur.length poly)
    (hun : ∀ u ∈ BoolePolynomial.support poly, a.replacer.lookup u = VarStatus.unset) :
    Inv (rewriteSlot a i poly) := by
  have h1 := rewrite_inv a i poly h hi hring
  unfold rewriteSlot
  simp only
  split
  · exact ⟨h1.occur_length, h1.eqs_inRing, h1.occur_iff, h1.occur_nodup, h1.tracker⟩
  · apply learn_inv _ _ h1 hun
    rw [← h.occur_length]
    exact hring

theorem rewriteSlot_eqs_length (a : ANF) (i : Nat) (poly : BoolePolynomial) :
    (rewriteSlot a i poly).eqs.length = a.eqs.length := by
  unfold rewriteSlot
  simp only
  split
  · simp
  · rw [learn_eqs]; simp

theorem rewriteSlot_pendingBut (a : ANF) (i : Nat) (poly : BoolePolynomial) (v : Nat)
    (rest : List Nat) (h : PendingBut a v (i :: rest)) (hi : i < a.eqs.length)
    (hring : BoolePolynomial.inRing a.replacer.status.length poly)
    (hun : ∀ u ∈ BoolePolynomial.support poly, a.replacer.lookup u = VarStatus.unset) :
    PendingBut (rewriteSlot a i poly) v rest := by
  have h1 := rewrite_pendingBut a i poly v rest
    (addPolyToOccur (removePolyFromOccur a.occur (a.eqs.getD i ∅) i) poly i) h hi hun
  unfold rewriteSlot
  simp only
  split
  · exact h1
  · exact learn_pendingBut _ _ _ _ h1 hun hring

theorem rewriteSlot_measure (a : ANF) (i : Nat) (poly : BoolePolynomial)
    (hring : BoolePolynomial.inRing a.replacer.status.length poly)
    (hun : ∀ u ∈ BoolePolynomial.support poly, a.replacer.lookup u = VarStatus.unset) :
    (rewriteSlot a i poly).updatedVars.card + (unsetVars (rewriteSlot a i poly)).card ≤
      a.updatedVars.card + (unsetVars a).card := by
  unfold rewriteSlot
  simp only
  split
  · exact le_refl _
  · exact learn_measure _ _ hun hring

theorem rewriteSlot_status_length (a : ANF) (i : Nat) (poly : BoolePolynomial)
    (hring : BoolePolynomial.inRing a.replacer.status.length poly)
    (hun : ∀ u ∈ BoolePolynomial.support poly, a.replacer.lookup u = VarStatus.unset) :
    (rewriteSlot a i poly).replacer.status.length = a.replacer.status.length := by
  unfold rewriteSlot
  simp only
  split
  · rfl
  · exact learn_status_length _ _ hun hring

/-- Adding a polynomial of the ring in a new slot keeps the invariants. -/
theorem push_inv (a : ANF) (p : BoolePolynomial) (h : Inv a)
    (hring : BoolePolynomial.inRing a.occur.length p) :
    Inv { a with eqs := a.eqs ++ [p], occur := addPolyToOccur a.occur p a.eqs.length } := by
  have hfresh : ∀ v, a.eqs.length ∉ a.occur.getD v [] := by
    intro v hin
    have := (h.occur_iff _ v).1 hin
    exact absurd (lt_of_mem_support a _ v this) (by omega)
  refine ⟨?_, ?_, ?_, ?_, h.tracker⟩
  · simp only [addPolyToOccur_length]
    exact h.occur_length
  · intro q hq
    simp only [addPolyToOccur_length]
    rw [List.mem_append, List.mem_singleton] at hq
    rcases hq with hq | rfl
    · exact h.eqs_inRing q hq
    · exact hring
  · intro j v
    simp only
    rw [addPolyToOccur_getD, getD_append_poly]
    by_cases hc : v < a.occur.length ∧ v ∈ BoolePolynomial.support p
    · rw [if_pos hc]
      by_cases hj : j = a.eqs.length
      · rw [if_pos hj]
        simp [hj, hc.2]
      · rw [if_neg hj, ← h.occur_iff j v, List.mem_append]
        simp [hj]
    · rw [if_neg hc]
      by_cases hj : j = a.eqs.length
      · rw [if_pos hj]
        subst hj
        constructor
        · intro hin
          exact absurd hin (hfresh v)
        · intro hv
          exact absurd ⟨hring v hv, hv⟩ hc
      · rw [if_neg hj, ← h.occur_iff j v]
  · intro v
    simp only
    rw [addPolyToOccur_getD]
    split
    · rw [List.nodup_append]
      refine ⟨h.occur_nodup v, List.nodup_singleton _, ?_⟩
      intro x hx1 hx2
      rw [List.mem_singleton] at hx2
      subst hx2
      exact hfresh v hx1
    · exact h.occur_nodup v

theorem push_pending (a : ANF) (p : BoolePolynomial) (occ : List (List Nat)) (v : Nat)
    (h : PendingBut a v [])
    (hun : ∀ u ∈ BoolePolynomial.support p, a.replacer.lookup u = VarStatus.unset) :
    PendingBut { a with eqs := a.eqs ++ [p], occur := occ } v [] := by
  intro j u hu hset
  simp only at hu hset ⊢
  rw [getD_append_poly] at hu
  split at hu
  · exact absurd (hun u hu) hset
  · exact h j u hu hset

end ANF

/-! ## Theorems: compaction of the store -/

/-- The number of live slots before slot `i`: the slot to which compaction moves slot `i`. -/
theorem liveBefore_succ_cons (x : BoolePolynomial) (xs : List BoolePolynomial) (i : Nat) :
    ((x :: xs).take (i + 1)).countP (fun p => !BoolePolynomial.isZero p) =
      (if BoolePolynomial.isZero x = true then 0 else 1) +
        (xs.take i).countP (fun p => !BoolePolynomial.isZero p) := by
  rw [List.take_succ_cons, List.countP_cons]
  by_cases h : BoolePolynomial.isZero x = true
  · simp [h]
  · simp [h]; omega

theorem filter_getD_liveBefore (l : List BoolePolynomial) :
    ∀ i, i < l.length → BoolePolynomial.isZero (l.getD i ∅) = false →
      (l.filter (fun p => !BoolePolynomial.isZero p)).getD
        ((l.take i).countP (fun p => !BoolePolynomial.isZero p)) ∅ = l.getD i ∅ := by
  induction l with
  | nil => intro i hi; simp at hi
  | cons x xs ih =>
    intro i hi hlive
    cases i with
    | zero =>
      simp only [List.getD_cons_zero] at hlive
      simp [List.filter_cons, hlive]
    | succ i =>
      simp only [List.getD_cons_succ, List.length_cons] at hlive hi ⊢
      rw [liveBefore_succ_cons]
      by_cases hx : BoolePolynomial.isZero x = true
      · rw [if_pos hx, Nat.zero_add, List.filter_cons]
        simp only [hx, Bool.not_true, Bool.false_eq_true, if_false]
        exact ih i (by omega) hlive
      · rw [if_neg hx, List.filter_cons]
        simp only [hx, Bool.not_false, if_true]
        rw [Nat.add_comm, List.getD_cons_succ]
        exact ih i (by omega) hlive

theorem exists_liveBefore (l : List BoolePolynomial) :
    ∀ j, j < (l.filter (fun p => !BoolePolynomial.isZero p)).length →
      ∃ i, i < l.length ∧ (l.take i).countP (fun p => !BoolePolynomial.isZero p) = j ∧
        l.getD i ∅ = (l.filter (fun p => !BoolePolynomial.isZero p)).getD j ∅ := by
  induction l with
  | nil => intro j hj; simp at hj
  | cons x xs ih =>
    intro j hj
    by_cases hx : BoolePolynomial.isZero x = true
    · rw [List.filter_cons] at hj ⊢
      simp only [hx, Bool.not_true, Bool.false_eq_true, if_false] at hj ⊢
      obtain ⟨i, hi, hc, hg⟩ := ih j hj
      refine ⟨i + 1, by simp; omega, ?_, ?_⟩
      · rw [liveBefore_succ_cons, if_pos hx, Nat.zero_add, hc]
      · rw [List.getD_cons_succ, hg]
    · rw [List.filter_cons] at hj ⊢
      simp only [hx, Bool.not_false, if_true] at hj ⊢
      cases j with
      | zero => exact ⟨0, by simp, by simp, by simp⟩
      | succ j =>
        simp only [List.length_cons] at hj
        obtain ⟨i, hi, hc, hg⟩ := ih j (by omega)
        refine ⟨i + 1, by simp; omega, ?_, ?_⟩
        · rw [liveBefore_succ_cons, if_neg hx, hc, Nat.add_comm]
        · rw [List.getD_cons_succ, List.getD_cons_succ, hg]

theorem liveBefore_lt (l : List BoolePolynomial) :
    ∀ i k, i < k → k ≤ l.length → BoolePolynomial.isZero (l.getD i ∅) = false →
      (l.take i).countP (fun p => !BoolePolynomial.isZero p) <
        (l.take k).countP (fun p => !BoolePolynomial.isZero p) := by
  induction l with
  | nil => intro i k hik hk; simp at hk; omega
  | cons x xs ih =>
    intro i k hik hk hlive
    cases k with
    | zero => omega
    | succ k =>
      simp only [List.length_cons] at hk
      rw [liveBefore_succ_cons]
      cases i with
      | zero =>
        simp only [List.getD_cons_zero] at hlive
        simp [hlive]
      | succ i =>
        simp only [List.getD_cons_succ] at hlive
        rw [liveBefore_succ_cons]
        have := ih i k (by omega) (by omega) hlive
        omega

theorem liveBefore_inj (l : List BoolePolynomial) (i k : Nat) (hi : i < l.length)
    (hk : k < l.length) (hli : BoolePolynomial.isZero (l.getD i ∅) = false)
    (hlk : BoolePolynomial.isZero (l.getD k ∅) = false)
    (h : (l.take i).countP (fun p => !BoolePolynomial.isZero p) =
      (l.take k).countP (fun p => !BoolePolynomial.isZero p)) : i = k := by
  rcases Nat.lt_trichotomy i k with hlt | heq | hgt
  · have := liveBefore_lt l i k hlt (by omega) hli
    omega
  · exact heq
  · have := liveBefore_lt l k i hgt (by omega) hlk
    omega

/-- The renumbering of compaction: for a slot of the store, the slot index less the number
of emptied slots before it is the number of live slots before it. -/
theorem sub_emptyBefore (l : List BoolePolynomial) (i : Nat) (hi : i ≤ l.length) :
    i - (l.take i).countP (fun p => BoolePolynomial.isZero p) =
      (l.take i).countP (fun p => !BoolePolynomial.isZero p) := by
  have h := ANF.countP_isZero_add (l.take i)
  rw [List.length_take, Nat.min_eq_left hi] at h
  omega

namespace ANF

theorem isZero_eq_false_of_mem_support (p : BoolePolynomial) (v : Nat)
    (h : v ∈ BoolePolynomial.support p) : BoolePolynomial.isZero p = false := by
  unfold BoolePolynomial.isZero
  rw [decide_eq_false_iff_not]
  rintro rfl
  simp [BoolePolynomial.support_empty] at h

theorem removeEmptyEquations_occur_getD (a : ANF) (v : Nat) :
    (removeEmptyEquations a).occur.getD v [] =
      (a.occur.getD v []).map
        (fun i => i - (a.eqs.take i).countP (fun p => BoolePolynomial.isZero p)) := by
  unfold removeEmptyEquations
  simp only
  exact List.getD_map a.occur []
    (fun l => l.map (fun i => i - (a.eqs.take i).countP (fun p => BoolePolynomial.isZero p)))

theorem removeEmptyEquations_inv (a : ANF) (h : Inv a) : Inv (removeEmptyEquations a) := by
  have hlive : ∀ i v, i ∈ a.occur.getD v [] →
      i < a.eqs.length ∧ BoolePolynomial.isZero (a.eqs.getD i ∅) = false ∧
        v ∈ BoolePolynomial.support (a.eqs.getD i ∅) := by
    intro i v hin
    have hv := (h.occur_iff i v).1 hin
    exact ⟨lt_of_mem_support a i v hv, isZero_eq_false_of_mem_support _ v hv, hv⟩
  refine ⟨?_, ?_, ?_, ?_, h.tracker⟩
  · unfold removeEmptyEquations
    simp only [List.length_map]
    exact h.occur_length
  · intro p hp
    unfold removeEmptyEquations at hp ⊢
    simp only [List.length_map] at hp ⊢
    exact h.eqs_inRing p (List.mem_of_mem_filter hp)
  · intro j v
    rw [removeEmptyEquations_occur_getD, List.mem_map]
    constructor
    · rintro ⟨i, hin, rfl⟩
      obtain ⟨hi, hz, hv⟩ := hlive i v hin
      rw [sub_emptyBefore _ _ (by omega)]
      unfold removeEmptyEquations
      simp only
      rw [filter_getD_liveBefore _ i hi hz]
      exact hv
    · intro hv
      have hj : j < (removeEmptyEquations a).eqs.length := lt_of_mem_support _ j v hv
      unfold removeEmptyEquations at hj hv
      simp only at hj hv
      obtain ⟨i, hi, hc, hg⟩ := exists_liveBefore a.eqs j hj
      rw [← hg] at hv
      refine ⟨i, (h.occur_iff i v).2 hv, ?_⟩
      rw [sub_emptyBefore _ _ (by omega), hc]
  · intro v
    rw [removeEmptyEquations_occur_getD]
    apply List.Nodup.map_on _ (h.occur_nodup v)
    intro i hi k hk heq
    obtain ⟨hi1, hi2, _⟩ := hlive i v hi
    obtain ⟨hk1, hk2, _⟩ := hlive k v hk
    rw [sub_emptyBefore _ _ (by omega), sub_emptyBefore _ _ (by omega)] at heq
    exact liveBefore_inj a.eqs i k hi1 hk1 hi2 hk2 heq

theorem removeEmptyEquations_pending (a : ANF) (h : Pending a) :
    Pending (removeEmptyEquations a) := by
  intro j u hu hset
  have hj : j < (removeEmptyEquations a).eqs.length := lt_of_mem_support _ j u hu
  unfold removeEmptyEquations at hj hu hset ⊢
  simp only at hj hu hset ⊢
  obtain ⟨i, hi, hc, hg⟩ := exists_liveBefore a.eqs j hj
  rw [← hg] at hu
  exact h i u hu hset

end ANF

/-! ## Theorems: the operations of the container keep the invariants -/

namespace ANF

theorem pendingBut_nil (a : ANF) (v : Nat) : PendingBut a v [] ↔ Pending a := by
  unfold PendingBut Pending
  simp

theorem pendingBut_of_pending (a : ANF) (v : Nat) (rest : List Nat) (h : Pending a) :
    PendingBut a v rest := fun i u hu hset => Or.inl (h i u hu hset)

theorem init_inv (n : Nat) : Inv (init n) := by
  refine ⟨?_, ?_, ?_, ?_, Replacer.wellFormed_init n⟩
  · simp [init, Replacer.init]
  · intro p hp
    simp [init] at hp
  · intro i v
    have h1 : (init n).occur.getD v [] = [] := by
      simp only [init]
      rw [List.getD_eq_getElem?_getD]
      by_cases h : v < n
      · rw [List.getElem?_eq_getElem (by simpa using h)]
        simp
      · rw [List.getElem?_eq_none (by simpa using h)]
        rfl
    rw [h1]
    simp [init, BoolePolynomial.support_empty]
  · intro v
    simp only [init]
    rw [List.getD_eq_getElem?_getD]
    by_cases h : v < n
    · rw [List.getElem?_eq_getElem (by simpa using h)]
      simp
    · rw [List.getElem?_eq_none (by simpa using h)]
      simp

theorem init_pending (n : Nat) : Pending (init n) := by
  intro i u hu
  simp [init, BoolePolynomial.support_empty] at hu

theorem inRing_getD (a : ANF) (h : Inv a) (i : Nat) :
    BoolePolynomial.inRing a.replacer.status.length (a.eqs.getD i ∅) := by
  rw [← h.occur_length]
  by_cases hi : i < a.eqs.length
  · exact h.eqs_inRing _ (getD_poly_mem _ _ hi)
  · rw [getD_poly_of_le _ _ (by omega)]
    intro v hv
    simp [BoolePolynomial.support_empty] at hv

/-- The facts about one step of a pass of `propagate`. -/
theorem simplifySlot_spec (a : ANF) (i : Nat) (h : Inv a) (hi : i < a.eqs.length) :
    Inv (simplifySlot a i) ∧
    (simplifySlot a i).eqs.length = a.eqs.length ∧
    (simplifySlot a i).updatedVars.card + (unsetVars (simplifySlot a i)).card ≤
      a.updatedVars.card + (unsetVars a).card ∧
    (∀ v rest, a.replacer.ok = true → PendingBut a v (i :: rest) →
      PendingBut (simplifySlot a i) v rest) := by
  unfold simplifySlot
  by_cases hok : a.replacer.ok = true
  · rw [if_pos hok]
    have hun := Replacer.update_unset a.replacer h.tracker (a.eqs.getD i ∅)
    have hring := Replacer.update_inRing a.replacer h.tracker _ (inRing_getD a h i)
    refine ⟨?_, rewriteSlot_eqs_length _ _ _, rewriteSlot_measure _ _ _ hring hun, ?_⟩
    · apply rewriteSlot_inv a i _ h hi _ hun
      rw [h.occur_length]
      exact hring
    · intro v rest _ hp
      exact rewriteSlot_pendingBut a i _ v rest hp hi hring hun
  · rw [if_neg hok]
    exact ⟨h, rfl, le_refl _, fun v rest hc => absurd hc hok⟩

theorem foldl_simplifySlot_of_not_ok (l : List Nat) (a : ANF) (h : a.replacer.ok = false) :
    l.foldl simplifySlot a = a := by
  induction l with
  | nil => rfl
  | cons i l ih =>
    rw [List.foldl_cons]
    have : simplifySlot a i = a := by
      unfold simplifySlot
      rw [if_neg (by simp [h])]
    rw [this, ih]

/-- The facts about one pass of `propagate` over the slots of a variable. -/
theorem foldl_simplifySlot_spec (l : List Nat) :
    ∀ (a : ANF), Inv a → (∀ i ∈ l, i < a.eqs.length) →
      Inv (l.foldl simplifySlot a) ∧
      (l.foldl simplifySlot a).eqs.length = a.eqs.length ∧
      (l.foldl simplifySlot a).updatedVars.card + (unsetVars (l.foldl simplifySlot a)).card ≤
        a.updatedVars.card + (unsetVars a).card ∧
      (∀ v, (l.foldl simplifySlot a).replacer.ok = true → PendingBut a v l →
        Pending (l.foldl simplifySlot a)) := by
  induction l with
  | nil =>
    intro a h _
    exact ⟨h, rfl, le_refl _, fun v _ hp => (pendingBut_nil a v).1 hp⟩
  | cons i l ih =>
    intro a h hl
    rw [List.foldl_cons]
    obtain ⟨h1, h2, h3, h4⟩ := simplifySlot_spec a i h (hl i (by simp))
    obtain ⟨g1, g2, g3, g4⟩ := ih (simplifySlot a i) h1
      (fun j hj => by rw [h2]; exact hl j (List.mem_cons_of_mem _ hj))
    refine ⟨g1, by rw [g2, h2], le_trans g3 h3, ?_⟩
    intro v hok hp
    by_cases haok : a.replacer.ok = true
    · exact g4 v hok (h4 v l haok hp)
    · have hsame : simplifySlot a i = a := by
        unfold simplifySlot
        rw [if_neg haok]
      rw [hsame, foldl_simplifySlot_of_not_ok l a (by simpa using haok)] at hok
      exact absurd hok haok

theorem propagateLoop_of_not_ok (n : Nat) (a : ANF) (h : a.replacer.ok = false) :
    propagateLoop n a = a := by
  cases n with
  | zero => rfl
  | succ n =>
    unfold propagateLoop
    rw [if_neg (by simp [h])]

theorem propagateLoop_of_empty (n : Nat) (a : ANF) (h : a.updatedVars = ∅) :
    propagateLoop n a = a := by
  cases n with
  | zero => rfl
  | succ n =>
    unfold propagateLoop
    split
    · rw [dif_neg (by simp [h])]
    · rfl

/-- The work-set loop of `propagate` keeps the invariants and, given enough fuel, ends with
an empty change set unless an inconsistency was detected. -/
theorem propagateLoop_spec (fuel : Nat) :
    ∀ (a : ANF), Inv a → Pending a → a.updatedVars.card + (unsetVars a).card ≤ fuel →
      Inv (propagateLoop fuel a) ∧
      ((propagateLoop fuel a).replacer.ok = true →
        Pending (propagateLoop fuel a) ∧ (propagateLoop fuel a).updatedVars = ∅) := by
  induction fuel with
  | zero =>
    intro a h hp hfuel
    have hempty : a.updatedVars = ∅ := Finset.card_eq_zero.1 (by omega)
    exact ⟨h, fun _ => ⟨hp, hempty⟩⟩
  | succ fuel ih =>
    intro a h hp hfuel
    by_cases hok : a.replacer.ok = true
    · by_cases hne : a.updatedVars.Nonempty
      · have hunfold : propagateLoop (fuel + 1) a = propagateLoop fuel
            ((a.occur.getD (a.updatedVars.min' hne) []).foldl simplifySlot
              { a with updatedVars := a.updatedVars.erase (a.updatedVars.min' hne) }) := by
          rw [propagateLoop, if_pos hok, dif_pos hne]
        rw [hunfold]
        generalize hv : a.updatedVars.min' hne = v
        have hvin : v ∈ a.updatedVars := hv ▸ Finset.min'_mem _ hne
        have h0 : Inv { a with updatedVars := a.updatedVars.erase v } :=
          ⟨h.occur_length, h.eqs_inRing, h.occur_iff, h.occur_nodup, h.tracker⟩
        have hp0 : PendingBut { a with updatedVars := a.updatedVars.erase v } v
            (a.occur.getD v []) := by
          intro i u hu hset
          by_cases huv : u = v
          · right
            subst huv
            exact ⟨rfl, (h.occur_iff i u).2 hu⟩
          · left
            exact Finset.mem_erase.2 ⟨huv, hp i u hu hset⟩
        obtain ⟨g1, _, g3, g4⟩ := foldl_simplifySlot_spec (a.occur.getD v [])
          { a with updatedVars := a.updatedVars.erase v } h0
          (fun i hi => lt_of_mem_support a i v ((h.occur_iff i v).1 hi))
        generalize hnext : (a.occur.getD v []).foldl simplifySlot
          { a with updatedVars := a.updatedVars.erase v } = a' at g1 g3 g4
        by_cases hok' : a'.replacer.ok = true
        · apply ih a' g1 (g4 v hok' hp0)
          have hcard : (a.updatedVars.erase v).card + 1 = a.updatedVars.card :=
            Finset.card_erase_add_one hvin
          have hsame : unsetVars { a with updatedVars := a.updatedVars.erase v } =
              unsetVars a := rfl
          simp only [hsame] at g3
          omega
        · rw [propagateLoop_of_not_ok fuel a' (by simpa using hok')]
          exact ⟨g1, fun hc => absurd hc hok'⟩
      · have hempty : a.updatedVars = ∅ := Finset.not_nonempty_iff_eq_empty.1 hne
        rw [propagateLoop_of_empty _ _ hempty]
        exact ⟨h, fun _ => ⟨hp, hempty⟩⟩
    · rw [propagateLoop_of_not_ok _ _ (by simpa using hok)]
      exact ⟨h, fun hc => absurd hc hok⟩

theorem propagate_spec (a : ANF) (h : Inv a) (hp : Pending a) :
    Inv (propagate a) ∧
    ((propagate a).replacer.ok = true →
      Pending (propagate a) ∧ (propagate a).updatedVars = ∅) := by
  obtain ⟨h1, h2⟩ := propagateLoop_spec _ a h hp (le_refl _)
  unfold propagate
  simp only
  split
  · next hok =>
    obtain ⟨h3, h4⟩ := h2 hok
    exact ⟨removeEmptyEquations_inv _ h1,
      fun _ => ⟨removeEmptyEquations_pending _ h3, h4⟩⟩
  · exact ⟨h1, h2⟩

end ANF

namespace BoolePolynomial

theorem inRing_add (n : Nat) (p q : BoolePolynomial) (hp : inRing n p) (hq : inRing n q) :
    inRing n (add p q) := by
  intro v hv
  rcases support_add p q v hv with h | h
  · exact hp v h
  · exact hq v h

theorem inRing_substMono (n : Nat) (f : BooleMonomial) (t p : BoolePolynomial)
    (ht : inRing n t) (hp : inRing n p) : inRing n (substMono f t p) := by
  intro v hv
  rcases support_substMono f t p v hv with h | h
  · exact hp v h
  · exact ht v h

end BoolePolynomial

theorem reduceRow_inRing (n : Nat) (basis : List (Nat × BoolePolynomial))
    (hb : ∀ pr ∈ basis, BoolePolynomial.inRing n pr.2) :
    ∀ row, BoolePolynomial.inRing n row → BoolePolynomial.inRing n (reduceRow basis row) := by
  unfold reduceRow
  induction basis with
  | nil => intro row h; exact h
  | cons pr basis ih =>
    intro row h
    rw [List.foldl_cons]
    apply ih (fun q hq => hb q (List.mem_cons_of_mem _ hq))
    split
    · exact BoolePolynomial.inRing_add n _ _ h (hb pr (by simp))
    · exact h

theorem gaussJordanStep_inRing (n : Nat) (st : Option (List (Nat × BoolePolynomial)))
    (row : BoolePolynomial) (hrow : BoolePolynomial.inRing n row)
    (hst : ∀ basis, st = some basis → ∀ pr ∈ basis, BoolePolynomial.inRing n pr.2) :
    ∀ basis, gaussJordanStep st row = some basis →
      ∀ pr ∈ basis, BoolePolynomial.inRing n pr.2 := by
  intro basis hb pr hpr
  unfold gaussJordanStep at hb
  cases st with
  | none => simp at hb
  | some b0 =>
    have hb0 := hst b0 rfl
    have hr := reduceRow_inRing n b0 hb0 row hrow
    simp only at hb
    split at hb
    · simp at hb
    · split at hb
      · simp only [Option.some.injEq] at hb
        rw [← hb, List.mem_append, List.mem_map, List.mem_singleton] at hpr
        rcases hpr with ⟨q, hq, rfl⟩ | rfl
        · split
          · exact BoolePolynomial.inRing_add n _ _ (hb0 q hq) hr
          · exact hb0 q hq
        · exact hr
      · simp only [Option.some.injEq] at hb
        rw [← hb] at hpr
        exact hb0 pr hpr

theorem gaussJordan_inRing (n : Nat) (rows : List BoolePolynomial)
    (hrows : ∀ row ∈ rows, BoolePolynomial.inRing n row) :
    ∀ basis, gaussJordan rows = some basis → ∀ pr ∈ basis, BoolePolynomial.inRing n pr.2 := by
  unfold gaussJordan
  have key : ∀ (rows : List BoolePolynomial) (st : Option (List (Nat × BoolePolynomial))),
      (∀ row ∈ rows, BoolePolynomial.inRing n row) →
      (∀ basis, st = some basis → ∀ pr ∈ basis, BoolePolynomial.inRing n pr.2) →
      ∀ basis, rows.foldl gaussJordanStep st = some basis →
        ∀ pr ∈ basis, BoolePolynomial.inRing n pr.2 := by
    intro rows
    induction rows with
    | nil => intro st _ hst; exact hst
    | cons row rows ih =>
      intro st hr hst
      rw [List.foldl_cons]
      exact ih _ (fun q hq => hr q (List.mem_cons_of_mem _ hq))
        (gaussJordanStep_inRing n st row (hr row (by simp)) hst)
  exact key rows _ hrows (fun basis hb => by simp at hb; subst hb; simp)

namespace ANF

/-- Insertion keeps the structural invariants, and the pending facts as long as no
inconsistency has been detected. -/
theorem addBoolePolynomial_spec (a : ANF) (poly : BoolePolynomial) (h : Inv a)
    (hp : a.replacer.ok = true → Pending a)
    (hring : BoolePolynomial.inRing a.getNumVars poly) :
    Inv (addBoolePolynomial a poly).1 ∧
    ((addBoolePolynomial a poly).1.replacer.ok = true →
      Pending (addBoolePolynomial a poly).1) := by
  unfold addBoolePolynomial
  by_cases hok : a.replacer.ok = true
  · rw [if_pos hok]
    simp only
    have hring' : BoolePolynomial.inRing a.replacer.status.length poly := by
      rw [← h.occur_length]; exact hring
    have hun := Replacer.update_unset a.replacer h.tracker poly
    have hr := Replacer.update_inRing a.replacer h.tracker poly hring'
    split
    · exact ⟨h, hp⟩
    · split
      · exact ⟨⟨h.occur_length, h.eqs_inRing, h.occur_iff, h.occur_nodup, h.tracker⟩,
          fun hc => by simp [Replacer.setNotOK] at hc⟩
      · split
        · exact ⟨h, hp⟩
        · simp only
          constructor
          · apply learn_inv _ _ (push_inv a _ h (by rw [h.occur_length]; exact hr)) hun hr
          · intro _
            rw [← pendingBut_nil _ 0]
            have hpush := push_pending a (a.replacer.update poly)
              (addPolyToOccur a.occur (a.replacer.update poly) a.eqs.length) 0
              ((pendingBut_nil a 0).2 (hp hok)) hun
            exact learn_pendingBut _ _ _ _ hpush hun hr
  · rw [if_neg hok]
    exact ⟨h, hp⟩

theorem learnRow_spec (st : ANF × Nat) (row : BoolePolynomial) (h : Inv st.1)
    (hp : st.1.replacer.ok = true → Pending st.1)
    (hring : BoolePolynomial.inRing st.1.replacer.status.length row) :
    Inv (learnRow st row).1 ∧
    ((learnRow st row).1.replacer.ok = true → Pending (learnRow st row).1) ∧
    (learnRow st row).1.replacer.status.length = st.1.replacer.status.length ∧
    (learnRow st row).1.eqs = st.1.eqs ∧ (learnRow st row).1.occur = st.1.occur := by
  unfold learnRow
  by_cases hok : st.1.replacer.ok = true
  · rw [if_pos hok]
    have hun := Replacer.update_unset st.1.replacer h.tracker row
    have hr := Replacer.update_inRing st.1.replacer h.tracker row hring
    split
    · exact ⟨⟨h.occur_length, h.eqs_inRing, h.occur_iff, h.occur_nodup, h.tracker⟩,
        fun hc => by simp [Replacer.setNotOK] at hc, rfl, rfl, rfl⟩
    · split
      · exact ⟨h, hp, rfl, rfl, rfl⟩
      · simp only
        refine ⟨learn_inv _ _ h hun hr, fun _ => ?_, learn_status_length _ _ hun hr,
          learn_eqs _ _, learn_occur _ _⟩
        rw [← pendingBut_nil _ 0]
        exact learn_pendingBut _ _ _ _ ((pendingBut_nil _ 0).2 (hp hok)) hun hr
  · rw [if_neg hok]
    exact ⟨h, hp, rfl, rfl, rfl⟩

theorem foldl_learnRow_spec (rows : List BoolePolynomial) :
    ∀ (st : ANF × Nat), Inv st.1 → (st.1.replacer.ok = true → Pending st.1) →
      (∀ row ∈ rows, BoolePolynomial.inRing st.1.replacer.status.length row) →
      Inv (rows.foldl learnRow st).1 ∧
      ((rows.foldl learnRow st).1.replacer.ok = true → Pending (rows.foldl learnRow st).1) ∧
      (rows.foldl learnRow st).1.eqs = st.1.eqs ∧
      (rows.foldl learnRow st).1.occur = st.1.occur := by
  induction rows with
  | nil => intro st h hp _; exact ⟨h, hp, rfl, rfl⟩
  | cons row rows ih =>
    intro st h hp hr
    rw [List.foldl_cons]
    obtain ⟨h1, h2, h3, h4, h5⟩ := learnRow_spec st row h hp (hr row (by simp))
    obtain ⟨g1, g2, g3, g4⟩ := ih (learnRow st row) h1 h2
      (fun q hq => by rw [h3]; exact hr q (List.mem_cons_of_mem _ hq))
    exact ⟨g1, g2, by rw [g3, h4], by rw [g4, h5]⟩

/-- Linear elimination keeps the invariants and touches neither the equations nor the
occurrence index. -/
theorem elimLin_spec (a : ANF) (h : Inv a) (hp : a.replacer.ok = true → Pending a) :
    Inv (elimLin a).1 ∧
    ((elimLin a).1.replacer.ok = true → Pending (elimLin a).1) ∧
    (elimLin a).1.eqs = a.eqs ∧ (elimLin a).1.occur = a.occur := by
  unfold elimLin
  split
  · split
    · exact ⟨⟨h.occur_length, h.eqs_inRing, h.occur_iff, h.occur_nodup, h.tracker⟩,
        fun hc => by simp [Replacer.setNotOK] at hc, rfl, rfl⟩
    · next basis hb =>
      apply foldl_learnRow_spec _ (a, 0) h hp
      intro row hrow
      rw [List.mem_map] at hrow
      obtain ⟨pr, hpr, rfl⟩ := hrow
      refine gaussJordan_inRing _ _ ?_ basis hb pr hpr
      intro q hq
      rw [← h.occur_length]
      exact h.eqs_inRing q (List.mem_of_mem_filter hq)
  · exact ⟨h, hp, rfl, rfl⟩

theorem replaceMonoInSlot_spec (f : BooleMonomial) (t : BoolePolynomial) (st : ANF × Nat)
    (i : Nat) (h : Inv st.1) (hp : st.1.replacer.ok = true → Pending st.1)
    (hi : i < st.1.eqs.length) (ht : BoolePolynomial.inRing st.1.replacer.status.length t) :
    Inv (replaceMonoInSlot f t st i).1 ∧
    ((replaceMonoInSlot f t st i).1.replacer.ok = true →
      Pending (replaceMonoInSlot f t st i).1) ∧
    (replaceMonoInSlot f t st i).1.eqs.length = st.1.eqs.length ∧
    (replaceMonoInSlot f t st i).1.replacer.status.length = st.1.replacer.status.length := by
  unfold replaceMonoInSlot
  split
  · next hc =>
    simp only
    have hsub := BoolePolynomial.inRing_substMono _ f t _ ht (inRing_getD st.1 h i)
    have hun := Replacer.update_unset st.1.replacer h.tracker
      (BoolePolynomial.substMono f t (st.1.eqs.getD i ∅))
    have hr := Replacer.update_inRing st.1.replacer h.tracker _ hsub
    refine ⟨?_, fun _ => ?_, rewriteSlot_eqs_length _ _ _,
      rewriteSlot_status_length _ _ _ hr hun⟩
    · apply rewriteSlot_inv _ i _ h hi _ hun
      rw [h.occur_length]
      exact hr
    · rw [← pendingBut_nil _ 0]
      exact rewriteSlot_pendingBut _ i _ 0 [] (pendingBut_of_pending _ _ _ (hp hc.1)) hi hr hun
  · exact ⟨h, hp, rfl, rfl⟩

theorem foldl_replaceMonoInSlot_spec (f : BooleMonomial) (t : BoolePolynomial)
    (l : List Nat) :
    ∀ (st : ANF × Nat), Inv st.1 → (st.1.replacer.ok = true → Pending st.1) →
      (∀ i ∈ l, i < st.1.eqs.length) →
      BoolePolynomial.inRing st.1.replacer.status.length t →
      Inv (l.foldl (replaceMonoInSlot f t) st).1 ∧
      ((l.foldl (replaceMonoInSlot f t) st).1.replacer.ok = true →
        Pending (l.foldl (replaceMonoInSlot f t) st).1) ∧
      (l.foldl (replaceMonoInSlot f t) st).1.replacer.status.length =
        st.1.replacer.status.length := by
  induction l with
  | nil => intro st h hp _ _; exact ⟨h, hp, rfl⟩
  | cons i l ih =>
    intro st h hp hl ht
    rw [List.foldl_cons]
    obtain ⟨h1, h2, h3, h4⟩ := replaceMonoInSlot_spec f t st i h hp (hl i (by simp)) ht
    obtain ⟨g1, g2, g3⟩ := ih _ h1 h2
      (fun j hj => by rw [h3]; exact hl j (List.mem_cons_of_mem _ hj)) (by rw [h4]; exact ht)
    exact ⟨g1, g2, by rw [g3, h4]⟩

theorem inRing_singleton_add (n : Nat) (f : BooleMonomial) (t : BoolePolynomial)
    (hf : BoolePolynomial.inRing n {f}) (ht : BoolePolynomial.inRing n t) :
    BoolePolynomial.inRing n (BoolePolynomial.add {f} t) :=
  BoolePolynomial.inRing_add n _ _ hf ht

theorem evaluateMonoReplacement_spec (a : ANF) (f : BooleMonomial) (t : BoolePolynomial)
    (incl : Bool) (h : Inv a) (hp : a.replacer.ok = true → Pending a)
    (hf : BoolePolynomial.inRing a.getNumVars {f})
    (ht : BoolePolynomial.inRing a.getNumVars t) :
    Inv (evaluateMonoReplacement a f t incl).1 ∧
    ((evaluateMonoReplacement a f t incl).1.replacer.ok = true →
      Pending (evaluateMonoReplacement a f t incl).1) := by
  unfold evaluateMonoReplacement
  split
  · have ht' : BoolePolynomial.inRing a.replacer.status.length t := by
      rw [← h.occur_length]; exact ht
    obtain ⟨g1, g2, g3⟩ := foldl_replaceMonoInSlot_spec f t (List.range a.eqs.length) (a, 0)
      h hp (fun i hi => List.mem_range.1 hi) ht'
    simp only
    split
    · simp only
      unfold addLearntBoolePolynomial
      apply addBoolePolynomial_spec _ _ g1 g2
      unfold getNumVars at hf ht ⊢
      rw [g1.occur_length, g3, ← h.occur_length]
      exact inRing_singleton_add _ f t hf ht
    · exact ⟨g1, g2⟩
  · exact ⟨h, hp⟩

/-- Every reachable state satisfies the invariants of the container, and as long as no
inconsistency has been detected every fixed or replaced variable that still occurs in an
equation is pending in the change set. -/
theorem reachable_inv (a : ANF) (h : Reachable a) :
    Inv a ∧ (a.replacer.ok = true → Pending a) := by
  induction h with
  | init n => exact ⟨init_inv n, fun _ => init_pending n⟩
  | addBoolePolynomial a poly _ hring ih => exact addBoolePolynomial_spec a poly ih.1 ih.2 hring
  | addLearntBoolePolynomial a poly _ hring ih =>
    exact addBoolePolynomial_spec a poly ih.1 ih.2 hring
  | propagate a _ ih =>
    by_cases hok : a.replacer.ok = true
    · obtain ⟨h1, h2⟩ := propagate_spec a ih.1 (ih.2 hok)
      exact ⟨h1, fun hc => (h2 hc).1⟩
    · have hsame : propagate a = a := by
        unfold propagate
        simp only
        rw [propagateLoop_of_not_ok _ _ (by simpa using hok), if_neg hok]
      rw [hsame]
      exact ih
  | elimLin a _ ih =>
    obtain ⟨h1, h2, _, _⟩ := elimLin_spec a ih.1 ih.2
    exact ⟨h1, h2⟩
  | evaluateMonoReplacement a f t incl _ hf ht ih =>
    exact evaluateMonoReplacement_spec a f t incl ih.1 ih.2 hf ht
  | removeEmptyEquations a _ ih =>
    exact ⟨removeEmptyEquations_inv a ih.1, fun hc => removeEmptyEquations_pending a (ih.2 hc)⟩
  | addComment a c _ ih =>
    exact ⟨⟨ih.1.occur_length, ih.1.eqs_inRing, ih.1.occur_iff, ih.1.occur_nodup,
      ih.1.tracker⟩, ih.2⟩

end ANF

/-! ## Theorems: Invariant I1 and the fixpoint of `propagate` -/

namespace ANF

theorem mem_eqs_getD (a : ANF) (p : BoolePolynomial) (h : p ∈ a.eqs) :
    ∃ i, i < a.eqs.length ∧ a.eqs.getD i ∅ = p := by
  obtain ⟨i, hi, rfl⟩ := List.mem_iff_getElem.1 h
  refine ⟨i, hi, ?_⟩
  rw [List.getD_eq_getElem?_getD, List.getElem?_eq_getElem hi]
  rfl

/-- C8: Invariant I1. In every state reachable through the operations of the container,
for every slot `i` of the store, live or emptied, and every variable `v`, `v` is in the
support of `eqs[i]` exactly when `i` is in `occur[v]`. No occurrence list holds a slot
twice; adding a polynomial of the ring at the next free slot keeps it so, and
`removePolyFromOccur` with the same polynomial and slot undoes that `addPolyToOccur`. -/
theorem reachable_occur_iff_support (a : ANF) (h : Reachable a) :
    (∀ i v, v ∈ BoolePolynomial.support (a.eqs.getD i ∅) ↔ i ∈ (getOccur a).getD v []) ∧
    (∀ v, ((getOccur a).getD v []).Nodup) ∧
    (∀ poly, BoolePolynomial.inRing a.getNumVars poly →
      (∀ v, ((addPolyToOccur a.occur poly a.eqs.length).getD v []).Nodup) ∧
      removePolyFromOccur (addPolyToOccur a.occur poly a.eqs.length) poly a.eqs.length =
        a.occur) := by
  obtain ⟨hinv, _⟩ := reachable_inv a h
  refine ⟨fun i v => (hinv.occur_iff i v).symm, hinv.occur_nodup, ?_⟩
  intro poly hring
  constructor
  · exact (push_inv a poly hinv hring).occur_nodup
  · apply removePolyFromOccur_addPolyToOccur
    intro v _ hin
    have := (hinv.occur_iff _ v).1 hin
    exact absurd (lt_of_mem_support a _ v this) (by omega)

theorem exampleOneEquation_reachable : Reachable exampleOneEquation :=
  Reachable.addBoolePolynomial _ _ (Reachable.init 3) (by decide)

/-- C8 (witness): the state after the insertion of `x0*x1 + x2` is reachable, and Invariant
I1 holds in it. -/
theorem reachable_occur_iff_support_witness :
    Reachable exampleOneEquation ∧
    ((∀ i v, v ∈ BoolePolynomial.support (exampleOneEquation.eqs.getD i ∅) ↔
        i ∈ (getOccur exampleOneEquation).getD v []) ∧
      (∀ v, ((getOccur exampleOneEquation).getD v []).Nodup) ∧
      (∀ poly, BoolePolynomial.inRing exampleOneEquation.getNumVars poly →
        (∀ v, ((addPolyToOccur exampleOneEquation.occur poly
            exampleOneEquation.eqs.length).getD v []).Nodup) ∧
        removePolyFromOccur
          (addPolyToOccur exampleOneEquation.occur poly exampleOneEquation.eqs.length)
          poly exampleOneEquation.eqs.length = exampleOneEquation.occur)) :=
  ⟨exampleOneEquation_reachable,
    reachable_occur_iff_support exampleOneEquation exampleOneEquation_reachable⟩

theorem propagate_ok (a : ANF) (h : (propagate a).replacer.ok = true) :
    a.replacer.ok = true := by
  by_contra hok
  have hsame : propagate a = a := by
    unfold propagate
    simp only
    rw [propagateLoop_of_not_ok _ _ (by simpa using hok), if_neg hok]
  rw [hsame] at h
  exact hok h

/-- C9: fixpoint closure. From every reachable state of the container, when `propagate()`
returns with `getOK() == true` the change set has been drained and no equation of the
store contains a variable that the tracker holds as fixed or replaced:
`checkSimplifiedPolysContainNoSetVars` holds. -/
theorem propagate_fixpoint_closure (a : ANF) (h : Reachable a)
    (hok : getOK (propagate a) = true) :
    checkSimplifiedPolysContainNoSetVars (propagate a) = true ∧
    (∀ p ∈ liveEqs (propagate a), ∀ v ∈ BoolePolynomial.support p,
      (propagate a).replacer.lookup v = VarStatus.unset) ∧
    (propagate a).updatedVars = ∅ := by
  obtain ⟨hinv, hpend⟩ := reachable_inv a h
  obtain ⟨_, h2⟩ := propagate_spec a hinv (hpend (propagate_ok a hok))
  obtain ⟨hp, hempty⟩ := h2 hok
  have hall : ∀ p ∈ (propagate a).eqs, ∀ v ∈ BoolePolynomial.support p,
      (propagate a).replacer.lookup v = VarStatus.unset := by
    intro p hmem v hv
    obtain ⟨i, _, rfl⟩ := mem_eqs_getD _ p hmem
    by_contra hset
    have := hp i v hv hset
    rw [hempty] at this
    simp at this
  refine ⟨?_, ?_, hempty⟩
  · unfold checkSimplifiedPolysContainNoSetVars
    exact decide_eq_true hall
  · intro p hmem
    exact hall p (List.mem_of_mem_filter hmem)

theorem examplePendingFact_reachable : Reachable examplePendingFact :=
  Reachable.addBoolePolynomial _ _
    (Reachable.addBoolePolynomial _ _ (Reachable.init 4) (by decide)) (by decide)

/-- C9 (witness): from the state after the insertion of `x0*x1 + x2*x3` and `x0`, which is
reachable, `propagate()` returns with `getOK() == true` and leaves the live equation
`x2*x3`; the closure holds. -/
theorem propagate_fixpoint_closure_witness :
    Reachable examplePendingFact ∧ getOK (propagate examplePendingFact) = true ∧
    liveEqs (propagate examplePendingFact) = [{{2, 3}}] ∧
    (checkSimplifiedPolysContainNoSetVars (propagate examplePendingFact) = true ∧
      (∀ p ∈ liveEqs (propagate examplePendingFact), ∀ v ∈ BoolePolynomial.support p,
        (propagate examplePendingFact).replacer.lookup v = VarStatus.unset) ∧
      (propagate examplePendingFact).updatedVars = ∅) :=
  ⟨examplePendingFact_reachable, by decide, by decide,
    propagate_fixpoint_closure examplePendingFact examplePendingFact_reachable (by decide)⟩

end ANF

/-! ## Theorems: the scenario of two unit equations -/

theorem support_var (v : Nat) : BoolePolynomial.support {{v}} = {v} := by
  ext u
  rw [BoolePolynomial.mem_support]
  simp

theorem deg_var (v : Nat) : BoolePolynomial.deg {{v}} = 1 := by
  unfold BoolePolynomial.deg
  rw [if_neg (by simp)]
  simp

theorem classify_var (v : Nat) : classify {{v}} = some (LinearFact.fixed v false) := by
  unfold classify
  rw [if_pos (deg_var v)]
  simp only [support_var]
  rw [dif_pos (Finset.singleton_nonempty v)]
  simp
  exact (Finset.singleton_ne_empty v).symm

theorem classify_empty : classify ∅ = none := by
  unfold classify
  rw [if_neg (by decide)]

namespace Replacer

theorem resolve_fixed (r : Replacer) (v : Nat) (b : Bool)
    (h : r.lookup v = VarStatus.fixed b) : r.resolve v = Resolved.const b := by
  have hlt : v < r.status.length := lookup_lt_of_ne_unset r v (by rw [h]; simp)
  unfold resolve
  obtain ⟨n, hn⟩ : ∃ n, r.status.length = n + 1 := ⟨r.status.length - 1, by omega⟩
  rw [hn]
  simp [resolveAux, h]

/-- When `x` is the only fixed or replaced variable of a polynomial, and its value brings in
no other one, simplification substitutes `x` and nothing else. -/
theorem update_single (r : Replacer) (p : BoolePolynomial) (x : Nat)
    (hset : r.lookup x ≠ VarStatus.unset)
    (hothers : ∀ v ∈ BoolePolynomial.support p, v ≠ x → r.lookup v = VarStatus.unset)
    (hres : ∀ v ∈ BoolePolynomial.support
      (BoolePolynomial.substVar x (valuePoly (r.resolve x)) p), r.lookup v = VarStatus.unset) :
    r.update p = BoolePolynomial.substVar x (valuePoly (r.resolve x)) p := by
  have hlt : x < r.status.length := lookup_lt_of_ne_unset r x hset
  obtain ⟨l1, l2, hsplit⟩ := List.append_of_mem (List.mem_range.2 hlt)
  have hnd : (l1 ++ x :: l2).Nodup := hsplit ▸ List.nodup_range _
  have hx1 : x ∉ l1 := fun hin =>
    (List.nodup_append.1 hnd).2.2 hin (by simp)
  unfold update
  rw [hsplit, List.foldl_append, List.foldl_cons]
  have h1 : l1.foldl (updateVar r) p = p := by
    apply foldl_updateVar_eq
    intro v hv
    by_cases hvs : v ∈ BoolePolynomial.support p
    · left
      apply hothers v hvs
      rintro rfl
      exact hx1 hv
    · exact Or.inr hvs
  have h2 : updateVar r p x = BoolePolynomial.substVar x (valuePoly (r.resolve x)) p := by
    unfold updateVar
    rw [if_neg hset]
  rw [h1, h2]
  apply foldl_updateVar_eq
  intro v _
  by_cases hvs : v ∈ BoolePolynomial.support
      (BoolePolynomial.substVar x (valuePoly (r.resolve x)) p)
  · exact Or.inl (hres v hvs)
  · exact Or.inr hvs

theorem substVar_zero (x : Nat) (p : BoolePolynomial) :
    BoolePolynomial.substVar x ∅ p = p.filter (fun m => x ∉ m) := by
  unfold BoolePolynomial.substVar
  rw [BoolePolynomial.empty_mul, BoolePolynomial.add_empty]

/-- Simplification when the only fixed or replaced variable of the polynomial is fixed
to 0: the monomials that contain it vanish. -/
theorem update_fixed_false (r : Replacer) (p : BoolePolynomial) (x : Nat)
    (hx : r.lookup x = VarStatus.fixed false)
    (hothers : ∀ v ∈ BoolePolynomial.support p, v ≠ x → r.lookup v = VarStatus.unset) :
    r.update p = p.filter (fun m => x ∉ m) := by
  have hval : valuePoly (r.resolve x) = ∅ := by
    rw [resolve_fixed r x false hx]
    rfl
  have hsub : BoolePolynomial.substVar x (valuePoly (r.resolve x)) p =
      p.filter (fun m => x ∉ m) := by
    rw [hval, substVar_zero]
  rw [update_single r p x (by rw [hx]; simp) hothers, hsub]
  rw [hsub]
  intro v hv
  rw [BoolePolynomial.mem_support] at hv
  obtain ⟨m, hm, hvm⟩ := hv
  rw [Finset.mem_filter] at hm
  apply hothers v ((BoolePolynomial.mem_support _ _).2 ⟨m, hm.1, hvm⟩)
  rintro rfl
  exact hm.2 hvm

end Replacer

namespace ANF

/-- Insertion of a polynomial that simplifies to a single variable `v` not yet in the
store: the equation `v` gets a new slot and `v` is fixed to 0 at once. -/
theorem addBoolePolynomial_unit (a : ANF) (poly : BoolePolynomial) (v : Nat)
    (hok : a.replacer.ok = true) (hupd : a.replacer.update poly = {{v}})
    (hnew : ({{v}} : BoolePolynomial) ∉ a.eqs) (hv : a.replacer.lookup v = VarStatus.unset) :
    (addBoolePolynomial a poly).1 =
      { a with
        eqs := a.eqs ++ [{{v}}]
        occur := addPolyToOccur a.occur {{v}} a.eqs.length
        replacer := { a.replacer with status := a.replacer.status.set v (VarStatus.fixed false) }
        updatedVars := insert v a.updatedVars } := by
  have h0 : ¬ (({{v}} : BoolePolynomial) = BoolePolynomial.zero) := by
    simp [BoolePolynomial.zero]
  have h1 : ¬ (({{v}} : BoolePolynomial) = BoolePolynomial.one) := by
    simp [BoolePolynomial.one]
  unfold addBoolePolynomial
  rw [if_pos hok]
  simp only [hupd]
  rw [if_neg h0, if_neg h1, if_neg hnew]
  simp only [learn, classify_var]
  rw [Replacer.setFixed_of_unset _ _ _ hv]

theorem twoUnits_first (n x : Nat) :
    (addBoolePolynomial (init n) {{x}}).1 =
      { init n with
        eqs := [{{x}}]
        occur := addPolyToOccur (init n).occur {{x}} 0
        replacer := { (init n).replacer with
          status := (List.replicate n VarStatus.unset).set x (VarStatus.fixed false) }
        updatedVars := {x} } := by
  have hupd : (init n).replacer.update ({{x}} : BoolePolynomial) = {{x}} := by
    apply Replacer.update_eq_self
    intro v _
    exact Replacer.init_lookup n v
  have hnew : ({{x}} : BoolePolynomial) ∉ (init n).eqs := by simp [init]
  rw [addBoolePolynomial_unit (init n) {{x}} x rfl hupd hnew (Replacer.init_lookup n x)]
  rfl

theorem twoUnits_first_lookup (n x : Nat) (hx : x < n) (u : Nat) :
    (addBoolePolynomial (init n) {{x}}).1.replacer.lookup u =
      if u = x then VarStatus.fixed false else VarStatus.unset := by
  rw [twoUnits_first]
  have h := Replacer.lookup_set (Replacer.init n) x (VarStatus.fixed false) u
  rw [Replacer.init_lookup] at h
  have hlen : (Replacer.init n).status.length = n := by simp [Replacer.init]
  rw [hlen] at h
  refine Eq.trans h ?_
  by_cases hux : u = x
  · rw [if_pos ⟨hux, hx⟩, if_pos hux]
  · rw [if_neg (fun hc => hux hc.1), if_neg hux]

/-- The state after the two insertions: the second equation has been rewritten to `y`, and
both variables are fixed to 0. -/
theorem twoUnits_state (n x y : Nat) (hx : x < n) (hxy : x ≠ y) :
    (twoUnits n x y).eqs = [{{x}}, {{y}}] ∧
    (twoUnits n x y).replacer =
      ⟨((List.replicate n VarStatus.unset).set x (VarStatus.fixed false)).set y
        (VarStatus.fixed false), true⟩ := by
  have hfilter : ({{x, y}, {y}} : BoolePolynomial).filter (fun m => x ∉ m) = {{y}} := by
    ext m
    simp only [Finset.mem_filter, Finset.mem_insert, Finset.mem_singleton]
    constructor
    · rintro ⟨rfl | rfl, h2⟩
      · simp at h2
      · rfl
    · rintro rfl
      exact ⟨Or.inr rfl, by simpa using hxy⟩
  have hupd : (addBoolePolynomial (init n) {{x}}).1.replacer.update {{x, y}, {y}} = {{y}} := by
    rw [Replacer.update_fixed_false _ _ x (by rw [twoUnits_first_lookup n x hx]; simp), hfilter]
    intro v _ hvx
    rw [twoUnits_first_lookup n x hx, if_neg hvx]
  have hne : ({y} : Finset Nat) ≠ {x} := by
    intro h
    exact hxy (Finset.singleton_injective h).symm
  unfold twoUnits
  rw [addBoolePolynomial_unit _ _ y (by rw [twoUnits_first]; rfl) hupd
    (by rw [twoUnits_first]; simpa using hne)
    (by rw [twoUnits_first_lookup n x hx, if_neg (Ne.symm hxy)])]
  rw [twoUnits_first]
  exact ⟨rfl, rfl⟩

theorem twoUnits_reachable (n x y : Nat) (hx : x < n) (hy : y < n) :
    Reachable (twoUnits n x y) := by
  have hlen : (addBoolePolynomial (init n) {{x}}).1.getNumVars = n := by
    rw [twoUnits_first]
    simp [getNumVars, addPolyToOccur_length, init]
  apply Reachable.addBoolePolynomial _ _ (Reachable.addBoolePolynomial _ _ (Reachable.init n) _)
  · rw [hlen]
    intro v hv
    rw [BoolePolynomial.mem_support] at hv
    obtain ⟨m, hm, hvm⟩ := hv
    simp only [Finset.mem_insert, Finset.mem_singleton] at hm
    rcases hm with rfl | rfl
    · simp only [Finset.mem_insert, Finset.mem_singleton] at hvm
      rcases hvm with rfl | rfl
      · exact hx
      · exact hy
    · simp only [Finset.mem_singleton] at hvm
      rw [hvm]
      exact hy
  · intro v hv
    rw [support_var, Finset.mem_singleton] at hv
    simp only [getNumVars, init, List.length_replicate]
    rw [hv]
    exact hx

end ANF

namespace ANF

theorem update_unit_or_empty (r : Replacer) (x y : Nat) (p : BoolePolynomial)
    (hx : r.lookup x = VarStatus.fixed false) (hy : r.lookup y = VarStatus.fixed false)
    (hp : p = {{x}} ∨ p = {{y}} ∨ p = ∅) : r.update p = ∅ := by
  have hunit : ∀ v, r.lookup v = VarStatus.fixed false →
      r.update ({{v}} : BoolePolynomial) = ∅ := by
    intro v hv
    have hoth : ∀ u ∈ BoolePolynomial.support ({{v}} : BoolePolynomial), u ≠ v →
        r.lookup u = VarStatus.unset := by
      intro u hu hne
      rw [support_var, Finset.mem_singleton] at hu
      exact absurd hu hne
    rw [Replacer.update_fixed_false r _ v hv hoth]
    ext m
    simp only [Finset.mem_filter, Finset.mem_singleton, Finset.not_mem_empty, iff_false,
      not_and, not_not]
    rintro rfl
    exact Finset.mem_singleton_self v
  rcases hp with rfl | rfl | rfl
  · exact hunit x hx
  · exact hunit y hy
  · apply Replacer.update_eq_self
    intro v hv
    simp [BoolePolynomial.support_empty] at hv

theorem rewriteSlot_empty (a : ANF) (i : Nat) :
    rewriteSlot a i ∅ =
      { a with
        eqs := a.eqs.set i ∅
        occur := addPolyToOccur (removePolyFromOccur a.occur (a.eqs.getD i ∅) i) ∅ i } := by
  unfold rewriteSlot
  simp only
  rw [if_neg (by decide)]
  simp only [learn, classify_empty]

theorem getD_cases (l : List BoolePolynomial) (i : Nat) : l.getD i ∅ ∈ l ∨ l.getD i ∅ = ∅ := by
  by_cases hi : i < l.length
  · exact Or.inl (getD_poly_mem l i hi)
  · exact Or.inr (getD_poly_of_le l i (by omega))

/-- In the scenario, a step of a pass of `propagate` empties a slot and leaves the tracker
as it is. -/
theorem scenario_simplifySlot (a : ANF) (i x y : Nat)
    (hx : a.replacer.lookup x = VarStatus.fixed false)
    (hy : a.replacer.lookup y = VarStatus.fixed false)
    (hs : ∀ p ∈ a.eqs, p = {{x}} ∨ p = {{y}} ∨ p = ∅) :
    (simplifySlot a i).replacer = a.replacer ∧
    (∀ p ∈ (simplifySlot a i).eqs, p = {{x}} ∨ p = {{y}} ∨ p = ∅) := by
  unfold simplifySlot
  split
  · have hp : a.eqs.getD i ∅ = {{x}} ∨ a.eqs.getD i ∅ = {{y}} ∨ a.eqs.getD i ∅ = ∅ := by
      rcases getD_cases a.eqs i with h | h
      · exact hs _ h
      · exact Or.inr (Or.inr h)
    rw [update_unit_or_empty a.replacer x y _ hx hy hp, rewriteSlot_empty]
    refine ⟨rfl, ?_⟩
    intro p hmem
    rcases List.mem_or_eq_of_mem_set hmem with h | h
    · exact hs p h
    · exact Or.inr (Or.inr h)
  · exact ⟨rfl, hs⟩

theorem scenario_foldl (l : List Nat) (x y : Nat) :
    ∀ (a : ANF), a.replacer.lookup x = VarStatus.fixed false →
      a.replacer.lookup y = VarStatus.fixed false →
      (∀ p ∈ a.eqs, p = {{x}} ∨ p = {{y}} ∨ p = ∅) →
      (l.foldl simplifySlot a).replacer = a.replacer ∧
      (∀ p ∈ (l.foldl simplifySlot a).eqs, p = {{x}} ∨ p = {{y}} ∨ p = ∅) := by
  induction l with
  | nil => intro a _ _ hs; exact ⟨rfl, hs⟩
  | cons i l ih =>
    intro a hx hy hs
    rw [List.foldl_cons]
    obtain ⟨h1, h2⟩ := scenario_simplifySlot a i x y hx hy hs
    obtain ⟨g1, g2⟩ := ih (simplifySlot a i) (by rw [h1]; exact hx) (by rw [h1]; exact hy) h2
    exact ⟨by rw [g1, h1], g2⟩

theorem scenario_loop (fuel : Nat) (x y : Nat) :
    ∀ (a : ANF), a.replacer.lookup x = VarStatus.fixed false →
      a.replacer.lookup y = VarStatus.fixed false →
      (∀ p ∈ a.eqs, p = {{x}} ∨ p = {{y}} ∨ p = ∅) →
      (propagateLoop fuel a).replacer = a.replacer ∧
      (∀ p ∈ (propagateLoop fuel a).eqs, p = {{x}} ∨ p = {{y}} ∨ p = ∅) := by
  induction fuel with
  | zero => intro a _ _ hs; exact ⟨rfl, hs⟩
  | succ fuel ih =>
    intro a hx hy hs
    unfold propagateLoop
    split
    · split
      · next hne =>
        simp only
        obtain ⟨h1, h2⟩ := scenario_foldl (a.occur.getD (a.updatedVars.min' hne) []) x y
          { a with updatedVars := a.updatedVars.erase (a.updatedVars.min' hne) } hx hy hs
        obtain ⟨g1, g2⟩ := ih _ (by rw [h1]; exact hx) (by rw [h1]; exact hy) h2
        exact ⟨by rw [g1, h1], g2⟩
      · exact ⟨rfl, hs⟩
    · exact ⟨rfl, hs⟩

theorem twoUnits_lookup (n x y : Nat) (hx : x < n) (hy : y < n) (hxy : x ≠ y) :
    (twoUnits n x y).replacer.lookup x = VarStatus.fixed false ∧
    (twoUnits n x y).replacer.lookup y = VarStatus.fixed false := by
  rw [(twoUnits_state n x y hx hxy).2]
  unfold Replacer.lookup
  simp only
  rw [List.getD_eq_getElem?_getD, List.getD_eq_getElem?_getD]
  constructor
  · rw [List.getElem?_set_ne (Ne.symm hxy), List.getElem?_set_self (by simpa using hx)]
    rfl
  · rw [List.getElem?_set_self (by simpa using hy)]
    rfl

theorem twoUnits_numSetVars (n x y : Nat) (hx : x < n) (hy : y < n) (hxy : x ≠ y) :
    Replacer.getNumSetVars
      ⟨((List.replicate n VarStatus.unset).set x (VarStatus.fixed false)).set y
        (VarStatus.fixed false), true⟩ = 2 := by
  unfold Replacer.getNumSetVars
  simp only
  rw [List.countP_set _ _ _ _ (by simpa using hy), List.countP_set _ _ _ _ (by simpa using hx)]
  rw [List.getElem_set_ne hxy]
  simp [List.countP_replicate]

end ANF

namespace ANF

/-- The state in which `propagate` leaves the scenario: the tracker is as the insertions
left it and the store is empty. -/
theorem twoUnits_propagate (n x y : Nat) (hx : x < n) (hy : y < n) (hxy : x ≠ y) :
    (propagate (twoUnits n x y)).replacer = (twoUnits n x y).replacer ∧
    (propagate (twoUnits n x y)).eqs = [] := by
  obtain ⟨hlx, hly⟩ := twoUnits_lookup n x y hx hy hxy
  obtain ⟨heqs, hrep⟩ := twoUnits_state n x y hx hxy
  have hs : ∀ p ∈ (twoUnits n x y).eqs, p = {{x}} ∨ p = {{y}} ∨ p = ∅ := by
    intro p hp
    rw [heqs] at hp
    simp only [List.mem_cons, List.mem_singleton, List.not_mem_nil, or_false] at hp
    rcases hp with h | h
    · exact Or.inl h
    · exact Or.inr (Or.inl h)
  have hok : (twoUnits n x y).replacer.ok = true := by rw [hrep]
  obtain ⟨hinv, hpend⟩ := reachable_inv _ (twoUnits_reachable n x y hx hy)
  obtain ⟨_, hfix⟩ := propagateLoop_spec _ (twoUnits n x y) hinv (hpend hok) (le_refl _)
  obtain ⟨hr, hslots⟩ := scenario_loop
    ((twoUnits n x y).updatedVars.card + (unsetVars (twoUnits n x y)).card) x y
    (twoUnits n x y) hlx hly hs
  generalize hloop : propagateLoop
    ((twoUnits n x y).updatedVars.card + (unsetVars (twoUnits n x y)).card)
    (twoUnits n x y) = a3 at hfix hr hslots
  have hok3 : a3.replacer.ok = true := by rw [hr]; exact hok
  obtain ⟨hp3, hempty⟩ := hfix hok3
  have hall : ∀ p ∈ a3.eqs, p = ∅ := by
    intro p hp
    obtain ⟨i, _, hi⟩ := mem_eqs_getD a3 p hp
    have hno : ∀ v, a3.replacer.lookup v = VarStatus.fixed false → p ≠ {{v}} := by
      intro v hv hpv
      have hmem : v ∈ BoolePolynomial.support (a3.eqs.getD i ∅) := by
        rw [hi, hpv, support_var]
        exact Finset.mem_singleton_self v
      have := hp3 i v hmem (by rw [hv]; simp)
      rw [hempty] at this
      simp at this
    rcases hslots p hp with h | h | h
    · exact absurd h (hno x (by rw [hr]; exact hlx))
    · exact absurd h (hno y (by rw [hr]; exact hly))
    · exact h
  have hprop : propagate (twoUnits n x y) = removeEmptyEquations a3 := by
    unfold propagate
    simp only
    rw [hloop, if_pos hok3]
  rw [hprop]
  refine ⟨hr, ?_⟩
  unfold removeEmptyEquations
  simp only
  rw [List.filter_eq_nil_iff]
  intro p hp
  rw [hall p hp]
  decide

/-- C10: for all distinct variables `x` and `y` of a ring of `n` variables, inserting the
equations `x` and `x*y + y` into an empty container fixes `x = 0` and rewrites the second
equation to `y`, which fixes `y = 0`; after `propagate()` both variables are fixed to 0,
`getNumSetVars() == 2`, the store has no equation left (`size() == 0`, no live slot) and
`getOK() == true`. -/
theorem propagate_twoUnits (n x y : Nat) (hx : x < n) (hy : y < n) (hxy : x ≠ y) :
    (addBoolePolynomial (init n) {{x}}).1.replacer.lookup x = VarStatus.fixed false ∧
    (twoUnits n x y).eqs = [{{x}}, {{y}}] ∧
    (propagate (twoUnits n x y)).replacer.lookup x = VarStatus.fixed false ∧
    (propagate (twoUnits n x y)).replacer.lookup y = VarStatus.fixed false ∧
    getNumSetVars (propagate (twoUnits n x y)) = 2 ∧
    size (propagate (twoUnits n x y)) = 0 ∧
    numNonEmptySlots (propagate (twoUnits n x y)) = 0 ∧
    getOK (propagate (twoUnits n x y)) = true := by
  obtain ⟨hlx, hly⟩ := twoUnits_lookup n x y hx hy hxy
  obtain ⟨heqs, hrep⟩ := twoUnits_state n x y hx hxy
  obtain ⟨hr, he⟩ := twoUnits_propagate n x y hx hy hxy
  refine ⟨?_, heqs, by rw [hr]; exact hlx, by rw [hr]; exact hly, ?_, ?_, ?_, ?_⟩
  · rw [twoUnits_first_lookup n x hx, if_pos rfl]
  · unfold getNumSetVars
    rw [hr, hrep]
    exact twoUnits_numSetVars n x y hx hy hxy
  · unfold size
    rw [he]
    rfl
  · unfold numNonEmptySlots
    rw [he]
    rfl
  · unfold getOK
    rw [hr, hrep]

/-- C10 (witness): the scenario in the ring of two variables, with `x = x0` and
`y = x1`. -/
theorem propagate_twoUnits_witness :
    (0 < 2 ∧ 1 < 2 ∧ 0 ≠ 1) ∧
    ((addBoolePolynomial (init 2) {{0}}).1.replacer.lookup 0 = VarStatus.fixed false ∧
    (twoUnits 2 0 1).eqs = [{{0}}, {{1}}] ∧
    (propagate (twoUnits 2 0 1)).replacer.lookup 0 = VarStatus.fixed false ∧
    (propagate (twoUnits 2 0 1)).replacer.lookup 1 = VarStatus.fixed false ∧
    getNumSetVars (propagate (twoUnits 2 0 1)) = 2 ∧
    size (propagate (twoUnits 2 0 1)) = 0 ∧
    numNonEmptySlots (propagate (twoUnits 2 0 1)) = 0 ∧
    getOK (propagate (twoUnits 2 0 1)) = true) :=
  ⟨by decide, propagate_twoUnits 2 0 1 (by decide) (by decide) (by decide)⟩

end ANF

namespace ANF

theorem eq_of_fields (a b : ANF) (h1 : a.comments = b.comments) (h2 : a.eqs = b.eqs)
    (h3 : a.replacer = b.replacer) (h4 : a.occur = b.occur)
    (h5 : a.updatedVars = b.updatedVars) : a = b := by
  cases a
  cases b
  simp only at h1 h2 h3 h4 h5
  subst h1 h2 h3 h4 h5
  rfl

/-- The state with an emptied slot is reachable: it is the state of the container of a ring
of three variables after a comment line, the insertion of `x0*x1 + x2` and of
`x1*x2 + x0`, and the replacement of the monomial `x0*x1` by `x2`, which rewrites the first
equation to `x2 + x2 = 0`. -/
theorem exampleEmptiedSlot_reachable : Reachable exampleEmptiedSlot := by
  have h : Reachable (evaluateMonoReplacement
      (addBoolePolynomial
        (addBoolePolynomial { init 3 with comments := (init 3).comments ++ ["c example"] }
          {{0, 1}, {2}}).1 {{1, 2}, {0}}).1 {0, 1} {{2}} false).1 :=
    Reachable.evaluateMonoReplacement _ _ _ _
      (Reachable.addBoolePolynomial _ _
        (Reachable.addBoolePolynomial _ _
          (Reachable.addComment _ _ (Reachable.init 3)) (by decide)) (by decide))
      (by decide) (by decide)
  have e : exampleEmptiedSlot = (evaluateMonoReplacement
      (addBoolePolynomial
        (addBoolePolynomial { init 3 with comments := (init 3).comments ++ ["c example"] }
          {{0, 1}, {2}}).1 {{1, 2}, {0}}).1 {0, 1} {{2}} false).1 :=
    eq_of_fields _ _ (by decide) (by decide) (by decide) (by decide) (by decide)
  rw [e]
  exact h

end ANF

/-! ## Theorems: `containsMono` -/

namespace ANF

theorem fold_or_eq_true_iff (mono1 : BooleMonomial) (v2 : Nat) :
    Finset.fold (fun x y => x || y) false (fun v1 => decide (v1 = v2)) mono1 = true ↔
      v2 ∈ mono1 := by
  induction mono1 using Finset.induction_on with
  | empty => simp
  | insert hnot ih =>
    rw [Finset.fold_insert hnot, Bool.or_eq_true, ih, Finset.mem_insert, decide_eq_true_eq]
    constructor
    · rintro (h | h)
      · exact Or.inl h.symm
      · exact Or.inr h
    · rintro (h | h)
      · exact Or.inl h.symm
      · exact Or.inr h

theorem containsMono_iff_subset (mono1 mono2 : BooleMonomial) :
    containsMono mono1 mono2 = true ↔ mono2 ⊆ mono1 := by
  unfold containsMono
  induction mono2 using Finset.induction_on with
  | empty => simp
  | insert hnot ih =>
    rw [Finset.fold_insert hnot, Bool.and_eq_true, ih, fold_or_eq_true_iff,
      Finset.insert_subset_iff]

theorem containsMono_eq_false_iff (mono1 mono2 : BooleMonomial) :
    containsMono mono1 mono2 = false ↔ ¬ mono2 ⊆ mono1 := by
  rw [← containsMono_iff_subset]
  cases containsMono mono1 mono2 <;> simp

theorem hasVarLoop_iff (vars1 : List Nat) (v2 : Nat) :
    hasVarLoop vars1 v2 = true ↔ v2 ∈ vars1 := by
  induction vars1 with
  | nil => simp [hasVarLoop]
  | cons v1 rest ih =>
    unfold hasVarLoop
    by_cases h : v1 = v2
    · simp [h]
    · rw [if_neg h, ih, List.mem_cons]
      constructor
      · exact Or.inr
      · rintro (h2 | h2)
        · exact absurd h2.symm h
        · exact h2

theorem containsMonoLoop_iff (vars1 vars2 : List Nat) :
    containsMonoLoop vars1 vars2 = true ↔ ∀ v ∈ vars2, v ∈ vars1 := by
  induction vars2 with
  | nil => simp [containsMonoLoop]
  | cons v2 rest ih =>
    unfold containsMonoLoop
    by_cases h : hasVarLoop vars1 v2 = true
    · rw [if_pos h, ih]
      rw [hasVarLoop_iff] at h
      simp [h]
    · rw [if_neg h]
      rw [hasVarLoop_iff] at h
      simp [h]

/-- C12: `containsMono(mono1, mono2)` is true exactly when every variable of `mono2` is a
variable of `mono1`, that is, when the variable set of `mono2` is a subset of that of
`mono1`. The order of the arguments matters: `x*y*z` contains `x*y`, and `x*y` does not
contain `x*y*z` when `z` is a third variable. The loops of the function, run on any
sequences in which the iterators yield the variables, give the same answer. -/
theorem containsMono_iff_sub_monomial (mono1 mono2 : BooleMonomial) :
    (containsMono mono1 mono2 = true ↔ mono2 ⊆ mono1) ∧
    (containsMono mono1 mono2 = true ↔ ∀ v, v ∈ mono2 → v ∈ mono1) ∧
    (∀ x y z : Nat, containsMono {x, y, z} {x, y} = true ∧
      (z ≠ x → z ≠ y → containsMono {x, y} {x, y, z} = false)) ∧
    (∀ vars1 vars2 : List Nat, vars1.toFinset = mono1 → vars2.toFinset = mono2 →
      containsMonoLoop vars1 vars2 = containsMono mono1 mono2) := by
  refine ⟨containsMono_iff_subset mono1 mono2, ?_, ?_, ?_⟩
  · rw [containsMono_iff_subset]
    exact Finset.subset_iff
  · intro x y z
    constructor
    · rw [containsMono_iff_subset]
      intro v hv
      simp only [Finset.mem_insert, Finset.mem_singleton] at hv ⊢
      tauto
    · intro hzx hzy
      rw [containsMono_eq_false_iff]
      intro hsub
      have hz : z ∈ ({x, y} : Finset Nat) := hsub (by simp)
      simp only [Finset.mem_insert, Finset.mem_singleton] at hz
      tauto
  · intro vars1 vars2 h1 h2
    rw [Bool.eq_iff_iff, containsMonoLoop_iff, containsMono_iff_subset, ← h1, ← h2]
    simp [Finset.subset_iff]

theorem mul_singleton_singleton (m1 m2 : BooleMonomial) :
    BoolePolynomial.mul {m1} {m2} = {m1 ∪ m2} := by
  unfold BoolePolynomial.mul
  rw [Finset.singleton_product_singleton, Finset.image_singleton]
  apply Finset.filter_true_of_mem
  intro M hM
  rw [Finset.mem_singleton] at hM
  subst hM
  rw [Finset.filter_true_of_mem (by simp)]
  rfl

/-- C13: in the boolean ring, where the product of two monomials is the monomial on the
union of their variables, `containsMono(m1, m2)` is true exactly when `m1 * m2 = m1`, that
is, exactly when `m2` divides `m1`. The product of the ring on single-monomial polynomials
is this product of monomials. -/
theorem containsMono_iff_mul_eq (m1 m2 : BooleMonomial) :
    (containsMono m1 m2 = true ↔ BooleMonomial.mul m1 m2 = m1) ∧
    (containsMono m1 m2 = true ↔ BooleMonomial.Divides m2 m1) ∧
    BoolePolynomial.mul {m1} {m2} = {BooleMonomial.mul m1 m2} ∧
    (∀ x : Nat, BooleMonomial.mul {x} {x} = {x}) := by
  refine ⟨?_, ?_, mul_singleton_singleton m1 m2, ?_⟩
  · rw [containsMono_iff_subset]
    unfold BooleMonomial.mul
    exact Finset.union_eq_left.symm
  · rw [containsMono_iff_subset]
    unfold BooleMonomial.Divides BooleMonomial.mul
    constructor
    · intro h
      exact ⟨m1, Finset.union_eq_right.2 h⟩
    · rintro ⟨q, rfl⟩
      exact Finset.subset_union_left
  · intro x
    unfold BooleMonomial.mul
    exact Finset.union_self _

/-- C14: the constant monomial 1 (the empty monomial) is contained in every monomial,
itself included, and it contains no monomial but itself. -/
theorem containsMono_constant (m : BooleMonomial) :
    containsMono m ∅ = true ∧ containsMono ∅ ∅ = true ∧
    (containsMono ∅ m = true ↔ m = ∅) := by
  refine ⟨?_, ?_, ?_⟩
  · rw [containsMono_iff_subset]
    exact Finset.empty_subset m
  · rfl
  · rw [containsMono_iff_subset]
    exact Finset.subset_empty

end ANF

/-! ## Theorems: bounds between the counts of the store -/

namespace ANF

theorem card_allMonoms_le (eqs : List BoolePolynomial) :
    (allMonoms eqs).card ≤ (eqs.map BoolePolynomial.length).sum := by
  induction eqs with
  | nil => simp [allMonoms]
  | cons p ps ih =>
    rw [allMonoms_cons, List.map_cons, List.sum_cons]
    have := Finset.card_union_le p (allMonoms ps)
    have hp : BoolePolynomial.length p = p.card := rfl
    omega

theorem disjoint_allMonoms (p : BoolePolynomial) (ps : List BoolePolynomial) :
    Disjoint p (allMonoms ps) ↔ ∀ q ∈ ps, ∀ m ∈ p, m ∉ q := by
  rw [Finset.disjoint_left]
  constructor
  · intro h q hq m hm hmq
    exact h hm ((mem_allMonoms ps m).2 ⟨q, hq, hmq⟩)
  · intro h m hm hin
    obtain ⟨q, hq, hmq⟩ := (mem_allMonoms ps m).1 hin
    exact h q hq m hm hmq

theorem card_allMonoms_eq_iff (eqs : List BoolePolynomial) :
    (allMonoms eqs).card = (eqs.map BoolePolynomial.length).sum ↔
      eqs.Pairwise (fun p q => ∀ m ∈ p, m ∉ q) := by
  induction eqs with
  | nil => simp [allMonoms]
  | cons p ps ih =>
    rw [allMonoms_cons, List.map_cons, List.sum_cons, List.pairwise_cons, ← ih,
      ← disjoint_allMonoms, ← Finset.card_union_eq_card_add_card]
    have h1 := Finset.card_union_le p (allMonoms ps)
    have h2 := card_allMonoms_le ps
    have hp : BoolePolynomial.length p = p.card := rfl
    constructor
    · intro h
      constructor <;> omega
    · rintro ⟨h3, h4⟩
      omega

/-- C15: `numUniqueMonoms(equations)` is at least the number of monomials of each equation
of the list and at most the sum of the numbers of monomials of all of them, so
`numUniqueMonoms(getEqs()) <= numMonoms()`. The upper bound is attained exactly when no
monomial occurs in two different equations of the list, that is, in the equations at two
different positions. -/
theorem numUniqueMonoms_bounds (a : ANF) (equations : List BoolePolynomial) :
    (∀ p ∈ equations, BoolePolynomial.length p ≤ numUniqueMonoms a equations) ∧
    numUniqueMonoms a equations ≤ (equations.map BoolePolynomial.length).sum ∧
    numUniqueMonoms a (getEqs a) ≤ numMonoms a ∧
    (numUniqueMonoms a equations = (equations.map BoolePolynomial.length).sum ↔
      equations.Pairwise (fun p q => ∀ m ∈ p, m ∉ q)) ∧
    (equations.Pairwise (fun p q => ∀ m ∈ p, m ∉ q) ↔
      ∀ i j, i < j → j < equations.length →
        ∀ m, m ∈ equations.getD i ∅ → m ∉ equations.getD j ∅) := by
  have hcard : ∀ l : List BoolePolynomial, numUniqueMonoms a l = (allMonoms l).card := by
    intro l
    unfold numUniqueMonoms
    rw [foldl_insertMonoms, Finset.union_empty]
  refine ⟨?_, ?_, ?_, ?_, ?_⟩
  · intro p hp
    rw [hcard]
    apply Finset.card_le_card
    intro m hm
    exact (mem_allMonoms equations m).2 ⟨p, hp, hm⟩
  · rw [hcard]
    exact card_allMonoms_le equations
  · rw [hcard]
    unfold getEqs numMonoms
    rw [foldl_add_length, Nat.zero_add]
    exact card_allMonoms_le a.eqs
  · rw [hcard]
    exact card_allMonoms_eq_iff equations
  · rw [List.pairwise_iff_getElem]
    constructor
    · intro h i j hij hj m hmi
      have hi : i < equations.length := by omega
      have := h i j hi hj hij m
      rw [List.getD_eq_getElem?_getD, List.getElem?_eq_getElem hi] at hmi
      rw [List.getD_eq_getElem?_getD, List.getElem?_eq_getElem hj]
      exact this hmi
    · intro h i j hi hj hij m hmi
      have := h i j hij hj m
      rw [List.getD_eq_getElem?_getD, List.getElem?_eq_getElem hi,
        List.getD_eq_getElem?_getD, List.getElem?_eq_getElem hj] at this
      exact this hmi

theorem sum_length_eq_zero_iff (eqs : List BoolePolynomial) :
    (eqs.map BoolePolynomial.length).sum = 0 ↔ ∀ p ∈ eqs, p = BoolePolynomial.zero := by
  induction eqs with
  | nil => simp
  | cons p ps ih =>
    rw [List.map_cons, List.sum_cons, Nat.add_eq_zero, ih]
    have hp : BoolePolynomial.length p = 0 ↔ p = BoolePolynomial.zero := Finset.card_eq_zero
    rw [hp]
    simp

theorem countP_nonzero_le_sum (eqs : List BoolePolynomial) :
    eqs.countP (fun p => !BoolePolynomial.isZero p) ≤ (eqs.map BoolePolynomial.length).sum := by
  induction eqs with
  | nil => simp
  | cons p ps ih =>
    rw [List.map_cons, List.sum_cons, List.countP_cons]
    by_cases h : BoolePolynomial.isZero p = true
    · simp only [h, Bool.not_true, Bool.false_eq_true, if_false]
      omega
    · have hp : p ≠ ∅ := by
        intro hc
        apply h
        unfold BoolePolynomial.isZero
        exact decide_eq_true hc
      have hpos : 0 < BoolePolynomial.length p := Finset.card_pos.2
        (Finset.nonempty_iff_ne_empty.2 hp)
      simp only [h, Bool.not_false, if_true]
      omega

/-- C16: on a store in which no slot holds the zero polynomial `size() <= numMonoms()`; on
every store the number of non-empty slots is at most `numMonoms()`, and `numMonoms() == 0`
exactly when every stored equation is the zero polynomial. -/
theorem size_le_numMonoms (a : ANF) :
    ((∀ p ∈ a.eqs, p ≠ BoolePolynomial.zero) → size a ≤ numMonoms a) ∧
    numNonEmptySlots a ≤ numMonoms a ∧
    (numMonoms a = 0 ↔ ∀ p ∈ a.eqs, p = BoolePolynomial.zero) := by
  have hnum : numMonoms a = (a.eqs.map BoolePolynomial.length).sum := by
    unfold numMonoms
    rw [foldl_add_length, Nat.zero_add]
  have hle : numNonEmptySlots a ≤ numMonoms a := by
    rw [hnum]
    exact countP_nonzero_le_sum a.eqs
  refine ⟨?_, hle, ?_⟩
  · intro h
    have hz := (countP_isZero_eq_zero a.eqs).2 h
    have hadd := countP_isZero_add a.eqs
    unfold numNonEmptySlots at hle
    unfold size
    omega
  · rw [hnum]
    exact sum_length_eq_zero_iff a.eqs

end ANF

/-! ## Theorems: linear polynomials -/

namespace BoolePolynomial

theorem mem_linear (V : Finset Nat) (c : Bool) (m : BooleMonomial) :
    m ∈ linear V c ↔ (∃ v ∈ V, m = {v}) ∨ (c = true ∧ m = ∅) := by
  unfold linear
  rw [Finset.mem_union, Finset.mem_image]
  cases c
  · simp [eq_comm]
  · simp [eq_comm]

theorem singleton_mem_linear (V : Finset Nat) (c : Bool) (v : Nat) :
    ({v} : BooleMonomial) ∈ linear V c ↔ v ∈ V := by
  rw [mem_linear]
  constructor
  · rintro (⟨w, hw, h⟩ | ⟨_, h⟩)
    · rw [Finset.singleton_inj] at h
      rw [h]; exact hw
    · exact absurd h (Finset.singleton_ne_empty v)
  · intro h
    exact Or.inl ⟨v, h, rfl⟩

theorem empty_mem_linear (V : Finset Nat) (c : Bool) :
    (∅ : BooleMonomial) ∈ linear V c ↔ c = true := by
  rw [mem_linear]
  constructor
  · rintro (⟨w, _, h⟩ | ⟨h, _⟩)
    · exact absurd h.symm (Finset.singleton_ne_empty w)
    · exact h
  · intro h
    exact Or.inr ⟨h, rfl⟩

theorem add_linear (V W : Finset Nat) (c d : Bool) :
    add (linear V c) (linear W d) = linear (symmDiff V W) (xor c d) := by
  ext m
  rw [mem_add]
  by_cases h0 : m = ∅
  · subst h0
    simp only [empty_mem_linear]
    cases c <;> cases d <;> simp
  · by_cases h1 : ∃ v, m = {v}
    · obtain ⟨v, rfl⟩ := h1
      simp only [singleton_mem_linear, Finset.mem_symmDiff]
    · have hn : ∀ (U : Finset Nat) (e : Bool), m ∉ linear U e := by
        intro U e hm
        rw [mem_linear] at hm
        rcases hm with ⟨v, _, h⟩ | ⟨_, h⟩
        · exact h1 ⟨v, h⟩
        · exact h0 h
      simp [hn]

theorem support_linear (V : Finset Nat) (c : Bool) : support (linear V c) = V := by
  ext v
  rw [mem_support]
  constructor
  · rintro ⟨m, hm, hv⟩
    rw [mem_linear] at hm
    rcases hm with ⟨w, hw, rfl⟩ | ⟨_, rfl⟩
    · rw [Finset.mem_singleton] at hv
      rw [hv]; exact hw
    · simp at hv
  · intro hv
    exact ⟨{v}, (singleton_mem_linear V c v).2 hv, Finset.mem_singleton_self v⟩

theorem linear_empty_true : linear ∅ true = one := by
  unfold linear one
  simp

theorem linear_ne_one (V : Finset Nat) (c : Bool) (h : V.Nonempty) : linear V c ≠ one := by
  obtain ⟨v, hv⟩ := h
  intro heq
  have hm := (singleton_mem_linear V c v).2 hv
  rw [heq] at hm
  unfold one at hm
  rw [Finset.mem_singleton] at hm
  exact Finset.singleton_ne_empty v hm

theorem linear_ne_zero (V : Finset Nat) (c : Bool) (h : V.Nonempty) : linear V c ≠ zero := by
  obtain ⟨v, hv⟩ := h
  intro heq
  have hm := (singleton_mem_linear V c v).2 hv
  rw [heq] at hm
  simp [zero] at hm

theorem linear_pair (u v : Nat) : linear {u, v} false = {{u}, {v}} := by
  unfold linear
  simp [Finset.image_insert]

theorem linear_pair_true (u v : Nat) : linear {u, v} true = {{u}, {v}, ∅} := by
  unfold linear
  ext m
  simp [Finset.image_insert]

theorem deg_linear (V : Finset Nat) (c : Bool) (h : V.Nonempty) : deg (linear V c) = 1 := by
  rw [ANF.poly_deg_eq_one_iff]
  obtain ⟨v, hv⟩ := h
  refine ⟨⟨{v}, (singleton_mem_linear V c v).2 hv, Finset.card_singleton v⟩, ?_⟩
  intro m hm
  rw [mem_linear] at hm
  rcases hm with ⟨w, _, rfl⟩ | ⟨_, rfl⟩
  · simp
  · simp

theorem linear_inj_vars (V W : Finset Nat) (c d : Bool) (h : linear V c = linear W d) :
    V = W := by
  rw [← support_linear V c, h, support_linear]

end BoolePolynomial

/-! ## Theorems: the elimination on the odd-cycle system -/

theorem min'_pair_eq (u v : Nat) (h : ({u, v} : Finset Nat).Nonempty) :
    ({u, v} : Finset Nat).min' h = min u v := by
  have := Finset.min'_insert u {v} (Finset.singleton_nonempty v)
  rw [Finset.min'_singleton] at this
  rw [min_comm]
  exact this

theorem max'_pair_eq (u v : Nat) (h : ({u, v} : Finset Nat).Nonempty) :
    ({u, v} : Finset Nat).max' h = max u v := by
  have := Finset.max'_insert u {v} (Finset.singleton_nonempty v)
  rw [Finset.max'_singleton] at this
  rw [max_comm]
  exact this

theorem gaussJordanStep_one (basis : List (Nat × BoolePolynomial)) (row : BoolePolynomial)
    (h : reduceRow basis row = BoolePolynomial.one) :
    gaussJordanStep (some basis) row = none := by
  unfold gaussJordanStep
  simp only [h, if_true]

theorem gaussJordanStep_linear (basis : List (Nat × BoolePolynomial)) (row : BoolePolynomial)
    (V : Finset Nat) (c : Bool) (hV : V.Nonempty)
    (h : reduceRow basis row = BoolePolynomial.linear V c) :
    gaussJordanStep (some basis) row =
      some (basis.map (fun pr =>
          if {V.min' hV} ∈ pr.2 then (pr.1, BoolePolynomial.add pr.2 (BoolePolynomial.linear V c))
          else pr) ++ [(V.min' hV, BoolePolynomial.linear V c)]) := by
  unfold gaussJordanStep
  simp only [h, BoolePolynomial.support_linear]
  rw [if_neg (BoolePolynomial.linear_ne_one V c hV), dif_pos hV]

theorem reduceRow_one (q : Nat) (r row : BoolePolynomial) :
    reduceRow [(q, r)] row = if {q} ∈ row then BoolePolynomial.add row r else row := rfl

theorem reduceRow_two (q1 q2 : Nat) (r1 r2 row : BoolePolynomial) :
    reduceRow [(q1, r1), (q2, r2)] row =
      reduceRow [(q2, r2)] (if {q1} ∈ row then BoolePolynomial.add row r1 else row) := rfl

theorem gaussJordan_three (r1 r2 r3 : BoolePolynomial) :
    gaussJordan [r1, r2, r3] =
      gaussJordanStep (gaussJordanStep (gaussJordanStep (some []) r1) r2) r3 := rfl

theorem linear_eq_one (V : Finset Nat) (c : Bool) (hV : ∀ x, x ∉ V) (hc : c = true) :
    BoolePolynomial.linear V c = BoolePolynomial.one := by
  rw [Finset.eq_empty_of_forall_not_mem hV, hc]
  exact BoolePolynomial.linear_empty_true

/-- The elimination derives `0 = 1` from the odd-cycle system: after the rows `a + b` and
`b + c`, the row `a + c + 1` reduces to the constant 1, whatever the order of the
variables. -/
theorem gaussJordan_oddCycle (a b c : Nat) (hab : a ≠ b) (hbc : b ≠ c) (hac : a ≠ c) :
    gaussJordan [BoolePolynomial.linear {a, b} false, BoolePolynomial.linear {b, c} false,
      BoolePolynomial.linear {a, c} true] = none := by
  have s1 : gaussJordanStep (some []) (BoolePolynomial.linear {a, b} false) =
      some [(min a b, BoolePolynomial.linear {a, b} false)] := by
    rw [gaussJordanStep_linear [] (BoolePolynomial.linear {a, b} false) {a, b} false
      (by simp) rfl]
    simp [min'_pair_eq]
  rw [gaussJordan_three, s1]
  rcases Nat.lt_or_gt_of_ne hab with h1 | h1
  · rw [min_eq_left (le_of_lt h1)]
    have r2 : reduceRow [(a, BoolePolynomial.linear {a, b} false)]
        (BoolePolynomial.linear {b, c} false) = BoolePolynomial.linear {b, c} false := by
      rw [reduceRow_one, if_neg]
      rw [BoolePolynomial.singleton_mem_linear]
      simp [hab, hac]
    rw [gaussJordanStep_linear _ _ {b, c} false (by simp) r2]
    simp only [List.map_cons, List.map_nil, min'_pair_eq, BoolePolynomial.singleton_mem_linear,
      List.cons_append, List.nil_append]
    rcases Nat.lt_or_gt_of_ne hbc with h2 | h2
    · rw [min_eq_left (le_of_lt h2)]
      apply gaussJordanStep_one
      rw [reduceRow_two, reduceRow_one]
      simp only [BoolePolynomial.singleton_mem_linear, BoolePolynomial.add_linear,
        Finset.mem_symmDiff, Finset.mem_insert, Finset.mem_singleton, hab, hbc, hac,
        hab.symm, hbc.symm, hac.symm, true_or, or_true, false_or, or_false, if_true, if_false,
        not_true_eq_false, not_false_eq_true, and_true, and_false, true_and, false_and,
        eq_self_iff_true]
      apply linear_eq_one _ _ _ rfl
      intro x
      simp only [Finset.mem_symmDiff, Finset.mem_insert, Finset.mem_singleton]
      omega
    · rw [min_eq_right (le_of_lt h2)]
      apply gaussJordanStep_one
      rw [reduceRow_two, reduceRow_one]
      simp only [BoolePolynomial.singleton_mem_linear, BoolePolynomial.add_linear,
        Finset.mem_symmDiff, Finset.mem_insert, Finset.mem_singleton, hab, hbc, hac,
        hab.symm, hbc.symm, hac.symm, true_or, or_true, false_or, or_false, if_true, if_false,
        not_true_eq_false, not_false_eq_true, and_true, and_false, true_and, false_and,
        eq_self_iff_true]
      apply linear_eq_one _ _ _ rfl
      intro x
      simp only [Finset.mem_symmDiff, Finset.mem_insert, Finset.mem_singleton]
      omega
  · rw [min_eq_right (le_of_lt h1)]
    have hset : symmDiff ({b, c} : Finset Nat) {a, b} = {a, c} := by
      ext x
      simp only [Finset.mem_symmDiff, Finset.mem_insert, Finset.mem_singleton]
      omega
    have r2 : reduceRow [(b, BoolePolynomial.linear {a, b} false)]
        (BoolePolynomial.linear {b, c} false) = BoolePolynomial.linear {a, c} false := by
      rw [reduceRow_one, if_pos, BoolePolynomial.add_linear, hset]
      · rfl
      · rw [BoolePolynomial.singleton_mem_linear]
        simp
    rw [gaussJordanStep_linear _ _ {a, c} false (by simp) r2]
    simp only [List.map_cons, List.map_nil, min'_pair_eq, BoolePolynomial.singleton_mem_linear,
      List.cons_append, List.nil_append]
    rcases Nat.lt_or_gt_of_ne hac with h2 | h2
    · rw [min_eq_left (le_of_lt h2)]
      apply gaussJordanStep_one
      rw [reduceRow_two, reduceRow_one]
      simp only [BoolePolynomial.singleton_mem_linear, BoolePolynomial.add_linear,
        Finset.mem_symmDiff, Finset.mem_insert, Finset.mem_singleton, hab, hbc, hac,
        hab.symm, hbc.symm, hac.symm, true_or, or_true, false_or, or_false, if_true, if_false,
        not_true_eq_false, not_false_eq_true, and_true, and_false, true_and, false_and,
        eq_self_iff_true]
      apply linear_eq_one _ _ _ rfl
      intro x
      simp only [Finset.mem_symmDiff, Finset.mem_insert, Finset.mem_singleton]
      omega
    · rw [min_eq_right (le_of_lt h2)]
      apply gaussJordanStep_one
      rw [reduceRow_two, reduceRow_one]
      simp only [BoolePolynomial.singleton_mem_linear, BoolePolynomial.add_linear,
        Finset.mem_symmDiff, Finset.mem_insert, Finset.mem_singleton, hab, hbc, hac,
        hab.symm, hbc.symm, hac.symm, true_or, or_true, false_or, or_false, if_true, if_false,
        not_true_eq_false, not_false_eq_true, and_true, and_false, true_and, false_and,
        eq_self_iff_true]
      apply linear_eq_one _ _ _ rfl
      intro x
      simp only [Finset.mem_symmDiff, Finset.mem_insert, Finset.mem_singleton]
      omega

/-! ## Theorems: simplification of linear polynomials against the tracker -/

namespace BoolePolynomial

theorem mul_one_right (e : BoolePolynomial) : mul e {∅} = e := by
  ext M
  unfold mul
  rw [Finset.mem_filter, Finset.mem_image]
  constructor
  · rintro ⟨⟨⟨m1, m2⟩, hmem, heq⟩, _⟩
    rw [Finset.mem_product, Finset.mem_singleton] at hmem
    obtain ⟨h1, h2⟩ := hmem
    simp only at h2 heq
    rw [h2, Finset.union_empty] at heq
    rw [← heq]
    exact h1
  · intro hM
    refine ⟨⟨(M, ∅), by simp [hM], by simp⟩, ?_⟩
    have hfil : (e ×ˢ ({∅} : BoolePolynomial)).filter (fun mm => mm.1 ∪ mm.2 = M) =
        {(M, ∅)} := by
      ext ⟨m1, m2⟩
      simp only [Finset.mem_filter, Finset.mem_product, Finset.mem_singleton, Prod.mk.injEq]
      constructor
      · rintro ⟨⟨_, h2⟩, h3⟩
        subst h2
        rw [Finset.union_empty] at h3
        exact ⟨h3, rfl⟩
      · rintro ⟨rfl, rfl⟩
        exact ⟨⟨hM, rfl⟩, Finset.union_empty _⟩
    rw [hfil]
    rfl

theorem substVar_linear (x : Nat) (V : Finset Nat) (c : Bool) (e : BoolePolynomial)
    (hx : x ∈ V) : substVar x e (linear V c) = add (linear (V.erase x) c) e := by
  have h0 : (linear V c).filter (fun m => x ∉ m) = linear (V.erase x) c := by
    ext m
    rw [Finset.mem_filter, mem_linear, mem_linear]
    constructor
    · rintro ⟨⟨v, hv, rfl⟩ | ⟨hc, rfl⟩, hnot⟩
      · left
        refine ⟨v, Finset.mem_erase.2 ⟨?_, hv⟩, rfl⟩
        rintro rfl
        exact hnot (Finset.mem_singleton_self v)
      · exact Or.inr ⟨hc, rfl⟩
    · rintro (⟨v, hv, rfl⟩ | ⟨hc, rfl⟩)
      · rw [Finset.mem_erase] at hv
        refine ⟨Or.inl ⟨v, hv.2, rfl⟩, ?_⟩
        rw [Finset.mem_singleton]
        exact fun h => hv.1 h.symm
      · exact ⟨Or.inr ⟨hc, rfl⟩, by simp⟩
  have h1 : (linear V c).filter (fun m => x ∈ m) = {{x}} := by
    ext m
    rw [Finset.mem_filter, mem_linear, Finset.mem_singleton]
    constructor
    · rintro ⟨⟨v, _, rfl⟩ | ⟨_, rfl⟩, hin⟩
      · rw [Finset.mem_singleton] at hin
        rw [hin]
      · simp at hin
    · rintro rfl
      exact ⟨Or.inl ⟨x, hx, rfl⟩, Finset.mem_singleton_self x⟩
  unfold substVar
  rw [h0, h1, Finset.image_singleton, Finset.erase_singleton, mul_one_right]

end BoolePolynomial

namespace Replacer

theorem valuePoly_lit (w : Nat) (neg : Bool) :
    valuePoly (Resolved.lit w neg) = BoolePolynomial.linear {w} neg := by
  cases neg
  · unfold valuePoly BoolePolynomial.linear
    simp
  · unfold valuePoly BoolePolynomial.linear
    ext m
    simp

theorem resolve_replaced (r : Replacer) (v w : Nat) (neg : Bool)
    (hv : r.lookup v = VarStatus.replaced w neg) (hw : r.lookup w = VarStatus.unset) :
    r.resolve v = Resolved.lit w neg := by
  have hlt : v < r.status.length := lookup_lt_of_ne_unset r v (by rw [hv]; simp)
  unfold resolve
  obtain ⟨n, hn⟩ : ∃ n, r.status.length = n + 1 := ⟨r.status.length - 1, by omega⟩
  rw [hn]
  simp only [resolveAux, hv]
  rw [resolveAux_of_unset r n w _ hw]
  simp

theorem resolve_replaced_twice (r : Replacer) (v w u : Nat) (neg neg2 : Bool) (hvw : v ≠ w)
    (hv : r.lookup v = VarStatus.replaced w neg) (hw : r.lookup w = VarStatus.replaced u neg2)
    (hu : r.lookup u = VarStatus.unset) :
    r.resolve v = Resolved.lit u (xor neg2 neg) := by
  have hlt : v < r.status.length := lookup_lt_of_ne_unset r v (by rw [hv]; simp)
  have hlt2 : w < r.status.length := lookup_lt_of_ne_unset r w (by rw [hw]; simp)
  unfold resolve
  obtain ⟨n, hn⟩ : ∃ n, r.status.length = n + 2 := ⟨r.status.length - 2, by omega⟩
  rw [hn]
  simp only [resolveAux, hv, hw]
  rw [resolveAux_of_unset r n u _ hu]
  simp

theorem range_split (n x : Nat) (hx : x < n) :
    ∃ l1 l2, List.range n = l1 ++ x :: l2 ∧ ∀ v ∈ l1, v < x := by
  obtain ⟨l1, l2, hsplit⟩ := List.append_of_mem (List.mem_range.2 hx)
  refine ⟨l1, l2, hsplit, ?_⟩
  have hp : (l1 ++ x :: l2).Pairwise (· < ·) := hsplit ▸ List.pairwise_lt_range n
  intro v hv
  exact (List.pairwise_append.1 hp).2.2 v hv x (by simp)

/-- Simplification can start with the fixed or replaced variable of smallest index in the
support: the value substituted for it holds no fixed or replaced variable. -/
theorem update_min_step (r : Replacer) (hwf : r.WellFormed) (p : BoolePolynomial) (x : Nat)
    (hset : r.lookup x ≠ VarStatus.unset)
    (hmin : ∀ v ∈ BoolePolynomial.support p, r.lookup v ≠ VarStatus.unset → x ≤ v) :
    r.update p = r.update (BoolePolynomial.substVar x (valuePoly (r.resolve x)) p) := by
  have hlt : x < r.status.length := lookup_lt_of_ne_unset r x hset
  obtain ⟨l1, l2, hsplit, hl1⟩ := range_split _ x hlt
  have hstep : updateVar r p x = BoolePolynomial.substVar x (valuePoly (r.resolve x)) p := by
    unfold updateVar
    rw [if_neg hset]
  generalize hq : BoolePolynomial.substVar x (valuePoly (r.resolve x)) p = q at hstep
  have hsupp : ∀ u ∈ BoolePolynomial.support q,
      (u ∈ BoolePolynomial.support p ∧ u ≠ x) ∨ r.lookup u = VarStatus.unset := by
    intro u hu
    rw [← hq] at hu
    rcases BoolePolynomial.support_substVar _ _ _ _ hu with h | h
    · exact Or.inl h
    · exact Or.inr (support_valuePoly r _ (resolve_good r hwf x hset) u h).1
  have hxq : x ∉ BoolePolynomial.support q := by
    intro hin
    rcases hsupp x hin with h | h
    · exact h.2 rfl
    · exact hset h
  have hpre : ∀ (p' : BoolePolynomial),
      (∀ v ∈ BoolePolynomial.support p', r.lookup v ≠ VarStatus.unset → x ≤ v) →
      l1.foldl (updateVar r) p' = p' := by
    intro p' hp'
    apply foldl_updateVar_eq
    intro v hv
    by_cases hvs : v ∈ BoolePolynomial.support p'
    · left
      by_contra hc
      have := hp' v hvs hc
      have := hl1 v hv
      omega
    · exact Or.inr hvs
  have hminq : ∀ v ∈ BoolePolynomial.support q, r.lookup v ≠ VarStatus.unset → x ≤ v := by
    intro v hv hc
    rcases hsupp v hv with h | h
    · exact hmin v h.1 hc
    · exact absurd h hc
  have hxq' : updateVar r q x = q := by
    unfold updateVar
    rw [if_neg hset]
    exact BoolePolynomial.substVar_of_not_mem _ _ _ hxq
  unfold update
  rw [hsplit, List.foldl_append, List.foldl_cons, List.foldl_append, List.foldl_cons,
    hpre p hmin, hpre q hminq, hstep, hxq']

/-- One step of the simplification of a linear polynomial: the replaced variable `x` of
smallest index gives way to the literal it resolves to. -/
theorem update_linear_step (r : Replacer) (hwf : r.WellFormed) (V : Finset Nat) (t : Bool)
    (x w : Nat) (neg : Bool) (hx : x ∈ V) (hres : r.resolve x = Resolved.lit w neg)
    (hset : r.lookup x ≠ VarStatus.unset)
    (hmin : ∀ v ∈ V, r.lookup v ≠ VarStatus.unset → x ≤ v) :
    r.update (BoolePolynomial.linear V t) =
      r.update (BoolePolynomial.linear (symmDiff (V.erase x) {w}) (xor t neg)) := by
  rw [update_min_step r hwf _ x hset (by rw [BoolePolynomial.support_linear]; exact hmin),
    hres, valuePoly_lit, BoolePolynomial.substVar_linear x V t _ hx,
    BoolePolynomial.add_linear]

theorem update_linear_unset (r : Replacer) (V : Finset Nat) (t : Bool)
    (h : ∀ v ∈ V, r.lookup v = VarStatus.unset) :
    r.update (BoolePolynomial.linear V t) = BoolePolynomial.linear V t := by
  apply update_eq_self
  rw [BoolePolynomial.support_linear]
  exact h

end Replacer

/-! ## Theorems: the odd-cycle system in the container -/

theorem classify_linear_pair (u v : Nat) (c : Bool) (huv : u ≠ v) :
    classify (BoolePolynomial.linear {u, v} c) =
      some (LinearFact.replaced (max u v) (min u v) c) := by
  have hne : ({u, v} : Finset Nat).Nonempty := by simp
  have hdec : decide ((∅ : BooleMonomial) ∈ BoolePolynomial.linear {u, v} c) = c := by
    cases c
    · rw [decide_eq_false_iff_not, BoolePolynomial.empty_mem_linear]
      simp
    · rw [decide_eq_true_iff, BoolePolynomial.empty_mem_linear]
  unfold classify
  rw [if_pos (BoolePolynomial.deg_linear _ c hne)]
  simp only [BoolePolynomial.support_linear]
  rw [dif_pos hne, Finset.card_pair huv, if_neg (by decide), if_pos rfl, max'_pair_eq,
    min'_pair_eq, hdec]

namespace ANF

/-- Insertion of a polynomial that simplifies to `u + v` with `u < v`, not yet in the store:
the equation gets a new slot and `v` is replaced by `u` at once. -/
theorem addBoolePolynomial_pair (a : ANF) (poly : BoolePolynomial) (u v : Nat) (huv : u < v)
    (hok : a.replacer.ok = true)
    (hupd : a.replacer.update poly = BoolePolynomial.linear {u, v} false)
    (hnew : BoolePolynomial.linear {u, v} false ∉ a.eqs)
    (hv : a.replacer.lookup v = VarStatus.unset) (hlt : v < a.replacer.status.length) :
    (addBoolePolynomial a poly).1.replacer.ok = true ∧
    (∀ x, (addBoolePolynomial a poly).1.replacer.lookup x =
      if x = v then VarStatus.replaced u false else a.replacer.lookup x) ∧
    (addBoolePolynomial a poly).1.replacer.status.length = a.replacer.status.length ∧
    (addBoolePolynomial a poly).1.eqs = a.eqs ++ [BoolePolynomial.linear {u, v} false] := by
  have hne : ({u, v} : Finset Nat).Nonempty := by simp
  have hmax : max u v = v := max_eq_right (le_of_lt huv)
  have hminuv : min u v = u := min_eq_left (le_of_lt huv)
  have heq : (addBoolePolynomial a poly).1 =
      { a with
        eqs := a.eqs ++ [BoolePolynomial.linear {u, v} false]
        occur := addPolyToOccur a.occur (BoolePolynomial.linear {u, v} false) a.eqs.length
        replacer := { a.replacer with
          status := a.replacer.status.set v (VarStatus.replaced u false) }
        updatedVars := insert v a.updatedVars } := by
    unfold addBoolePolynomial
    rw [if_pos hok]
    simp only [hupd]
    rw [if_neg (BoolePolynomial.linear_ne_zero _ _ hne),
      if_neg (BoolePolynomial.linear_ne_one _ _ hne), if_neg hnew]
    simp only [learn, classify_linear_pair u v false (ne_of_lt huv), hmax, hminuv]
    rw [Replacer.setReplaced_of_unset _ _ _ _ hv]
  rw [heq]
  refine ⟨hok, ?_, by simp, rfl⟩
  intro x
  have h := Replacer.lookup_set a.replacer v (VarStatus.replaced u false) x
  refine Eq.trans h ?_
  by_cases hx : x = v
  · rw [if_pos ⟨hx, hlt⟩, if_pos hx]
  · rw [if_neg (fun hc => hx hc.1), if_neg hx]

/-- Insertion of a polynomial that simplifies to the constant 1: the inconsistency flag is
set. -/
theorem addBoolePolynomial_one (a : ANF) (poly : BoolePolynomial)
    (hupd : a.replacer.update poly = BoolePolynomial.one) :
    (addBoolePolynomial a poly).1.replacer.ok = false := by
  unfold addBoolePolynomial
  by_cases hok : a.replacer.ok = true
  · rw [if_pos hok]
    simp only [hupd]
    rw [if_neg (by decide)]
    rfl
  · rw [if_neg hok]
    simpa using hok

theorem elimLin_of_not_ok (a : ANF) (h : a.replacer.ok = false) : (elimLin a).1 = a := by
  unfold elimLin
  rw [if_neg (by simp [h])]

theorem inRing_linear (n : Nat) (V : Finset Nat) (c : Bool) (h : ∀ v ∈ V, v < n) :
    BoolePolynomial.inRing n (BoolePolynomial.linear V c) := by
  intro v hv
  rw [BoolePolynomial.support_linear] at hv
  exact h v hv

theorem update_one (r : Replacer) : r.update BoolePolynomial.one = BoolePolynomial.one := by
  apply Replacer.update_eq_self
  intro v hv
  rw [BoolePolynomial.mem_support] at hv
  obtain ⟨m, hm, hvm⟩ := hv
  unfold BoolePolynomial.one at hm
  rw [Finset.mem_singleton] at hm
  subst hm
  simp at hvm

/-- The last step of a simplification to the constant 1: the replaced variable `x` gives way
to the literal `w`, which cancels the other variable of `x + w + 1`. -/
theorem update_pair_cancel (r : Replacer) (hwf : r.WellFormed) (x w : Nat) (hxw : x ≠ w)
    (hres : r.resolve x = Resolved.lit w false) (hset : r.lookup x ≠ VarStatus.unset)
    (hw : r.lookup w = VarStatus.unset) :
    r.update (BoolePolynomial.linear {x, w} true) = BoolePolynomial.one := by
  rw [Replacer.update_linear_step r hwf {x, w} true x w false (by simp) hres hset]
  · have hone : BoolePolynomial.linear (symmDiff (({x, w} : Finset Nat).erase x) {w})
        (xor true false) = BoolePolynomial.one := by
      apply linear_eq_one _ _ _ rfl
      intro y
      simp only [Finset.mem_symmDiff, Finset.mem_erase, Finset.mem_insert,
        Finset.mem_singleton]
      omega
    rw [hone, update_one]
  · intro v hv hvset
    simp only [Finset.mem_insert, Finset.mem_singleton] at hv
    rcases hv with rfl | rfl
    · exact le_refl _
    · exact absurd hw hvset

end ANF

namespace ANF

/-- One insertion of a linear equation on two variables into a reachable state without
inconsistency. -/
theorem insert_pair_step (S : ANF) (n : Nat) (poly : BoolePolynomial) (u v : Nat)
    (hr : Reachable S) (hn : S.replacer.status.length = n)
    (hring : BoolePolynomial.inRing n poly) (huv : u < v) (hvn : v < n)
    (hok : S.replacer.ok = true)
    (hupd : S.replacer.update poly = BoolePolynomial.linear {u, v} false)
    (hnew : BoolePolynomial.linear {u, v} false ∉ S.eqs)
    (hv : S.replacer.lookup v = VarStatus.unset) :
    Reachable (addBoolePolynomial S poly).1 ∧
    (addBoolePolynomial S poly).1.replacer.WellFormed ∧
    (addBoolePolynomial S poly).1.replacer.ok = true ∧
    (∀ x, (addBoolePolynomial S poly).1.replacer.lookup x =
      if x = v then VarStatus.replaced u false else S.replacer.lookup x) ∧
    (addBoolePolynomial S poly).1.replacer.status.length = n ∧
    (addBoolePolynomial S poly).1.eqs = S.eqs ++ [BoolePolynomial.linear {u, v} false] := by
  have hinv := (reachable_inv S hr).1
  have hreach : Reachable (addBoolePolynomial S poly).1 := by
    apply Reachable.addBoolePolynomial S poly hr
    unfold getNumVars
    rw [hinv.occur_length, hn]
    exact hring
  obtain ⟨h1, h2, h3, h4⟩ := addBoolePolynomial_pair S poly u v huv hok hupd hnew hv
    (by rw [hn]; exact hvn)
  exact ⟨hreach, (reachable_inv _ hreach).1.tracker, h1, h2, by rw [h3, hn], h4⟩

theorem init_status_length (n : Nat) : (init n).replacer.status.length = n := by
  simp [init, Replacer.init]

theorem init_replacer_lookup (n x : Nat) :
    (init n).replacer.lookup x = VarStatus.unset := Replacer.init_lookup n x

theorem linear_not_mem_singleton (V W : Finset Nat) (c d : Bool) (h : V ≠ W) :
    BoolePolynomial.linear V c ∉ [BoolePolynomial.linear W d] := by
  rw [List.mem_singleton]
  exact fun heq => h (BoolePolynomial.linear_inj_vars V W c d heq)

/-- After the insertion of `a + b` and `b + c`, the equation `a + c + 1` simplifies to the
constant 1, whatever the order of the three variables. -/
theorem oddCycle_third_update (n a b c : Nat) (ha : a < n) (hb : b < n) (hc : c < n)
    (hab : a ≠ b) (hbc : b ≠ c) (hac : a ≠ c) :
    (addBoolePolynomial (addBoolePolynomial (init n) (BoolePolynomial.linear {a, b} false)).1
      (BoolePolynomial.linear {b, c} false)).1.replacer.update
        (BoolePolynomial.linear {a, c} true) = BoolePolynomial.one := by
  have hinit : ∀ V : Finset Nat, ∀ t, (init n).replacer.update (BoolePolynomial.linear V t) =
      BoolePolynomial.linear V t :=
    fun V t => Replacer.update_linear_unset _ V t (fun v _ => Replacer.init_lookup n v)
  have hringab : BoolePolynomial.inRing n (BoolePolynomial.linear {a, b} false) := by
    apply inRing_linear
    intro v hv
    simp only [Finset.mem_insert, Finset.mem_singleton] at hv
    omega
  have hringbc : BoolePolynomial.inRing n (BoolePolynomial.linear {b, c} false) := by
    apply inRing_linear
    intro v hv
    simp only [Finset.mem_insert, Finset.mem_singleton] at hv
    omega
  rcases Nat.lt_or_gt_of_ne hab with h1 | h1
  · -- a < b: the first insertion replaces b by a
    obtain ⟨hr1, hwf1, hok1, hl1, hlen1, heqs1⟩ := insert_pair_step (init n) n
      (BoolePolynomial.linear {a, b} false) a b (Reachable.init n) (init_status_length n)
      hringab h1 hb rfl (hinit _ _) (by simp [init]) (Replacer.init_lookup n b)
    simp only [init_replacer_lookup] at hl1
    generalize (addBoolePolynomial (init n) (BoolePolynomial.linear {a, b} false)).1 = S1
      at hr1 hwf1 hok1 hl1 hlen1 heqs1 ⊢
    have hset1 : symmDiff (({b, c} : Finset Nat).erase b) {a} = {a, c} := by
      ext x
      simp only [Finset.mem_symmDiff, Finset.mem_erase, Finset.mem_insert,
        Finset.mem_singleton]
      omega
    have hupd2 : S1.replacer.update (BoolePolynomial.linear {b, c} false) =
        BoolePolynomial.linear {a, c} false := by
      rw [Replacer.update_linear_step S1.replacer hwf1 {b, c} false b a false (by simp)
        (Replacer.resolve_replaced _ b a false (by rw [hl1, if_pos rfl])
          (by rw [hl1, if_neg hab]))
        (by rw [hl1, if_pos rfl]; simp), hset1]
      · apply Replacer.update_linear_unset
        intro v hv
        simp only [Finset.mem_insert, Finset.mem_singleton] at hv
        rw [hl1, if_neg (by omega)]
      · intro v hv hvset
        simp only [Finset.mem_insert, Finset.mem_singleton] at hv
        rcases hv with rfl | rfl
        · exact le_refl _
        · rw [hl1, if_neg (Ne.symm hbc)] at hvset
          exact absurd rfl hvset
    rcases Nat.lt_or_gt_of_ne hac with h2 | h2
    · -- a < c: the second insertion replaces c by a
      obtain ⟨hr2, hwf2, hok2, hl2, hlen2, heqs2⟩ := insert_pair_step S1 n
        (BoolePolynomial.linear {b, c} false) a c hr1 hlen1 hringbc h2 hc hok1 hupd2
        (by rw [heqs1]
            apply linear_not_mem_singleton
            intro heq
            have hcin : c ∈ ({a, b} : Finset Nat) := heq ▸ (by simp)
            simp only [Finset.mem_insert, Finset.mem_singleton] at hcin
            omega)
        (by rw [hl1, if_neg (Ne.symm hbc)])
      generalize (addBoolePolynomial S1 (BoolePolynomial.linear {b, c} false)).1 = S2
        at hr2 hwf2 hok2 hl2 hlen2 heqs2 ⊢
      rw [Finset.pair_comm a c]
      apply update_pair_cancel S2.replacer hwf2 c a (Ne.symm hac)
      · apply Replacer.resolve_replaced
        · rw [hl2, if_pos rfl]
        · rw [hl2, if_neg hac, hl1, if_neg hab]
      · rw [hl2, if_pos rfl]; simp
      · rw [hl2, if_neg hac, hl1, if_neg hab]
    · -- c < a: the second insertion replaces a by c
      have hupd2' : S1.replacer.update (BoolePolynomial.linear {b, c} false) =
          BoolePolynomial.linear {c, a} false := by
        rw [hupd2, Finset.pair_comm]
      obtain ⟨hr2, hwf2, hok2, hl2, hlen2, heqs2⟩ := insert_pair_step S1 n
        (BoolePolynomial.linear {b, c} false) c a hr1 hlen1 hringbc h2 ha hok1 hupd2'
        (by rw [heqs1]
            apply linear_not_mem_singleton
            intro heq
            have hcin : c ∈ ({a, b} : Finset Nat) := heq ▸ (by simp)
            simp only [Finset.mem_insert, Finset.mem_singleton] at hcin
            omega)
        (by rw [hl1, if_neg hab])
      generalize (addBoolePolynomial S1 (BoolePolynomial.linear {b, c} false)).1 = S2
        at hr2 hwf2 hok2 hl2 hlen2 heqs2 ⊢
      apply update_pair_cancel S2.replacer hwf2 a c hac
      · apply Replacer.resolve_replaced
        · rw [hl2, if_pos rfl]
        · rw [hl2, if_neg (Ne.symm hac), hl1, if_neg (Ne.symm hbc)]
      · rw [hl2, if_pos rfl]; simp
      · rw [hl2, if_neg (Ne.symm hac), hl1, if_neg (Ne.symm hbc)]
  · -- b < a: the first insertion replaces a by b
    obtain ⟨hr1, hwf1, hok1, hl1, hlen1, heqs1⟩ := insert_pair_step (init n) n
      (BoolePolynomial.linear {a, b} false) b a (Reachable.init n) (init_status_length n)
      hringab h1 ha rfl (by rw [hinit, Finset.pair_comm]) (by simp [init])
      (Replacer.init_lookup n a)
    simp only [init_replacer_lookup] at hl1
    generalize (addBoolePolynomial (init n) (BoolePolynomial.linear {a, b} false)).1 = S1
      at hr1 hwf1 hok1 hl1 hlen1 heqs1 ⊢
    have hupd2 : S1.replacer.update (BoolePolynomial.linear {b, c} false) =
        BoolePolynomial.linear {b, c} false := by
      apply Replacer.update_linear_unset
      intro v hv
      simp only [Finset.mem_insert, Finset.mem_singleton] at hv
      rw [hl1, if_neg (by omega)]
    have hnew2 : ∀ V : Finset Nat, c ∈ V → BoolePolynomial.linear V false ∉ S1.eqs := by
      intro V hV
      rw [heqs1]
      apply linear_not_mem_singleton
      intro heq
      have hcin : c ∈ ({b, a} : Finset Nat) := heq ▸ hV
      simp only [Finset.mem_insert, Finset.mem_singleton] at hcin
      omega
    rcases Nat.lt_or_gt_of_ne hbc with h2 | h2
    · -- b < c: the second insertion replaces c by b
      obtain ⟨hr2, hwf2, hok2, hl2, hlen2, heqs2⟩ := insert_pair_step S1 n
        (BoolePolynomial.linear {b, c} false) b c hr1 hlen1 hringbc h2 hc hok1 hupd2
        (hnew2 _ (by simp)) (by rw [hl1, if_neg (Ne.symm hac)])
      generalize (addBoolePolynomial S1 (BoolePolynomial.linear {b, c} false)).1 = S2
        at hr2 hwf2 hok2 hl2 hlen2 heqs2 ⊢
      have hla : S2.replacer.lookup a = VarStatus.replaced b false := by
        rw [hl2, if_neg hac, hl1, if_pos rfl]
      have hlb : S2.replacer.lookup b = VarStatus.unset := by
        rw [hl2, if_neg hbc, hl1, if_neg (Ne.symm hab)]
      have hlc : S2.replacer.lookup c = VarStatus.replaced b false := by
        rw [hl2, if_pos rfl]
      rcases Nat.lt_or_gt_of_ne hac with h3 | h3
      · have hset : symmDiff (({a, c} : Finset Nat).erase a) {b} = {c, b} := by
          ext x
          simp only [Finset.mem_symmDiff, Finset.mem_erase, Finset.mem_insert,
            Finset.mem_singleton]
          omega
        rw [Replacer.update_linear_step S2.replacer hwf2 {a, c} true a b false (by simp)
          (Replacer.resolve_replaced _ a b false hla hlb) (by rw [hla]; simp), hset]
        · exact update_pair_cancel S2.replacer hwf2 c b (Ne.symm hbc)
            (Replacer.resolve_replaced _ c b false hlc hlb) (by rw [hlc]; simp) hlb
        · intro v hv _
          simp only [Finset.mem_insert, Finset.mem_singleton] at hv
          omega
      · have hset : symmDiff (({a, c} : Finset Nat).erase c) {b} = {a, b} := by
          ext x
          simp only [Finset.mem_symmDiff, Finset.mem_erase, Finset.mem_insert,
            Finset.mem_singleton]
          omega
        rw [Replacer.update_linear_step S2.replacer hwf2 {a, c} true c b false (by simp)
          (Replacer.resolve_replaced _ c b false hlc hlb) (by rw [hlc]; simp), hset]
        · exact update_pair_cancel S2.replacer hwf2 a b hab
            (Replacer.resolve_replaced _ a b false hla hlb) (by rw [hla]; simp) hlb
        · intro v hv _
          simp only [Finset.mem_insert, Finset.mem_singleton] at hv
          omega
    · -- c < b: the second insertion replaces b by c
      have hupd2' : S1.replacer.update (BoolePolynomial.linear {b, c} false) =
          BoolePolynomial.linear {c, b} false := by
        rw [hupd2, Finset.pair_comm]
      obtain ⟨hr2, hwf2, hok2, hl2, hlen2, heqs2⟩ := insert_pair_step S1 n
        (BoolePolynomial.linear {b, c} false) c b hr1 hlen1 hringbc h2 hb hok1 hupd2'
        (hnew2 _ (by simp)) (by rw [hl1, if_neg (Ne.symm hab)])
      generalize (addBoolePolynomial S1 (BoolePolynomial.linear {b, c} false)).1 = S2
        at hr2 hwf2 hok2 hl2 hlen2 heqs2 ⊢
      have hla : S2.replacer.lookup a = VarStatus.replaced b false := by
        rw [hl2, if_neg hab, hl1, if_pos rfl]
      have hlb : S2.replacer.lookup b = VarStatus.replaced c false := by
        rw [hl2, if_pos rfl]
      have hlc : S2.replacer.lookup c = VarStatus.unset := by
        rw [hl2, if_neg (Ne.symm hbc), hl1, if_neg (Ne.symm hac)]
      exact update_pair_cancel S2.replacer hwf2 a c hac
        (Replacer.resolve_replaced_twice _ a b c false false hab hla hlb hlc)
        (by rw [hla]; simp) hlc

/-- After the insertion of the three equations of the odd-cycle system the inconsistency
flag is set, and `elimLin()` leaves it set. -/
theorem oddCycleInserted_not_ok (n a b c : Nat) (ha : a < n) (hb : b < n) (hc : c < n)
    (hab : a ≠ b) (hbc : b ≠ c) (hac : a ≠ c) :
    (oddCycleInserted n a b c).replacer.ok = false ∧
    (elimLin (oddCycleInserted n a b c)).1.replacer.ok = false := by
  have h : (oddCycleInserted n a b c).replacer.ok = false := by
    unfold oddCycleInserted
    rw [← BoolePolynomial.linear_pair a b, ← BoolePolynomial.linear_pair b c,
      ← BoolePolynomial.linear_pair_true a c]
    exact addBoolePolynomial_one _ _ (oddCycle_third_update n a b c ha hb hc hab hbc hac)
  refine ⟨h, ?_⟩
  rw [elimLin_of_not_ok _ h]
  exact h

end ANF

namespace ANF

theorem oddCycle_eq_linear (a b c : Nat) :
    oddCycle a b c = [BoolePolynomial.linear {a, b} false, BoolePolynomial.linear {b, c} false,
      BoolePolynomial.linear {a, c} true] := by
  unfold oddCycle
  rw [BoolePolynomial.linear_pair, BoolePolynomial.linear_pair, BoolePolynomial.linear_pair_true]

theorem oddCycle_filter (a b c : Nat) :
    (oddCycle a b c).filter
      (fun p => !BoolePolynomial.isZero p && decide (BoolePolynomial.deg p ≤ 1)) =
      oddCycle a b c := by
  rw [List.filter_eq_self]
  intro p hp
  rw [oddCycle_eq_linear] at hp
  have hlin : ∃ (V : Finset Nat) (t : Bool), V.Nonempty ∧ p = BoolePolynomial.linear V t := by
    simp only [List.mem_cons, List.mem_singleton, List.not_mem_nil, or_false] at hp
    rcases hp with rfl | rfl | rfl
    · exact ⟨{a, b}, false, by simp, rfl⟩
    · exact ⟨{b, c}, false, by simp, rfl⟩
    · exact ⟨{a, c}, true, by simp, rfl⟩
  obtain ⟨V, t, hV, rfl⟩ := hlin
  have hz : BoolePolynomial.isZero (BoolePolynomial.linear V t) = false := by
    unfold BoolePolynomial.isZero
    rw [decide_eq_false_iff_not]
    exact BoolePolynomial.linear_ne_zero V t hV
  rw [hz, BoolePolynomial.deg_linear V t hV]
  decide

/-- C11: for all distinct variables `a`, `b`, `c` of a ring of `n` variables, the
elimination run on the odd-cycle system `a + b`, `b + c`, `a + c + 1` derives `0 = 1`;
after `elimLin()` on a container whose store holds the system `getOK() == false`, and so
it is after `elimLin()` on the container into which the three equations have been
inserted, where the third insertion has detected the contradiction already. -/
theorem elimLin_oddCycle (n a b c : Nat) (ha : a < n) (hb : b < n) (hc : c < n)
    (hab : a ≠ b) (hbc : b ≠ c) (hac : a ≠ c) :
    gaussJordan (oddCycle a b c) = none ∧
    (∀ s : ANF, s.eqs = oddCycle a b c → getOK (elimLin s).1 = false) ∧
    getOK (elimLin (oddCycleInserted n a b c)).1 = false := by
  have hg : gaussJordan (oddCycle a b c) = none := by
    rw [oddCycle_eq_linear]
    exact gaussJordan_oddCycle a b c hab hbc hac
  refine ⟨hg, ?_, (oddCycleInserted_not_ok n a b c ha hb hc hab hbc hac).2⟩
  intro s hs
  unfold getOK elimLin
  by_cases hok : s.replacer.ok = true
  · rw [if_pos hok, hs, oddCycle_filter, hg]
    rfl
  · rw [if_neg hok]
    simpa using hok

/-- C11 (witness): the odd-cycle system on `x0`, `x1`, `x2` in the ring of three variables,
in a store that holds it and after its insertion. -/
theorem elimLin_oddCycle_witness :
    (0 < 3 ∧ 1 < 3 ∧ 2 < 3 ∧ 0 ≠ 1 ∧ 1 ≠ 2 ∧ 0 ≠ 2) ∧
    gaussJordan (oddCycle 0 1 2) = none ∧
    getOK (elimLin exampleOddCycle).1 = false ∧
    getOK (elimLin (oddCycleInserted 3 0 1 2)).1 = false :=
  ⟨by decide,
    (elimLin_oddCycle 3 0 1 2 (by decide) (by decide) (by decide) (by decide) (by decide)
      (by decide)).1,
    (elimLin_oddCycle 3 0 1 2 (by decide) (by decide) (by decide) (by decide) (by decide)
      (by decide)).2.1 exampleOddCycle rfl,
    (elimLin_oddCycle 3 0 1 2 (by decide) (by decide) (by decide) (by decide) (by decide)
      (by decide)).2.2⟩

end ANF
